import Mathlib

/-!
Verification of the mapsh-pit matching-and-clustering engine.

The definitions below are a shallow embedding of the TypeScript sources:
`src/jaro-winkler.ts`, `src/token-set-ratio.ts`, `src/geo-utils.ts` and
`src/dedup.ts`.  Strings are Lean `String`s, JavaScript numbers holding
similarity scores are modelled as `ℚ` (all score arithmetic in the source is
rational), geographic quantities (coordinates, distances) are modelled as `ℝ`
because the haversine formula uses transcendental functions.  JavaScript
`Set`s and `Map`s are modelled as insertion-ordered lists without duplicate
keys, matching the iteration-order semantics the code relies on.
-/

namespace Mapsh

/-! ### JavaScript character classes and string splitting -/

/-- The characters matched by the JavaScript regex class `\s` (ASCII part). -/
def jsIsSpaceChar (c : Char) : Bool :=
  c = ' ' || c = '\t' || c = '\n' || c = '\r' || c = '\x0b' || c = '\x0c'

/-- The characters matched by the JavaScript regex class `\w`. -/
def jsIsWordChar (c : Char) : Bool :=
  ('a' ≤ c && c ≤ 'z') || ('A' ≤ c && c ≤ 'Z') || ('0' ≤ c && c ≤ '9') || c = '_'

/-- JavaScript `toLowerCase` (ASCII; `Char.toLower` is the per-character
mapping). -/
def jsToLower (s : String) : String :=
  String.mk (s.data.map Char.toLower)

/-- JavaScript `trim`: drop whitespace from both ends. -/
def jsTrim (s : String) : String :=
  String.mk (((s.data.dropWhile jsIsSpaceChar).reverse.dropWhile jsIsSpaceChar).reverse)

/-- JavaScript `<` on strings: lexicographic by code unit. -/
def jsStringLt : List Char → List Char → Bool
  | [], [] => false
  | [], _ :: _ => true
  | _ :: _, [] => false
  | a :: as, b :: bs => if a < b then true else if b < a then false else jsStringLt as bs

/-- JavaScript `str.split(/\s+/)`: segments between maximal whitespace runs,
with an empty leading (trailing) segment when the string starts (ends) with
whitespace, and `[""]` for the empty string. -/
def jsSplitWs (s : String) : List String :=
  let step := fun (acc : List String × List Char × Bool) (c : Char) =>
    if jsIsSpaceChar c then
      if acc.2.2 then (acc.1, acc.2.1, true)
      else (acc.1 ++ [String.mk acc.2.1.reverse], [], true)
    else (acc.1, c :: acc.2.1, false)
  let fin := s.data.foldl step ([], [], false)
  fin.1 ++ [String.mk fin.2.1.reverse]

/-! ### Jaro–Winkler similarity (`jaro-winkler.ts`)

`jaroSimilarity` is the two-phase loop of the source: a greedy matching pass
(each `i` of the first string scans its window of the second string for the
first unused equal character) followed by the transposition-counting pass
(a pointer `k` walks the matched positions of the second string). -/

/-- One scan of the inner `j` loop of the matching pass: the first index `j`
in `[start, stop)` with `s2Matches[j]` unset and `s1[i] = s2[j]`. -/
def jaroScan (c : Char) (a2 : List Char) (s2M : List Bool) (start stop : Nat) :
    Option Nat :=
  (List.range' start (stop - start)).find?
    (fun j => !(s2M.getD j false) && (a2.getD j ' ' = c))

/-- The matching pass over a list of `i` indices.  State: the two match-flag
arrays and the number of matches. -/
def jaroMatchLoop (a1 a2 : List Char) (w : Nat) :
    List Nat → List Bool × List Bool × Nat → List Bool × List Bool × Nat
  | [], st => st
  | i :: rest, (s1M, s2M, m) =>
    match jaroScan (a1.getD i ' ') a2 s2M (i - w) (min (i + w + 1) a2.length) with
    | some j => jaroMatchLoop a1 a2 w rest (s1M.set i true, s2M.set j true, m + 1)
    | none => jaroMatchLoop a1 a2 w rest (s1M, s2M, m)

/-- The matching pass of `jaroSimilarity`. -/
def jaroMatchFold (a1 a2 : List Char) (w : Nat) : List Bool × List Bool × Nat :=
  jaroMatchLoop a1 a2 w (List.range a1.length)
    (List.replicate a1.length false, List.replicate a2.length false, 0)

/-- `while (!s2Matches[k]) k++`: the first index `≥ k` whose flag is set
(`s2M.length` when there is none). -/
def firstTrueFrom (s2M : List Bool) (k : Nat) : Nat :=
  ((List.range' k (s2M.length - k)).find? (fun j => s2M.getD j false)).getD s2M.length

/-- The transposition-counting pass over a list of `i` indices, carrying the
pointer `k` and the running count. -/
def jaroTransLoop (a1 a2 : List Char) (s1M s2M : List Bool) :
    List Nat → Nat → Nat → Nat
  | [], _, t => t
  | i :: rest, k, t =>
    if s1M.getD i false then
      let k2 := firstTrueFrom s2M k
      jaroTransLoop a1 a2 s1M s2M rest (k2 + 1)
        (if a1.getD i ' ' = a2.getD k2 ' ' then t else t + 1)
    else jaroTransLoop a1 a2 s1M s2M rest k t

/-- The transposition count of `jaroSimilarity`. -/
def jaroTrans (a1 a2 : List Char) (s1M s2M : List Bool) : Nat :=
  jaroTransLoop a1 a2 s1M s2M (List.range a1.length) 0 0

/-- `jaroSimilarity` from `jaro-winkler.ts`: equal strings score 1, an empty
side scores 0, a negative match window scores 0, otherwise the Jaro formula
over matches and transpositions. -/
def jaroSimilarity (s1 s2 : String) : ℚ :=
  if s1 = s2 then 1
  else if s1.isEmpty || s2.isEmpty then 0
  else
    let a1 := s1.data
    let a2 := s2.data
    if max a1.length a2.length / 2 = 0 then 0
    else
      let w := max a1.length a2.length / 2 - 1
      let st := jaroMatchFold a1 a2 w
      let m := st.2.2
      if m = 0 then 0
      else
        let t := jaroTrans a1 a2 st.1 st.2.1
        ((m : ℚ) / a1.length + (m : ℚ) / a2.length
          + ((m : ℚ) - (t : ℚ) / 2) / (m : ℚ)) / 3

/-- `commonPrefixLength`: length of the common prefix, capped at 4. -/
def commonPrefixAux : List Char → List Char → Nat → Nat
  | _, _, 0 => 0
  | c1 :: r1, c2 :: r2, n + 1 => if c1 = c2 then commonPrefixAux r1 r2 n + 1 else 0
  | [], _, _ + 1 => 0
  | _ :: _, [], _ + 1 => 0

/-- `commonPrefixLength` from `jaro-winkler.ts`. -/
def commonPrefixLength (s1 s2 : String) : Nat :=
  commonPrefixAux s1.data s2.data 4

/-- `jaroWinklerSimilarity` from `jaro-winkler.ts`: lowercase and trim both
inputs, then add the Winkler prefix bonus to the Jaro score.  The scaling
factor is clamped to `[0, 0.25]` and defaults to `0.1`. -/
def jaroWinklerSimilarity (s1 s2 : String) (scalingFactor : ℚ := 1/10) : ℚ :=
  let str1 := jsTrim (jsToLower s1)
  let str2 := jsTrim (jsToLower s2)
  if str1 = str2 then 1
  else if str1.isEmpty || str2.isEmpty then 0
  else
    let p := min (max scalingFactor 0) (1/4)
    let jaro := jaroSimilarity str1 str2
    let pfx := commonPrefixLength str1 str2
    jaro + pfx * p * (1 - jaro)

/-! ### Tokenisation and token-set ratio (`token-set-ratio.ts`) -/

/-- `tokenize`: lowercase, strip punctuation to whitespace, split, drop empty
tokens and length-1 tokens that are not a single digit. -/
def tokenize (s : String) : List String :=
  if s.isEmpty then []
  else
    (((jsSplitWs (String.mk ((jsToLower s).data.map
          (fun c => if jsIsWordChar c || jsIsSpaceChar c then c else ' ')))).filter
        (fun t => t.length > 0)).filter
      (fun t => t.length > 1 || (t.length = 1 && (t.data.getD 0 ' ').isDigit)))

/-- One step of a stable insertion sort: place `a` after every element `b`
already in the (sorted) list with `le b a`, so that elements the comparator
ties keep their original relative order. -/
def insertEl (le : α → α → Bool) : List α → α → List α
  | [], a => [a]
  | b :: bs, a => if le b a then b :: insertEl le bs a else a :: b :: bs

/-- A stable sort (insertion sort).  JavaScript `Array.prototype.sort` is
required to be stable, and a stable sort's output is uniquely determined by
the comparator, so this models it exactly. -/
def stableSort (le : α → α → Bool) (l : List α) : List α :=
  l.foldl (insertEl le) []

/-- JavaScript array default sort on strings (lexicographic, ascending). -/
def sortStrings (l : List String) : List String :=
  stableSort (fun a b => !jsStringLt b.data a.data) l

/-- `sortedTokenString`: sort tokens alphabetically and join with spaces. -/
def sortedTokenString (tokens : List String) : String :=
  String.intercalate " " (sortStrings tokens)

/-- `tokenSortRatio`: compare the two alphabetically sorted token strings. -/
def tokenSortRatio (s1 s2 : String) : ℚ :=
  let tokens1 := tokenize s1
  let tokens2 := tokenize s2
  if tokens1.length = 0 && tokens2.length = 0 then 1
  else if tokens1.length = 0 || tokens2.length = 0 then 0
  else jaroWinklerSimilarity (sortedTokenString tokens1) (sortedTokenString tokens2)

/-- `tokenSetRatio`: split the token sets into intersection and remainders,
compare the three sorted combination strings pairwise and take the maximum,
falling back to `tokenSortRatio` when the intersection is empty.  A JavaScript
`Set` keeps first-occurrence order, hence `eraseDups`. -/
def tokenSetRatio (s1 s2 : String) : ℚ :=
  let tokens1 := (tokenize s1).eraseDups
  let tokens2 := (tokenize s2).eraseDups
  if tokens1.length = 0 && tokens2.length = 0 then 1
  else if tokens1.length = 0 || tokens2.length = 0 then 0
  else
    let intersection := tokens1.filter (fun t => tokens2.contains t)
    let remainder1 := tokens1.filter (fun t => !tokens2.contains t)
    let remainder2 := tokens2.filter (fun t => !tokens1.contains t)
    let intersectionSorted := sortedTokenString intersection
    let combined1 := sortedTokenString (intersection ++ remainder1)
    let combined2 := sortedTokenString (intersection ++ remainder2)
    if intersection.length = 0 then tokenSortRatio s1 s2
    else
      let scores :=
        (if intersectionSorted ≠ "" && combined1 ≠ "" then
          [jaroWinklerSimilarity intersectionSorted combined1] else []) ++
        (if intersectionSorted ≠ "" && combined2 ≠ "" then
          [jaroWinklerSimilarity intersectionSorted combined2] else []) ++
        (if combined1 ≠ "" && combined2 ≠ "" then
          [jaroWinklerSimilarity combined1 combined2] else [])
      if intersectionSorted = combined1 ∧ combined1 = combined2 then 1
      else scores.foldl max 0

/-! ### Blocking-word detection (`token-set-ratio.ts`) -/

/-- `BLOCKING_WORDS.directions`. -/
def BLOCKING_DIRECTIONS : List String :=
  ["north", "south", "east", "west", "upper", "lower", "inner", "outer"]

/-- `BLOCKING_WORDS.temporal`. -/
def BLOCKING_TEMPORAL : List String :=
  ["old", "new", "former", "current", "original", "modern", "historic"]

/-- `BLOCKING_WORDS.numbered`. -/
def BLOCKING_NUMBERED : List String :=
  ["first", "second", "third", "fourth", "fifth", "1st", "2nd", "3rd", "4th", "5th"]

/-- The literal words of `IDENTIFIER_PATTERNS` (each pattern is
`\b<word>\s*[a-z0-9]+\b`, case-insensitive). -/
def IDENTIFIER_WORDS : List String :=
  ["building", "unit", "wing", "ward", "phase", "section", "block", "lot"]

/-- A character matched by `[a-z0-9]` (the input is lowercased first). -/
def isLowerAlnum (c : Char) : Bool :=
  ('a' ≤ c && c ≤ 'z') || ('0' ≤ c && c ≤ '9')

/-- Try the regex `\b<w>\s*[a-z0-9]+\b` at offset `k` of `cs`; on success the
matched substring (word, whitespace run, identifier run). -/
def matchIdentAt (w : List Char) (cs : List Char) (k : Nat) : Option String :=
  if (k = 0 || !jsIsWordChar (cs.getD (k - 1) ' ')) && w.isPrefixOf (cs.drop k) then
    let after := (cs.drop k).drop w.length
    let sp := after.takeWhile jsIsSpaceChar
    let rest := after.dropWhile jsIsSpaceChar
    let run := rest.takeWhile isLowerAlnum
    let next := rest.drop run.length
    if run ≠ [] && (next = [] || !jsIsWordChar (next.getD 0 ' ')) then
      some (String.mk (w ++ sp ++ run))
    else none
  else none

/-- `name.toLowerCase().match(pattern)`: the leftmost match of the identifier
pattern built from `w`. -/
def matchIdentifier (w : String) (s : String) : Option String :=
  let cs := (jsToLower s).data
  ((List.range (cs.length + 1)).filterMap (fun k => matchIdentAt w.data cs k)).head?

/-- The category sets of `extractBlockingWords`. -/
structure BlockingWords where
  directions : List String
  temporal : List String
  numbered : List String
  identifiers : List String
deriving Repr, DecidableEq

/-- `extractBlockingWords` from `token-set-ratio.ts`. -/
def extractBlockingWords (name : String) : BlockingWords :=
  let tokens := tokenize name
  { directions := (tokens.filter (fun t => BLOCKING_DIRECTIONS.contains t)).eraseDups
    temporal := (tokens.filter (fun t => BLOCKING_TEMPORAL.contains t)).eraseDups
    numbered := (tokens.filter (fun t => BLOCKING_NUMBERED.contains t)).eraseDups
    identifiers := IDENTIFIER_WORDS.filterMap (fun w => matchIdentifier w name) }

/-- The nested loops of `checkBlockingConflict`: the first pair of differing
values, outer list first. -/
def firstDiffPair (l1 l2 : List String) : Option (String × String) :=
  (l1.flatMap (fun a => l2.filterMap (fun b => if a ≠ b then some (a, b) else none))).head?

/-- The result record of `checkBlockingConflict`. -/
structure BlockingConflict where
  hasConflict : Bool
  conflictType : Option String
  details : Option String
deriving Repr, DecidableEq

/-- `checkBlockingConflict` from `token-set-ratio.ts`: categories are checked
in the fixed order direction, temporal, numbered, identifier; the first pair
of differing same-category values is a conflict. -/
def checkBlockingConflict (name1 name2 : String) : BlockingConflict :=
  let b1 := extractBlockingWords name1
  let b2 := extractBlockingWords name2
  match firstDiffPair b1.directions b2.directions with
  | some (d1, d2) => ⟨true, some "direction", some (d1 ++ " vs " ++ d2)⟩
  | none =>
    match firstDiffPair b1.temporal b2.temporal with
    | some (t1, t2) => ⟨true, some "temporal", some (t1 ++ " vs " ++ t2)⟩
    | none =>
      match firstDiffPair b1.numbered b2.numbered with
      | some (u1, u2) => ⟨true, some "numbered", some (u1 ++ " vs " ++ u2)⟩
      | none =>
        match firstDiffPair b1.identifiers b2.identifiers with
        | some (i1, i2) => ⟨true, some "identifier", some (i1 ++ " vs " ++ i2)⟩
        | none => ⟨false, none, none⟩

/-! ### Generic-name detection (`token-set-ratio.ts`) -/

/-- `GENERIC_NAMES`. -/
def GENERIC_NAMES : List String :=
  ["house", "church", "school", "factory", "industrial", "industry", "building",
   "farm", "barn", "mill", "warehouse", "store", "shop", "hotel", "motel",
   "hospital", "office", "station", "tower", "plant", "center", "site", "place",
   "location", "point", "cars", "trains", "trucks"]

/-- `SUGGESTION_GENERIC_WORDS`. -/
def SUGGESTION_GENERIC_WORDS : List String :=
  ["house", "houses", "church", "churches", "school", "schools",
   "factory", "industrial", "industry", "building", "farm", "farms",
   "barn", "mill", "warehouse", "store", "shop", "hotel", "motel",
   "hospital", "office", "station", "tower", "plant", "center",
   "site", "place", "location", "point", "cars", "trains", "trucks",
   "quarry", "cabin", "greenhouse", "theater", "trails", "trail"]

/-- `SUGGESTION_REGION_WORDS`. -/
def SUGGESTION_REGION_WORDS : List String :=
  ["cny", "wny", "nny", "eny", "pa", "ny", "in",
   "fingerlakes", "buffalo", "syracuse", "rochester", "binghamton",
   "pittsburgh", "albany", "sayre", "elmira", "waterloo", "lockport",
   "cortland", "maine", "ohio"]

/-- `isGenericName` from `token-set-ratio.ts`. -/
def isGenericName (name : String) : Bool :=
  if name.isEmpty then true
  else
    let tokens := tokenize name
    if tokens.length = 1 && GENERIC_NAMES.contains (tokens.getD 0 "") then true
    else if tokens.length = 2 then
      (tokens.any (fun t => SUGGESTION_GENERIC_WORDS.contains t)) &&
      (tokens.any (fun t => SUGGESTION_REGION_WORDS.contains t))
    else false

/-! ### Name normalisation (`jaro-winkler.ts`) -/

/-- `SINGLE_WORD_ALIASES` from `jaro-winkler.ts` (key, expansion). -/
def SINGLE_WORD_ALIASES : List (String × String) := [
  ("elem", "elementary"),
  ("hs", "high school"),
  ("highschool", "high school"),
  ("jhs", "junior high"),
  ("ms", "middle school"),
  ("univ", "university"),
  ("coll", "college"),
  ("acad", "academy"),
  ("inst", "institute"),
  ("sem", "seminary"),
  ("voc", "vocational"),
  ("tech", "technical"),
  ("hosp", "hospital"),
  ("san", "sanatorium"),
  ("sanat", "sanatorium"),
  ("psych", "psychiatric"),
  ("infirm", "infirmary"),
  ("med", "medical"),
  ("ctr", "center"),
  ("cntr", "center"),
  ("rehab", "rehabilitation"),
  ("nrsg", "nursing"),
  ("poorhouse", "poorhouse"),
  ("almshouse", "almshouse"),
  ("orphanage", "orphan asylum"),
  ("mfg", "manufacturing"),
  ("fac", "factory"),
  ("fact", "factory"),
  ("plt", "plant"),
  ("plnt", "plant"),
  ("wks", "works"),
  ("wrks", "works"),
  ("fdry", "foundry"),
  ("foundry", "foundry"),
  ("mill", "mill"),
  ("furn", "furnace"),
  ("smelt", "smelter"),
  ("ref", "refinery"),
  ("refin", "refinery"),
  ("distill", "distillery"),
  ("brew", "brewery"),
  ("packing", "packing"),
  ("cannery", "canning factory"),
  ("textile", "textile"),
  ("cotton", "cotton"),
  ("woolen", "woolen"),
  ("paper", "paper"),
  ("lumber", "lumber"),
  ("saw", "sawmill"),
  ("sawmill", "sawmill"),
  ("grain", "grain"),
  ("elev", "elevator"),
  ("warehouse", "warehouse"),
  ("whse", "warehouse"),
  ("depot", "depot"),
  ("mine", "mine"),
  ("colliery", "coal mine"),
  ("shaft", "shaft"),
  ("breaker", "breaker"),
  ("tipple", "tipple"),
  ("quarry", "quarry"),
  ("pit", "pit"),
  ("pwr", "power"),
  ("power", "power"),
  ("powerhouse", "powerhouse"),
  ("gen", "generating"),
  ("elec", "electric"),
  ("hydro", "hydroelectric"),
  ("sub", "substation"),
  ("substa", "substation"),
  ("pump", "pumping"),
  ("wtr", "water"),
  ("wwtp", "sewage treatment"),
  ("sewage", "sewage"),
  ("gas", "gas"),
  ("ch", "church"),
  ("chur", "church"),
  ("cath", "catholic"),
  ("meth", "methodist"),
  ("presb", "presbyterian"),
  ("bapt", "baptist"),
  ("luth", "lutheran"),
  ("episc", "episcopal"),
  ("cong", "congregational"),
  ("syn", "synagogue"),
  ("cem", "cemetery"),
  ("cemy", "cemetery"),
  ("mem", "memorial"),
  ("chap", "chapel"),
  ("par", "parish"),
  ("dept", "department"),
  ("store", "store"),
  ("htl", "hotel"),
  ("hotel", "hotel"),
  ("inn", "inn"),
  ("thtr", "theater"),
  ("theater", "theater"),
  ("theatre", "theater"),
  ("opera", "opera"),
  ("hall", "hall"),
  ("aud", "auditorium"),
  ("lib", "library"),
  ("museum", "museum"),
  ("mus", "museum"),
  ("ct", "court"),
  ("crt", "court"),
  ("courthouse", "courthouse"),
  ("jail", "jail"),
  ("prison", "prison"),
  ("pen", "penitentiary"),
  ("armory", "armory"),
  ("po", "post office"),
  ("stn", "station"),
  ("sta", "station"),
  ("term", "terminal"),
  ("pk", "park"),
  ("park", "park"),
  ("pool", "pool"),
  ("stadium", "stadium"),
  ("arena", "arena"),
  ("fairgrounds", "fairgrounds"),
  ("race", "race"),
  ("racetrack", "racetrack"),
  ("casino", "casino"),
  ("resort", "resort"),
  ("camp", "camp"),
  ("lodge", "lodge"),
  ("barn", "barn"),
  ("silo", "silo"),
  ("dairy", "dairy"),
  ("farm", "farm"),
  ("ranch", "ranch"),
  ("grange", "grange"),
  ("creamery", "creamery"),
  ("stockyard", "stockyards"),
  ("stockyards", "stockyards"),
  ("slaughter", "slaughterhouse"),
  ("slaughterhouse", "slaughterhouse"),
  ("afb", "air force base"),
  ("nas", "naval air station"),
  ("army", "army"),
  ("ft", "fort"),
  ("fort", "fort"),
  ("arsenal", "arsenal"),
  ("barracks", "barracks"),
  ("chevy", "chevrolet"),
  ("chev", "chevrolet"),
  ("chevrolet", "chevrolet"),
  ("cad", "cadillac"),
  ("caddy", "cadillac"),
  ("cadillac", "cadillac"),
  ("olds", "oldsmobile"),
  ("oldsmobile", "oldsmobile"),
  ("pont", "pontiac"),
  ("pontiac", "pontiac"),
  ("buick", "buick"),
  ("gmc", "general motors truck"),
  ("ford", "ford"),
  ("merc", "mercury"),
  ("mercury", "mercury"),
  ("linc", "lincoln"),
  ("lincoln", "lincoln"),
  ("chrys", "chrysler"),
  ("chrysler", "chrysler"),
  ("plym", "plymouth"),
  ("plymouth", "plymouth"),
  ("dodge", "dodge"),
  ("jeep", "jeep"),
  ("amc", "american motors"),
  ("stude", "studebaker"),
  ("studebaker", "studebaker"),
  ("pack", "packard"),
  ("packard", "packard"),
  ("hudson", "hudson"),
  ("nash", "nash"),
  ("kaiser", "kaiser"),
  ("willys", "willys"),
  ("ge", "general electric"),
  ("gm", "general motors"),
  ("rca", "radio corporation america"),
  ("ibm", "international business machines"),
  ("att", "american telephone telegraph"),
  ("at&t", "american telephone telegraph"),
  ("bell", "bell telephone"),
  ("westinghouse", "westinghouse"),
  ("kodak", "eastman kodak"),
  ("dupont", "dupont"),
  ("dow", "dow chemical"),
  ("bethlehem", "bethlehem steel"),
  ("alcoa", "aluminum company america"),
  ("goodyear", "goodyear"),
  ("firestone", "firestone"),
  ("bfg", "goodrich"),
  ("champion", "champion"),
  ("delco", "delco"),
  ("fisher", "fisher"),
  ("rr", "railroad"),
  ("ry", "railway"),
  ("rwy", "railway"),
  ("rrd", "railroad"),
  ("penn", "pennsylvania railroad"),
  ("prr", "pennsylvania railroad"),
  ("nyc", "new york central"),
  ("b&o", "baltimore ohio"),
  ("bando", "baltimore ohio"),
  ("erie", "erie"),
  ("lackawanna", "lackawanna"),
  ("lehigh", "lehigh"),
  ("reading", "reading"),
  ("sou", "southern"),
  ("southern", "southern"),
  ("np", "northern pacific"),
  ("sp", "southern pacific"),
  ("up", "union pacific"),
  ("sf", "santa fe"),
  ("atsf", "santa fe"),
  ("cb&q", "burlington"),
  ("burlington", "burlington"),
  ("milw", "milwaukee"),
  ("gn", "great northern"),
  ("cpr", "canadian pacific"),
  ("cnr", "canadian national"),
  ("n", "north"),
  ("no", "north"),
  ("s", "south"),
  ("so", "south"),
  ("e", "east"),
  ("w", "west"),
  ("ne", "northeast"),
  ("nw", "northwest"),
  ("se", "southeast"),
  ("sw", "southwest"),
  ("bros", "brothers"),
  ("corp", "corporation"),
  ("inc", "incorporated"),
  ("co", "company"),
  ("ltd", "limited"),
  ("assn", "association"),
  ("assoc", "association"),
  ("bldg", "building"),
  ("hq", "headquarters"),
  ("div", "division"),
  ("natl", "national"),
  ("nat\x27l", "national"),
  ("intl", "international"),
  ("int\x27l", "international"),
  ("amer", "american"),
  ("am", "american"),
  ("mt", "mount"),
  ("mtn", "mountain"),
  ("lk", "lake"),
  ("riv", "river"),
  ("rvr", "river"),
  ("ck", "creek"),
  ("crk", "creek"),
  ("spg", "springs"),
  ("spgs", "springs"),
  ("fls", "falls"),
  ("falls", "falls"),
  ("hts", "heights"),
  ("jct", "junction"),
  ("junc", "junction"),
  ("xing", "crossing"),
  ("pt", "point"),
  ("hbr", "harbor"),
  ("cty", "county"),
  ("twp", "township"),
  ("boro", "borough"),
  ("vlg", "village"),
  ("ave", "avenue"),
  ("blvd", "boulevard"),
  ("rd", "road"),
  ("dr", "drive"),
  ("ln", "lane"),
  ("pl", "place"),
  ("cir", "circle"),
  ("hwy", "highway"),
  ("pkwy", "parkway"),
  ("tpke", "turnpike")]

/-- `MULTI_WORD_ALIASES` from `jaro-winkler.ts` (pattern, replacement). -/
def MULTI_WORD_ALIASES : List (String × String) := [
  ("tb hospital", "tuberculosis sanatorium"),
  ("tb san", "tuberculosis sanatorium"),
  ("insane asylum", "mental hospital"),
  ("lunatic asylum", "mental hospital"),
  ("state hospital", "state psychiatric hospital"),
  ("poor house", "poorhouse"),
  ("alms house", "almshouse"),
  ("childrens home", "childrens home"),
  ("high school", "high school"),
  ("jr high", "junior high school"),
  ("middle school", "middle school"),
  ("vocational school", "vocational school"),
  ("elementary school", "elementary school"),
  ("post office", "post office"),
  ("court house", "courthouse"),
  ("opera house", "opera house"),
  ("fair grounds", "fairgrounds"),
  ("race track", "racetrack"),
  ("stock yards", "stockyards"),
  ("general electric", "general electric"),
  ("general motors", "general motors"),
  ("radio corporation america", "radio corporation america"),
  ("international business machines", "international business machines"),
  ("american telephone telegraph", "american telephone telegraph"),
  ("bell telephone", "bell telephone"),
  ("western electric", "western electric"),
  ("union carbide", "union carbide"),
  ("bethlehem steel", "bethlehem steel"),
  ("us steel", "united states steel"),
  ("united states steel", "united states steel"),
  ("eastman kodak", "eastman kodak"),
  ("dow chemical", "dow chemical"),
  ("goodyear tire", "goodyear tire"),
  ("firestone tire", "firestone tire"),
  ("goodrich tire", "goodrich tire"),
  ("champion spark plug", "champion spark plug"),
  ("ac spark plug", "ac spark plug"),
  ("delco electronics", "delco electronics"),
  ("fisher body", "fisher body"),
  ("pennsylvania railroad", "pennsylvania railroad"),
  ("new york central", "new york central"),
  ("baltimore ohio", "baltimore ohio"),
  ("erie railroad", "erie railroad"),
  ("delaware lackawanna", "delaware lackawanna"),
  ("lehigh valley", "lehigh valley"),
  ("reading railroad", "reading railroad"),
  ("southern railway", "southern railway"),
  ("northern pacific", "northern pacific"),
  ("southern pacific", "southern pacific"),
  ("union pacific", "union pacific"),
  ("santa fe", "santa fe"),
  ("burlington railroad", "burlington railroad"),
  ("milwaukee road", "milwaukee road"),
  ("great northern", "great northern"),
  ("canadian pacific", "canadian pacific"),
  ("canadian national", "canadian national"),
  ("ford motor", "ford motor"),
  ("general motors truck", "general motors truck"),
  ("american motors", "american motors"),
  ("hudson motor", "hudson motor"),
  ("nash motors", "nash motors"),
  ("kaiser motors", "kaiser motors"),
  ("willys overland", "willys overland"),
  ("air force base", "air force base"),
  ("naval air station", "naval air station"),
  ("army base", "army base"),
  ("national guard armory", "national guard armory"),
  ("power plant", "power plant"),
  ("power house", "powerhouse"),
  ("generating station", "generating station"),
  ("pumping station", "pumping station"),
  ("water works", "waterworks"),
  ("sewage treatment plant", "sewage treatment plant"),
  ("gas works", "gasworks"),
  ("grain elevator", "grain elevator"),
  ("freight depot", "freight depot"),
  ("packing plant", "packing plant"),
  ("canning factory", "canning factory"),
  ("textile mill", "textile mill"),
  ("cotton mill", "cotton mill"),
  ("woolen mill", "woolen mill"),
  ("paper mill", "paper mill"),
  ("lumber mill", "lumber mill"),
  ("iron foundry", "iron foundry"),
  ("coal mine", "coal mine"),
  ("coal breaker", "coal breaker"),
  ("mine tipple", "mine tipple"),
  ("mine shaft", "mine shaft"),
  ("stone quarry", "stone quarry"),
  ("gravel pit", "gravel pit"),
  ("dairy farm", "dairy farm"),
  ("grange hall", "grange hall"),
  ("swimming pool", "swimming pool"),
  ("county jail", "county jail"),
  ("state prison", "state prison"),
  ("medical center", "medical center"),
  ("nursing home", "nursing home"),
  ("orphan asylum", "orphan asylum")]

/-- `PERIOD_ABBREVIATIONS` from `jaro-winkler.ts`: each entry is the
abbreviation of the pattern `\b<abbr>\.\s*` and its replacement (which ends
in a space). -/
def PERIOD_ABBREVIATIONS : List (String × String) := [
  ("st", "saint "),
  ("mt", "mount "),
  ("hosp", "hospital "),
  ("mfg", "manufacturing "),
  ("co", "company "),
  ("corp", "corporation "),
  ("inc", "incorporated "),
  ("ave", "avenue "),
  ("blvd", "boulevard "),
  ("rd", "road "),
  ("bros", "brothers "),
  ("dept", "department "),
  ("dr", "doctor "),
  ("jr", "junior "),
  ("sr", "senior ")]

/-- Generic left-to-right global regex replacement: `tryM` receives whether
the previous original character was a word character and the remaining text,
and returns the replacement plus the number of original characters consumed.
Replacement text is never rescanned, and word boundaries are judged against
the original text, exactly as JavaScript `String.replace` with a `g` regex. -/
def scanReplaceAux (tryM : Bool → List Char → Option (List Char × Nat)) :
    Nat → Bool → List Char → List Char
  | 0, _, cs => cs
  | _ + 1, _, [] => []
  | fuel + 1, prevW, c :: rest =>
    match tryM prevW (c :: rest) with
    | some (out, n) =>
      let n1 := max n 1
      out ++ scanReplaceAux tryM fuel (jsIsWordChar ((c :: rest).getD (n1 - 1) ' '))
        ((c :: rest).drop n1)
    | none => c :: scanReplaceAux tryM fuel (jsIsWordChar c) rest

/-- See `scanReplaceAux`; a match consumes at least one character, so fuel
equal to the text length runs the scan to completion. -/
def scanReplace (tryM : Bool → List Char → Option (List Char × Nat))
    (prevW : Bool) (cs : List Char) : List Char :=
  scanReplaceAux tryM cs.length prevW cs

/-- Matcher for one period abbreviation `\b<ab>\.\s*` (the input is already
lowercased): previous character not a word character, the abbreviation, a
literal period, then a greedy whitespace run. -/
def periodTry (ab repl : List Char) (prevW : Bool) (cs : List Char) :
    Option (List Char × Nat) :=
  if prevW then none
  else if ab.isPrefixOf cs then
    match cs.drop ab.length with
    | '.' :: rest2 => some (repl, ab.length + 1 + (rest2.takeWhile jsIsSpaceChar).length)
    | _ => none
  else none

/-- Matcher for one multi-word alias `\b<pat>\b` (the input is already
lowercased). -/
def multiTry (pat repl : List Char) (prevW : Bool) (cs : List Char) :
    Option (List Char × Nat) :=
  if prevW then none
  else if pat.isPrefixOf cs then
    let rest := cs.drop pat.length
    if rest.isEmpty || !jsIsWordChar (rest.getD 0 ' ') then some (repl, pat.length)
    else none
  else none

/-- Step 3 of `normalizeName`: apply every period-abbreviation replacement in
table order to the running string. -/
def applyPeriodAbbrevs (cs : List Char) : List Char :=
  PERIOD_ABBREVIATIONS.foldl (fun acc e => scanReplace (periodTry e.1.data e.2.data) false acc) cs

/-- The multi-word alias table sorted by pattern length, longest first
(a stable sort, as JavaScript `Array.prototype.sort`). -/
def sortedMultiWordAliases : List (String × String) :=
  stableSort (fun a b => b.1.length ≤ a.1.length) MULTI_WORD_ALIASES

/-- Step 4 of `normalizeName`: apply every multi-word alias, longest pattern
first, to the running string. -/
def applyMultiWordAliases (cs : List Char) : List Char :=
  sortedMultiWordAliases.foldl (fun acc e => scanReplace (multiTry e.1.data e.2.data) false acc) cs

/-- Step 2 of `normalizeName`: `replace(/^(the|a|an)\s+/i, '')`.  Alternatives
are tried in order; a hit requires whitespace right after the article. -/
def stripLeadingArticle (cs : List Char) : List Char :=
  match ["the", "a", "an"].find?
      (fun art => art.data.isPrefixOf cs && jsIsSpaceChar ((cs.drop art.length).getD 0 'x')) with
  | some art => (cs.drop art.length).dropWhile jsIsSpaceChar
  | none => cs

/-- A character of the class `[.,;:!?]`. -/
def isTrailPunct (c : Char) : Bool :=
  c = '.' || c = ',' || c = ';' || c = ':' || c = '!' || c = '?'

/-- Step 5 of `normalizeName` for one word: strip one trailing punctuation
character, look the cleaned word up in the single-word table, and re-attach
the punctuation to the expansion. -/
def expandSingleWord (word : String) : String :=
  let cw := word.data
  let clean := match cw.getLast? with
    | some c => if isTrailPunct c then cw.dropLast else cw
    | none => cw
  let sfx := cw.drop clean.length
  match SINGLE_WORD_ALIASES.lookup (String.mk clean) with
  | some expansion => expansion ++ String.mk sfx
  | none => word

/-- Step 6 of `normalizeName`: `replace(/\s+/g, ' ')`. -/
def collapseWsAux : Nat → List Char → List Char
  | 0, cs => cs
  | _ + 1, [] => []
  | fuel + 1, c :: rest =>
    if jsIsSpaceChar c then ' ' :: collapseWsAux fuel (rest.dropWhile jsIsSpaceChar)
    else c :: collapseWsAux fuel rest

/-- See `collapseWsAux`; fuel equal to the text length runs it to the end. -/
def collapseWs (cs : List Char) : List Char :=
  collapseWsAux cs.length cs

/-- `normalizeName` from `jaro-winkler.ts`: lowercase and trim, strip a
leading article, expand period abbreviations, multi-word aliases and
single-word aliases, collapse whitespace. -/
def normalizeName (name : String) : String :=
  if name.isEmpty then ""
  else
    let n1 := jsTrim (jsToLower name)
    let n2 := stripLeadingArticle n1.data
    let n3 := applyPeriodAbbrevs n2
    let n4 := applyMultiWordAliases n3
    let expanded := (jsSplitWs (String.mk n4)).map expandSingleWord
    let n5 := String.intercalate " " expanded
    jsTrim (String.mk (collapseWs n5.data))

/-! ### Word-overlap boost (`jaro-winkler.ts`) -/

/-- The three constants of `DEFAULT_CONFIG`. -/
structure JwConfig where
  NAME_SIMILARITY_THRESHOLD : ℚ
  WORD_OVERLAP_BOOST : ℚ
  MIN_BOOSTED_THRESHOLD : ℚ
deriving Repr, DecidableEq

/-- `DEFAULT_CONFIG` from `jaro-winkler.ts`. -/
def DEFAULT_CONFIG : JwConfig :=
  { NAME_SIMILARITY_THRESHOLD := 85/100
    WORD_OVERLAP_BOOST := 10/100
    MIN_BOOSTED_THRESHOLD := 70/100 }

/-- The result record of `calculateWordOverlap`. -/
structure WordOverlap where
  exactMatches : List String
  overlapRatio : ℚ
  totalUniqueWords : Nat
  shouldBoost : Bool
deriving Repr, DecidableEq

/-- `calculateWordOverlap` from `jaro-winkler.ts`: exact shared tokens of
length at least 2 over the union of such tokens. -/
def calculateWordOverlap (name1 name2 : String) : WordOverlap :=
  if name1.isEmpty || name2.isEmpty then ⟨[], 0, 0, false⟩
  else
    let words1 := ((jsSplitWs name1).filter (fun w => w.length ≥ 2)).eraseDups
    let words2 := ((jsSplitWs name2).filter (fun w => w.length ≥ 2)).eraseDups
    let exactMatches := words1.filter (fun w => words2.contains w)
    let totalUniqueWords := ((words1 ++ words2).eraseDups).length
    let overlapRatio : ℚ :=
      if totalUniqueWords > 0 then (exactMatches.length : ℚ) / totalUniqueWords else 0
    { exactMatches := exactMatches
      overlapRatio := overlapRatio
      totalUniqueWords := totalUniqueWords
      shouldBoost := exactMatches.length ≥ 1 && overlapRatio ≥ 25/100 }

/-- `getAdjustedThreshold` from `jaro-winkler.ts`: lower the base threshold by
the boost, floored at the minimum, when the normalized names overlap. -/
def getAdjustedThreshold (name1 name2 : String)
    (baseThreshold : ℚ := DEFAULT_CONFIG.NAME_SIMILARITY_THRESHOLD) : ℚ :=
  let overlap := calculateWordOverlap (normalizeName name1) (normalizeName name2)
  if overlap.shouldBoost then
    max (baseThreshold - DEFAULT_CONFIG.WORD_OVERLAP_BOOST) DEFAULT_CONFIG.MIN_BOOSTED_THRESHOLD
  else baseThreshold

/-- `normalizedSimilarity` from `jaro-winkler.ts`. -/
def normalizedSimilarity (name1 name2 : String) : ℚ :=
  jaroWinklerSimilarity (normalizeName name1) (normalizeName name2)

/-- `isSmartMatch` from `jaro-winkler.ts`. -/
def isSmartMatch (name1 name2 : String)
    (baseThreshold : ℚ := DEFAULT_CONFIG.NAME_SIMILARITY_THRESHOLD) : Bool :=
  normalizedSimilarity name1 name2 ≥ getAdjustedThreshold name1 name2 baseThreshold

/-! ### Geographic distance (`geo-utils.ts`) -/

open Classical in
/-- JavaScript `Math.atan2(y, x)` over the reals (the signed-zero distinctions
of IEEE 754 collapse; they are irrelevant to the formulas below). -/
noncomputable def atan2 (y x : ℝ) : ℝ :=
  if 0 < x then Real.arctan (y / x)
  else if x < 0 ∧ 0 ≤ y then Real.arctan (y / x) + Real.pi
  else if x < 0 ∧ y < 0 then Real.arctan (y / x) - Real.pi
  else if x = 0 ∧ 0 < y then Real.pi / 2
  else if x = 0 ∧ y < 0 then -(Real.pi / 2)
  else 0

/-- `haversineDistance` from `geo-utils.ts`: great-circle distance in meters
on a sphere of radius 6 371 000 m. -/
noncomputable def haversineDistance (lat1 lng1 lat2 lng2 : ℝ) : ℝ :=
  let R : ℝ := 6371000
  let toRad := fun (deg : ℝ) => deg * Real.pi / 180
  let dLat := toRad (lat2 - lat1)
  let dLng := toRad (lng2 - lng1)
  let a := Real.sin (dLat / 2) ^ 2 +
    Real.cos (toRad lat1) * Real.cos (toRad lat2) * Real.sin (dLng / 2) ^ 2
  let c := 2 * atan2 (Real.sqrt a) (Real.sqrt (1 - a))
  R * c

/-! ### The deduplication module (`dedup.ts`) -/

/-- `ParsedMapPoint` from `parser.ts` (the record shape the engine consumes).
`rawMetadata` is an ordered string map. -/
structure ParsedMapPoint where
  name : Option String
  description : Option String
  lat : ℝ
  lng : ℝ
  state : Option String
  category : Option String
  rawMetadata : Option (List (String × String))

instance : Inhabited ParsedMapPoint :=
  ⟨⟨none, none, 0, 0, none, none, none⟩⟩

/-- `DedupConfig` from `dedup.ts`. -/
structure DedupConfig where
  gpsThreshold : ℝ
  nameThreshold : ℚ
  genericGpsThreshold : ℝ
  requireGps : Bool
  useSmartMatch : Bool
  maxClusterSize : Nat
  maxClusterDiameter : ℝ
  minConfidence : Nat

/-- `DEFAULT_DEDUP_CONFIG` from `dedup.ts`. -/
noncomputable def DEFAULT_DEDUP_CONFIG : DedupConfig :=
  { gpsThreshold := 50
    nameThreshold := DEFAULT_CONFIG.NAME_SIMILARITY_THRESHOLD
    genericGpsThreshold := 25
    requireGps := false
    useSmartMatch := true
    maxClusterSize := 20
    maxClusterDiameter := 500
    minConfidence := 60 }

/-- The four values of the `matchType` field. -/
inductive MatchType where
  | gps
  | name
  | both
  | none
deriving Repr, DecidableEq

/-- `MatchResult` from `dedup.ts`.  `gpsDistance` is `number | null` in the
source but never `null` (both coordinates always exist on a parsed point). -/
structure MatchResult where
  index1 : Nat
  index2 : Nat
  gpsDistance : ℝ
  nameSimilarity : ℚ
  tokenSetRatio : ℚ
  blockingConflict : Bool
  isGeneric : Bool
  matchType : MatchType
  confidence : Nat

/-- The local `name1` (resp. `name2`) of `checkDuplicate`: `point.name || ''`. -/
def cdName (p : ParsedMapPoint) : String := p.name.getD ""

/-- The local `gpsDistance` of `checkDuplicate`. -/
noncomputable def cdGpsDistance (p1 p2 : ParsedMapPoint) : ℝ :=
  haversineDistance p1.lat p1.lng p2.lat p2.lng

/-- The local `nameSimilarity` of `checkDuplicate`: 0 when either name is
empty, otherwise the normalized (smart) or raw Jaro–Winkler similarity. -/
def cdNameSimilarity (p1 p2 : ParsedMapPoint) (config : DedupConfig) : ℚ :=
  if cdName p1 ≠ "" ∧ cdName p2 ≠ "" then
    if config.useSmartMatch then normalizedSimilarity (cdName p1) (cdName p2)
    else jaroWinklerSimilarity (cdName p1) (cdName p2)
  else 0

/-- The local `tsr` of `checkDuplicate`: 0 when either name is empty. -/
def cdTokenSetScore (p1 p2 : ParsedMapPoint) : ℚ :=
  if cdName p1 ≠ "" ∧ cdName p2 ≠ "" then tokenSetRatio (cdName p1) (cdName p2) else 0

/-- The local `combinedNameScore` of `checkDuplicate`. -/
def cdCombinedNameScore (p1 p2 : ParsedMapPoint) (config : DedupConfig) : ℚ :=
  max (cdNameSimilarity p1 p2 config) (cdTokenSetScore p1 p2)

open Classical in
/-- The `matchType`/`confidence` decision chain of `checkDuplicate`, in the
exact order of the source: blocking veto, GPS+name, generic GPS, unnamed GPS,
name-only (tiered at 0.95/0.90), GPS with moderate name score. -/
noncomputable def decideMatch (hasConflict : Bool) (gpsMatch nameMatch : Prop)
    (isGeneric : Bool) (genericClose bothUnnamed : Prop) (requireGps : Bool)
    (score : ℚ) : MatchType × Nat :=
  if hasConflict then (.none, 0)
  else if gpsMatch ∧ nameMatch then (.both, 95)
  else if gpsMatch ∧ isGeneric = true ∧ genericClose then (.gps, 70)
  else if gpsMatch ∧ bothUnnamed then (.gps, 60)
  else if nameMatch ∧ requireGps = false then
    if score ≥ 95/100 then (.name, 80)
    else if score ≥ 90/100 then (.name, 65)
    else (.none, 0)
  else if gpsMatch ∧ score ≥ 70/100 then (.both, 75)
  else (.none, 0)

/-- The `decideMatch` arguments as `checkDuplicate` instantiates them. -/
noncomputable def cdDecision (p1 p2 : ParsedMapPoint) (config : DedupConfig) :
    MatchType × Nat :=
  decideMatch (checkBlockingConflict (cdName p1) (cdName p2)).hasConflict
    (cdGpsDistance p1 p2 ≤ config.gpsThreshold)
    (cdCombinedNameScore p1 p2 config ≥ config.nameThreshold)
    (isGenericName (cdName p1) || isGenericName (cdName p2))
    (cdGpsDistance p1 p2 ≤ config.genericGpsThreshold)
    (cdName p1 = "" ∧ cdName p2 = "")
    config.requireGps
    (cdCombinedNameScore p1 p2 config)

/-- `checkDuplicate` from `dedup.ts`: the per-pair match evaluator. -/
noncomputable def checkDuplicate (point1 point2 : ParsedMapPoint)
    (config : DedupConfig) : MatchResult :=
  { index1 := 0
    index2 := 0
    gpsDistance := cdGpsDistance point1 point2
    nameSimilarity := cdNameSimilarity point1 point2 config
    tokenSetRatio := cdTokenSetScore point1 point2
    blockingConflict := (checkBlockingConflict (cdName point1) (cdName point2)).hasConflict
    isGeneric := isGenericName (cdName point1) || isGenericName (cdName point2)
    matchType := (cdDecision point1 point2 config).1
    confidence := (cdDecision point1 point2 config).2 }

/-! ### Union-Find (`dedup.ts`)

The JavaScript class holds `parent`, `rank` and `size` arrays; `find` uses
recursive path compression.  The recursion is embedded with fuel equal to the
length of the parent array, which suffices for every state the module ever
constructs (the parent array always describes a rooted forest on `n` nodes,
so every parent chain reaches its root in fewer than `n` steps). -/

structure UnionFind where
  parent : List Nat
  rank : List Nat
  size : List Nat

/-- The `UnionFind` constructor: `parent[i] = i`, ranks 0, sizes 1. -/
def UnionFind.init (n : Nat) : UnionFind :=
  ⟨List.range n, List.replicate n 0, List.replicate n 1⟩

/-- `find` with path compression, fuelled: returns the updated parent array
and the root. -/
def ufFindAux : Nat → List Nat → Nat → List Nat × Nat
  | 0, p, x => (p, x)
  | fuel + 1, p, x =>
    let px := p.getD x x
    if px = x then (p, x)
    else
      let r := ufFindAux fuel p px
      (r.1.set x r.2, r.2)

/-- `UnionFind.find`. -/
def UnionFind.find (uf : UnionFind) (x : Nat) : Nat × UnionFind :=
  let r := ufFindAux uf.parent.length uf.parent x
  (r.2, { uf with parent := r.1 })

/-- `UnionFind.union`: union by rank, returning whether a merge happened. -/
def UnionFind.union (uf : UnionFind) (x y : Nat) : Bool × UnionFind :=
  let f1 := uf.find x
  let rootX := f1.1
  let f2 := f1.2.find y
  let rootY := f2.1
  let uf2 := f2.2
  if rootX = rootY then (false, uf2)
  else if uf2.rank.getD rootX 0 < uf2.rank.getD rootY 0 then
    (true, { uf2 with
      parent := uf2.parent.set rootX rootY
      size := uf2.size.set rootY (uf2.size.getD rootY 0 + uf2.size.getD rootX 0) })
  else if uf2.rank.getD rootY 0 < uf2.rank.getD rootX 0 then
    (true, { uf2 with
      parent := uf2.parent.set rootY rootX
      size := uf2.size.set rootX (uf2.size.getD rootX 0 + uf2.size.getD rootY 0) })
  else
    (true, { uf2 with
      parent := uf2.parent.set rootY rootX
      size := uf2.size.set rootX (uf2.size.getD rootX 0 + uf2.size.getD rootY 0)
      rank := uf2.rank.set rootX (uf2.rank.getD rootX 0 + 1) })

/-- `clusters.get(root)!.push(i)` with implicit creation: append `v` to the
entry keyed `k`, or append a new entry at the end (JavaScript `Map` iteration
order). -/
def assocPush (l : List (Nat × List Nat)) (k v : Nat) : List (Nat × List Nat) :=
  match l with
  | [] => [(k, [v])]
  | e :: rest => if e.1 = k then (e.1, e.2 ++ [v]) :: rest else e :: assocPush rest k v

/-- `UnionFind.getClusters`: bucket every index `0..n-1` by its root (with the
path compression `find` performs along the way). -/
def UnionFind.getClusters (uf : UnionFind) : List (Nat × List Nat) × UnionFind :=
  (List.range uf.parent.length).foldl
    (fun acc i =>
      let f := acc.2.find i
      (assocPush acc.1 f.1 i, f.2))
    ([], uf)

/-! ### Clustering (`dedup.ts`) -/

/-- `DuplicateGroup` from `dedup.ts`. -/
structure DuplicateGroup where
  representative : Nat
  members : List Nat
  mergedName : Option String
  akaNames : List String
  centroidLat : ℝ
  centroidLng : ℝ
  confidence : ℤ

/-- The `i < j` pair enumeration order of the`O(n²)` loop. -/
def pairIndices (n : Nat) : List (Nat × Nat) :=
  (List.range n).flatMap (fun i => (List.range' (i + 1) (n - (i + 1))).map (fun j => (i, j)))

open Classical in
/-- `calculateClusterDiameter` from `dedup.ts`: the maximum pairwise haversine
distance over the listed point indices. -/
noncomputable def calculateClusterDiameter (points : List ParsedMapPoint)
    (indices : List Nat) : ℝ :=
  if indices.length ≤ 1 then 0
  else
    (pairIndices indices.length).foldl
      (fun maxDistance pq =>
        let p1 := points.getD (indices.getD pq.1 0) default
        let p2 := points.getD (indices.getD pq.2 0) default
        let dist := haversineDistance p1.lat p1.lng p2.lat p2.lng
        if maxDistance < dist then dist else maxDistance)
      0

/-- JavaScript `Map.get` with a default. -/
def assocGetD (l : List (Nat × List Nat)) (k : Nat) (d : List Nat) : List Nat :=
  ((l.find? (fun e => e.1 = k)).map (fun e => e.2)).getD d

/-- JavaScript `Map.set`: replace in place, or append a new entry. -/
def assocSet (l : List (Nat × List Nat)) (k : Nat) (v : List Nat) :
    List (Nat × List Nat) :=
  match l with
  | [] => [(k, v)]
  | e :: rest => if e.1 = k then (k, v) :: rest else e :: assocSet rest k v

/-- JavaScript `Map.delete`. -/
def assocDelete (l : List (Nat × List Nat)) (k : Nat) : List (Nat × List Nat) :=
  match l with
  | [] => []
  | e :: rest => if e.1 = k then rest else e :: assocDelete rest k

/-- The state threaded through the candidate-processing loop of
`findDuplicateGroups`: the union-find, the `clusterMembers` map (each
JavaScript `Set` is an insertion-ordered duplicate-free list) and the list of
accepted matches. -/
structure MergeState where
  uf : UnionFind
  clusterMembers : List (Nat × List Nat)
  matchList : List MatchResult

open Classical in
/-- One iteration of the candidate loop of `findDuplicateGroups`: skip when
already connected, when the merged size would exceed `maxClusterSize`, or when
the merged diameter would exceed `maxClusterDiameter`; otherwise union and
record the match. -/
noncomputable def mergeStep (points : List ParsedMapPoint) (config : DedupConfig)
    (st : MergeState) (m : MatchResult) : MergeState :=
  let f1 := st.uf.find m.index1
  let root1 := f1.1
  let f2 := f1.2.find m.index2
  let root2 := f2.1
  let uf2 := f2.2
  if root1 = root2 then { st with uf := uf2 }
  else
    let cluster1 := assocGetD st.clusterMembers root1 []
    let cluster2 := assocGetD st.clusterMembers root2 []
    if config.maxClusterSize < cluster1.length + cluster2.length then { st with uf := uf2 }
    else
      let combinedIndices := cluster1 ++ cluster2
      if config.maxClusterDiameter < calculateClusterDiameter points combinedIndices then
        { st with uf := uf2 }
      else
        let u := uf2.union m.index1 m.index2
        let f3 := u.2.find m.index1
        let newRoot := f3.1
        let mergedCluster := combinedIndices.eraseDups
        let cm1 := assocSet st.clusterMembers newRoot mergedCluster
        let cm2 := if newRoot ≠ root1 then assocDelete cm1 root1 else cm1
        let cm3 := if newRoot ≠ root2 then assocDelete cm2 root2 else cm2
        { uf := f3.2, clusterMembers := cm3, matchList := st.matchList ++ [m] }

open Classical in
/-- The candidate-collection loop of `findDuplicateGroups`: evaluate every
pair in enumeration order, set the indices, and retain matches that are not
`none` and meet the minimum confidence. -/
noncomputable def potentialMatches (points : List ParsedMapPoint)
    (config : DedupConfig) : List MatchResult :=
  (pairIndices points.length).filterMap (fun ij =>
    let r0 := checkDuplicate (points.getD ij.1 default) (points.getD ij.2 default) config
    let r := { r0 with index1 := ij.1, index2 := ij.2 }
    if r.matchType ≠ MatchType.none ∧ r.confidence ≥ config.minConfidence then some r
    else none)

/-- The sorted candidate list of `findDuplicateGroups`: confidence descending,
ties kept in enumeration order (JavaScript `Array.prototype.sort` is stable). -/
noncomputable def sortedPotentialMatches (points : List ParsedMapPoint)
    (config : DedupConfig) : List MatchResult :=
  stableSort (fun a b => b.confidence ≤ a.confidence) (potentialMatches points config)

/-- `Math.round`: round half toward positive infinity. -/
def jsRound (q : ℚ) : ℤ := ⌊q + 1/2⌋

/-- The group-materialisation step of `findDuplicateGroups` for one cluster:
names deduplicated case-insensitively keeping the longest variant, sorted by
length descending; centroid as coordinate mean; confidence as the rounded
average of the contributing matches (100 when there are none). -/
noncomputable def buildGroup (points : List ParsedMapPoint)
    (matchList : List MatchResult) (root : Nat) (members : List Nat) : DuplicateGroup :=
  let names := members.filterMap (fun idx =>
    match (points.getD idx default).name with
    | some nm => if nm ≠ "" then some nm else Option.none
    | Option.none => Option.none)
  let sumLat := (members.map (fun idx => (points.getD idx default).lat)).sum
  let sumLng := (members.map (fun idx => (points.getD idx default).lng)).sum
  let uniqueNames := names.foldl (fun (acc : List (String × String)) nm =>
    let key := jsTrim (jsToLower nm)
    match (acc.find? (fun e => e.1 = key)).map (fun e => e.2) with
    | some cur =>
      if nm.length > cur.length then
        acc.map (fun e => if e.1 = key then (key, nm) else e)
      else acc
    | Option.none => acc ++ [(key, nm)]) []
  let sortedNames := stableSort (fun a b => b.length ≤ a.length)
    (uniqueNames.map (fun e => e.2))
  let groupMatches := matchList.filter (fun m =>
    members.contains m.index1 && members.contains m.index2)
  let avgConfidence : ℚ :=
    if groupMatches.length > 0 then
      ((groupMatches.map (fun m => (m.confidence : ℚ))).sum) / groupMatches.length
    else 100
  { representative := root
    members := members
    mergedName := sortedNames.head?
    akaNames := sortedNames.tail
    centroidLat := sumLat / members.length
    centroidLng := sumLng / members.length
    confidence := jsRound avgConfidence }

open Classical in
/-- `findDuplicateGroups` from `dedup.ts`. -/
noncomputable def findDuplicateGroups (points : List ParsedMapPoint)
    (config : DedupConfig) : List DuplicateGroup :=
  let n := points.length
  if n = 0 then []
  else if n = 1 then
    [{ representative := 0
       members := [0]
       mergedName := (points.getD 0 default).name
       akaNames := []
       centroidLat := (points.getD 0 default).lat
       centroidLng := (points.getD 0 default).lng
       confidence := 100 }]
  else
    let initCM := (List.range n).map (fun i => (i, [i]))
    let final := (sortedPotentialMatches points config).foldl (mergeStep points config)
      { uf := UnionFind.init n, clusterMembers := initCM, matchList := [] }
    let clusters := final.uf.getClusters.1
    clusters.map (fun rc => buildGroup points final.matchList rc.1 rc.2)

/-! ### Support lemmas about the match evaluator -/

/-- A blocking conflict short-circuits the decision chain. -/
theorem decideMatch_blocking (gpsMatch nameMatch : Prop) (isGeneric : Bool)
    (genericClose bothUnnamed : Prop) (requireGps : Bool) (score : ℚ) :
    decideMatch true gpsMatch nameMatch isGeneric genericClose bothUnnamed requireGps score
      = (MatchType.none, 0) := by
  unfold decideMatch
  simp

/-- Every branch of the decision chain yields one of the seven fixed
confidences, and the `none` type exactly when the confidence is 0. -/
theorem decideMatch_conf (hasConflict : Bool) (gpsMatch nameMatch : Prop)
    (isGeneric : Bool) (genericClose bothUnnamed : Prop) (requireGps : Bool)
    (score : ℚ) :
    ((decideMatch hasConflict gpsMatch nameMatch isGeneric genericClose bothUnnamed
        requireGps score).2 ∈ [0, 60, 65, 70, 75, 80, 95]) ∧
      ((decideMatch hasConflict gpsMatch nameMatch isGeneric genericClose bothUnnamed
          requireGps score).1 = MatchType.none ↔
        (decideMatch hasConflict gpsMatch nameMatch isGeneric genericClose bothUnnamed
          requireGps score).2 = 0) := by
  unfold decideMatch
  split_ifs <;> simp_all

/-- The `matchType` field of `checkDuplicate` is the decision's first
component. -/
theorem checkDuplicate_matchType (p1 p2 : ParsedMapPoint) (config : DedupConfig) :
    (checkDuplicate p1 p2 config).matchType = (cdDecision p1 p2 config).1 := rfl

/-- The `confidence` field of `checkDuplicate` is the decision's second
component. -/
theorem checkDuplicate_confidence (p1 p2 : ParsedMapPoint) (config : DedupConfig) :
    (checkDuplicate p1 p2 config).confidence = (cdDecision p1 p2 config).2 := rfl

/-- A blocking conflict forces the evaluator's verdict to `none` with
confidence 0, whatever the configuration and coordinates. -/
theorem checkDuplicate_blocking (p1 p2 : ParsedMapPoint) (config : DedupConfig)
    (h : (checkBlockingConflict (cdName p1) (cdName p2)).hasConflict = true) :
    (checkDuplicate p1 p2 config).matchType = MatchType.none ∧
      (checkDuplicate p1 p2 config).confidence = 0 := by
  rw [checkDuplicate_matchType, checkDuplicate_confidence]
  unfold cdDecision
  rw [h, decideMatch_blocking]
  exact ⟨rfl, rfl⟩

/-! ### Claim theorems -/

/-- C3: a record pair whose two names have a blocking-word conflict (as
detected by `checkBlockingConflict`) is evaluated as match type `none` with
confidence 0 by `checkDuplicate`, regardless of GPS distance, similarity
scores and configuration; in particular "North Factory" vs "South Factory"
at identical coordinates never match. -/
theorem blocking_veto_absolute :
    (∀ (p1 p2 : ParsedMapPoint) (config : DedupConfig),
      (checkBlockingConflict (cdName p1) (cdName p2)).hasConflict = true →
      (checkDuplicate p1 p2 config).matchType = MatchType.none ∧
        (checkDuplicate p1 p2 config).confidence = 0) ∧
    (∀ (config : DedupConfig) (lat lng : ℝ),
      (checkDuplicate ⟨some "North Factory", Option.none, lat, lng, Option.none, Option.none, Option.none⟩
        ⟨some "South Factory", Option.none, lat, lng, Option.none, Option.none, Option.none⟩
        config).matchType = MatchType.none ∧
      (checkDuplicate ⟨some "North Factory", Option.none, lat, lng, Option.none, Option.none, Option.none⟩
        ⟨some "South Factory", Option.none, lat, lng, Option.none, Option.none, Option.none⟩
        config).confidence = 0) := by
  refine ⟨checkDuplicate_blocking, fun config lat lng => ?_⟩
  refine checkDuplicate_blocking _ _ config ?_
  show (checkBlockingConflict "North Factory" "South Factory").hasConflict = true
  decide

/-- Witness for C3 at a concrete input: the two directional names at the same
point conflict, and the evaluator returns `none` with confidence 0. -/
theorem blocking_veto_absolute_witness :
    (checkBlockingConflict
        (cdName ⟨some "North Factory", Option.none, 43, -77, Option.none, Option.none, Option.none⟩)
        (cdName ⟨some "South Factory", Option.none, 43, -77, Option.none, Option.none, Option.none⟩)).hasConflict
        = true ∧
    (checkDuplicate ⟨some "North Factory", Option.none, 43, -77, Option.none, Option.none, Option.none⟩
      ⟨some "South Factory", Option.none, 43, -77, Option.none, Option.none, Option.none⟩
      DEFAULT_DEDUP_CONFIG).matchType = MatchType.none ∧
    (checkDuplicate ⟨some "North Factory", Option.none, 43, -77, Option.none, Option.none, Option.none⟩
      ⟨some "South Factory", Option.none, 43, -77, Option.none, Option.none, Option.none⟩
      DEFAULT_DEDUP_CONFIG).confidence = 0 := by
  refine ⟨by decide, ?_, ?_⟩
  · exact (blocking_veto_absolute.1 _ _ DEFAULT_DEDUP_CONFIG (by decide)).1
  · exact (blocking_veto_absolute.1 _ _ DEFAULT_DEDUP_CONFIG (by decide)).2

/-- C10: for every pair and configuration the evaluator's confidence is one
of the seven fixed values 0, 60, 65, 70, 75, 80, 95, and the match type is
`none` exactly when the confidence is 0. -/
theorem confidence_fixed_values (p1 p2 : ParsedMapPoint) (config : DedupConfig) :
    ((checkDuplicate p1 p2 config).confidence ∈ [0, 60, 65, 70, 75, 80, 95]) ∧
      ((checkDuplicate p1 p2 config).matchType = MatchType.none ↔
        (checkDuplicate p1 p2 config).confidence = 0) := by
  rw [checkDuplicate_matchType, checkDuplicate_confidence]
  unfold cdDecision
  exact decideMatch_conf _ _ _ _ _ _ _ _

set_option maxRecDepth 10000 in
/-- C8: the token-set similarity of "Union Station - Lockport" and
"Lockport Union Train Station" exceeds 0.90 (it is in fact 1, since the
intersection string equals one of the combined strings). -/
theorem tokenSetRatio_lockport_scenario :
    tokenSetRatio "Union Station - Lockport" "Lockport Union Train Station" > 9/10 := by
  with_unfolding_all decide

set_option maxRecDepth 10000 in
/-- C9: `normalizeName` lowercases "PRR Station" and expands the single-word
alias `prr`, giving exactly "pennsylvania railroad station". -/
theorem normalizeName_prr_scenario :
    normalizeName "PRR Station" = "pennsylvania railroad station" := by
  decide

/-- An empty name on either side makes the evaluator's name scores 0: the
scoring block of `checkDuplicate` is guarded by `name1 && name2`. -/
theorem cdScores_empty (p1 p2 : ParsedMapPoint) (config : DedupConfig)
    (h : cdName p1 = "" ∨ cdName p2 = "") :
    cdNameSimilarity p1 p2 config = 0 ∧ cdTokenSetScore p1 p2 = 0 := by
  unfold cdNameSimilarity cdTokenSetScore
  rcases h with h | h <;> simp [h]

/-- C5 counterexample: for two unnamed records the evaluator's computed name
score — the maximum of its `nameSimilarity` and `tokenSetRatio` fields, the
value it compares against the name threshold — is 0, not 1.0 as claimed
(the scoring block is skipped when either name is empty). -/
theorem empty_names_score_counterexample :
    (checkDuplicate ⟨Option.none, Option.none, 0, 0, Option.none, Option.none, Option.none⟩
        ⟨Option.none, Option.none, 0, 0, Option.none, Option.none, Option.none⟩
        DEFAULT_DEDUP_CONFIG).nameSimilarity = 0 ∧
    (checkDuplicate ⟨Option.none, Option.none, 0, 0, Option.none, Option.none, Option.none⟩
        ⟨Option.none, Option.none, 0, 0, Option.none, Option.none, Option.none⟩
        DEFAULT_DEDUP_CONFIG).tokenSetRatio = 0 ∧
    max (checkDuplicate ⟨Option.none, Option.none, 0, 0, Option.none, Option.none, Option.none⟩
        ⟨Option.none, Option.none, 0, 0, Option.none, Option.none, Option.none⟩
        DEFAULT_DEDUP_CONFIG).nameSimilarity
      (checkDuplicate ⟨Option.none, Option.none, 0, 0, Option.none, Option.none, Option.none⟩
        ⟨Option.none, Option.none, 0, 0, Option.none, Option.none, Option.none⟩
        DEFAULT_DEDUP_CONFIG).tokenSetRatio ≠ 1 := by
  have h := cdScores_empty
    ⟨Option.none, Option.none, 0, 0, Option.none, Option.none, Option.none⟩
    ⟨Option.none, Option.none, 0, 0, Option.none, Option.none, Option.none⟩
    DEFAULT_DEDUP_CONFIG (Or.inl rfl)
  refine ⟨h.1, h.2, ?_⟩
  show max (cdNameSimilarity _ _ _) (cdTokenSetScore _ _) ≠ 1
  rw [h.1, h.2]
  norm_num

/-- C5 amended: for every record pair in which both names are empty or null,
the Match Evaluator computes a name score of 0 (its scoring block is skipped;
both score fields are 0), which is compared against the name threshold like
any other score.  (The claimed 1.0 is the behaviour of the underlying
`jaroWinklerSimilarity` on two empty strings, not of `checkDuplicate`.) -/
theorem empty_names_score_zero (p1 p2 : ParsedMapPoint) (config : DedupConfig)
    (h1 : p1.name = Option.none ∨ p1.name = some "")
    (h2 : p2.name = Option.none ∨ p2.name = some "") :
    (checkDuplicate p1 p2 config).nameSimilarity = 0 ∧
      (checkDuplicate p1 p2 config).tokenSetRatio = 0 ∧
      jaroWinklerSimilarity "" "" = 1 := by
  have hn : cdName p1 = "" := by
    unfold cdName
    rcases h1 with h | h <;> rw [h] <;> rfl
  have h := cdScores_empty p1 p2 config (Or.inl hn)
  exact ⟨h.1, h.2, by decide⟩

/-- Witness for C5's amended theorem at two concrete unnamed records. -/
theorem empty_names_score_zero_witness :
    (checkDuplicate ⟨Option.none, Option.none, 43, -77, Option.none, Option.none, Option.none⟩
        ⟨some "", Option.none, 43, -77, Option.none, Option.none, Option.none⟩
        DEFAULT_DEDUP_CONFIG).nameSimilarity = 0 ∧
      (checkDuplicate ⟨Option.none, Option.none, 43, -77, Option.none, Option.none, Option.none⟩
        ⟨some "", Option.none, 43, -77, Option.none, Option.none, Option.none⟩
        DEFAULT_DEDUP_CONFIG).tokenSetRatio = 0 ∧
      jaroWinklerSimilarity "" "" = 1 :=
  empty_names_score_zero _ _ DEFAULT_DEDUP_CONFIG (Or.inl rfl) (Or.inr rfl)

/-! ### C1: the output groups partition the input indices

`getClusters` buckets every index `0..n-1` by its root: each loop iteration
pushes exactly its own index into exactly one bucket, so whatever the
union-find state is, the buckets form a partition of `0..n-1`. -/

/-- Total number of occurrences of `i` across all bucket values. -/
def occTotal (l : List (Nat × List Nat)) (i : Nat) : Nat :=
  (l.map (fun e => e.2.count i)).sum

theorem occTotal_assocPush (l : List (Nat × List Nat)) (k v i : Nat) :
    occTotal (assocPush l k v) i = occTotal l i + if v = i then 1 else 0 := by
  induction l with
  | nil =>
    simp [assocPush, occTotal, List.count_singleton]
  | cons e rest ih =>
    by_cases h : e.1 = k
    · simp [assocPush, h, occTotal, List.count_append, List.count_singleton]
      omega
    · simp [assocPush, h, occTotal] at ih ⊢
      omega

theorem getClusters_fold_occTotal (i : Nat) (L : List Nat) :
    ∀ (acc : List (Nat × List Nat)) (uf : UnionFind),
    occTotal ((L.foldl (fun acc i =>
      let f := acc.2.find i
      (assocPush acc.1 f.1 i, f.2)) (acc, uf)).1) i = occTotal acc i + L.count i := by
  induction L with
  | nil => intro acc uf; simp
  | cons j rest ih =>
    intro acc uf
    simp only [List.foldl_cons]
    rw [ih, occTotal_assocPush, List.count_cons]
    simp only [beq_iff_eq]
    omega

theorem occTotal_zero_countP (l : List (Nat × List Nat)) (i : Nat)
    (h : occTotal l i = 0) : l.countP (fun e => decide (i ∈ e.2)) = 0 := by
  induction l with
  | nil => simp
  | cons e rest ih =>
    simp only [occTotal, List.map_cons, List.sum_cons] at h
    have h1 : (i ∈ e.2) = False := by
      simp only [eq_iff_iff, iff_false]
      exact List.count_eq_zero.mp (by omega)
    have h2 : occTotal rest i = 0 := by
      simp only [occTotal]
      omega
    rw [List.countP_cons]
    simp [h1, ih h2]

theorem occTotal_one_countP (l : List (Nat × List Nat)) (i : Nat)
    (h : occTotal l i = 1) : l.countP (fun e => decide (i ∈ e.2)) = 1 := by
  induction l with
  | nil => simp [occTotal] at h
  | cons e rest ih =>
    simp only [occTotal, List.map_cons, List.sum_cons] at h
    rw [List.countP_cons]
    by_cases hc : e.2.count i = 0
    · have h1 : (i ∈ e.2) = False := by
        simp only [eq_iff_iff, iff_false]
        exact List.count_eq_zero.mp hc
      have h2 : occTotal rest i = 1 := by
        simp only [occTotal]
        omega
      simp [h1, ih h2]
    · have h2 : occTotal rest i = 0 := by
        simp only [occTotal]
        omega
      have hmem : i ∈ e.2 := by
        by_contra hmm
        exact hc (List.count_eq_zero.mpr hmm)
      simp [hmem, occTotal_zero_countP rest i h2]

theorem count_range_eq (n i : Nat) : (List.range n).count i = if i < n then 1 else 0 := by
  by_cases h : i < n
  · simp only [h, if_true]
    have hle : (List.range n).count i ≤ 1 :=
      List.nodup_iff_count_le_one.mp (List.nodup_range n) i
    have hpos : 0 < (List.range n).count i := List.count_pos_iff.mpr (by simpa using h)
    omega
  · simp only [h, if_false]
    exact List.count_eq_zero.mpr (by simpa using h)

/-- Membership of `x` in some bucket value of `l`. -/
def valueMem (l : List (Nat × List Nat)) (x : Nat) : Prop :=
  ∃ e ∈ l, x ∈ e.2

theorem valueMem_assocPush (l : List (Nat × List Nat)) (k v x : Nat)
    (h : valueMem (assocPush l k v) x) : valueMem l x ∨ x = v := by
  induction l with
  | nil =>
    obtain ⟨e, he, hx⟩ := h
    simp [assocPush] at he
    subst he
    simp at hx
    exact Or.inr hx
  | cons e0 rest ih =>
    obtain ⟨e, he, hx⟩ := h
    by_cases hk : e0.1 = k
    · simp only [assocPush, hk, if_true, List.mem_cons] at he
      rcases he with he | he
      · subst he
        simp only [List.mem_append, List.mem_singleton] at hx
        rcases hx with hx | hx
        · exact Or.inl ⟨e0, List.mem_cons_self _ _, hx⟩
        · exact Or.inr hx
      · exact Or.inl ⟨e, List.mem_cons_of_mem _ he, hx⟩
    · simp only [assocPush, hk, if_false, List.mem_cons] at he
      rcases he with he | he
      · subst he
        exact Or.inl ⟨e, List.mem_cons_self _ _, hx⟩
      · rcases ih ⟨e, he, hx⟩ with h | h
        · obtain ⟨e1, he1, hx1⟩ := h
          exact Or.inl ⟨e1, List.mem_cons_of_mem _ he1, hx1⟩
        · exact Or.inr h

theorem getClusters_fold_valueMem (x : Nat) (L : List Nat) :
    ∀ (acc : List (Nat × List Nat)) (uf : UnionFind),
    valueMem ((L.foldl (fun acc i =>
      let f := acc.2.find i
      (assocPush acc.1 f.1 i, f.2)) (acc, uf)).1) x → valueMem acc x ∨ x ∈ L := by
  induction L with
  | nil =>
    intro acc uf h
    exact Or.inl h
  | cons j rest ih =>
    intro acc uf h
    simp only [List.foldl_cons] at h
    rcases ih _ _ h with h | h
    · rcases valueMem_assocPush _ _ _ _ h with h | h
      · exact Or.inl h
      · subst h
        exact Or.inr (List.mem_cons_self _ _)
    · exact Or.inr (List.mem_cons_of_mem _ h)

/-! Parent-array length preservation through the pipeline. -/

theorem ufFindAux_parent_length (fuel : Nat) :
    ∀ (p : List Nat) (x : Nat), (ufFindAux fuel p x).1.length = p.length := by
  induction fuel with
  | zero => intro p x; rfl
  | succ n ih =>
    intro p x
    unfold ufFindAux
    dsimp only
    split
    · rfl
    · simp [List.length_set, ih]

theorem find_parent_length (uf : UnionFind) (x : Nat) :
    (uf.find x).2.parent.length = uf.parent.length := by
  unfold UnionFind.find
  exact ufFindAux_parent_length _ _ _

theorem union_parent_length (uf : UnionFind) (x y : Nat) :
    (uf.union x y).2.parent.length = uf.parent.length := by
  unfold UnionFind.union
  dsimp only
  split_ifs <;> simp [List.length_set, find_parent_length]

theorem mergeStep_parent_length (points : List ParsedMapPoint) (config : DedupConfig)
    (st : MergeState) (m : MatchResult) :
    (mergeStep points config st m).uf.parent.length = st.uf.parent.length := by
  unfold mergeStep
  dsimp only
  split
  · simp [find_parent_length]
  · split
    · simp [find_parent_length]
    · split
      · simp [find_parent_length]
      · simp [find_parent_length, union_parent_length]

theorem mergeFold_parent_length (points : List ParsedMapPoint) (config : DedupConfig)
    (ms : List MatchResult) :
    ∀ (st : MergeState),
    (ms.foldl (mergeStep points config) st).uf.parent.length = st.uf.parent.length := by
  induction ms with
  | nil => intro st; rfl
  | cons m rest ih =>
    intro st
    simp only [List.foldl_cons]
    rw [ih, mergeStep_parent_length]

/-- C1: `findDuplicateGroups` partitions the input indices: every index
`i < n` appears in the member list of exactly one returned group, and every
member of every group is an input index.  This holds for every input list and
every configuration because `getClusters` buckets each index exactly once by
its union-find root. -/
theorem clusterRecords_partition (points : List ParsedMapPoint) (config : DedupConfig)
    (i : Nat) (hi : i < points.length) :
    (findDuplicateGroups points config).countP (fun g => decide (i ∈ g.members)) = 1 ∧
      ∀ g ∈ findDuplicateGroups points config, ∀ m ∈ g.members, m < points.length := by
  unfold findDuplicateGroups
  by_cases h0 : points.length = 0
  · omega
  · by_cases h1 : points.length = 1
    · simp only [h0, if_false, h1, if_true]
      constructor
      · have : i = 0 := by omega
        subst this
        simp
      · intro g hg m hm
        simp at hg
        subst hg
        simp at hm
        omega
    · simp only [h0, if_false, h1, if_true]
      set final := (sortedPotentialMatches points config).foldl (mergeStep points config)
        { uf := UnionFind.init points.length
          clusterMembers := (List.range points.length).map (fun i => (i, [i]))
          matchList := [] } with hfinal
      have hlen : final.uf.parent.length = points.length := by
        rw [hfinal, mergeFold_parent_length]
        simp [UnionFind.init]
      have hocc : occTotal final.uf.getClusters.1 i = 1 := by
        unfold UnionFind.getClusters
        rw [getClusters_fold_occTotal]
        rw [hlen, count_range_eq]
        simp [occTotal, hi]
      constructor
      · rw [List.countP_map]
        exact occTotal_one_countP _ _ hocc
      · intro g hg m hm
        simp only [List.mem_map] at hg
        obtain ⟨rc, hrc, hgeq⟩ := hg
        have hmem : m ∈ rc.2 := by
          rw [← hgeq] at hm
          exact hm
        have hv : valueMem final.uf.getClusters.1 m := ⟨rc, hrc, hmem⟩
        unfold UnionFind.getClusters at hv
        rcases getClusters_fold_valueMem _ _ _ _ hv with h | h
        · obtain ⟨e, he, _⟩ := h
          simp at he
        · rw [hlen] at h
          exact List.mem_range.mp h

/-- Witness for C1 at a concrete two-record input. -/
theorem clusterRecords_partition_witness :
    (findDuplicateGroups
        [⟨some "Union Station", Option.none, 43, -77, Option.none, Option.none, Option.none⟩,
         ⟨some "Unrelated", Option.none, 44, -78, Option.none, Option.none, Option.none⟩]
        DEFAULT_DEDUP_CONFIG).countP (fun g => decide (0 ∈ g.members)) = 1 ∧
      ∀ g ∈ findDuplicateGroups
        [⟨some "Union Station", Option.none, 43, -77, Option.none, Option.none, Option.none⟩,
         ⟨some "Unrelated", Option.none, 44, -78, Option.none, Option.none, Option.none⟩]
        DEFAULT_DEDUP_CONFIG, ∀ m ∈ g.members,
        m < (2 : Nat) :=
  clusterRecords_partition _ DEFAULT_DEDUP_CONFIG 0 (by simp)

/-! ### C6: determinism and the confidence-descending stable order -/

section StableSortLemmas

variable {α : Type _} (le : α → α → Bool)

theorem insertEl_perm (l : List α) (a : α) : (insertEl le l a).Perm (a :: l) := by
  induction l with
  | nil => exact List.Perm.refl _
  | cons b bs ih =>
    unfold insertEl
    split
    · exact ((ih).cons b).trans (List.Perm.swap a b bs)
    · exact List.Perm.refl _

theorem stableSort_perm (l : List α) : (stableSort le l).Perm l := by
  suffices h : ∀ (acc : List α), ((l.foldl (insertEl le) acc).Perm (acc ++ l)) by
    simpa using h []
  induction l with
  | nil => intro acc; simp
  | cons a as ih =>
    intro acc
    simp only [List.foldl_cons]
    refine (ih _).trans ?_
    have h1 : (insertEl le acc a ++ as).Perm ((a :: acc) ++ as) :=
      (insertEl_perm le acc a).append_right as
    refine h1.trans ?_
    simp only [List.cons_append]
    exact (List.perm_middle).symm

theorem insertEl_pairwise (htrans : ∀ x y z, le x y = true → le y z = true → le x z = true)
    (htot : ∀ x y, le x y = true ∨ le y x = true)
    (l : List α) (a : α) (hl : l.Pairwise (fun x y => le x y = true)) :
    (insertEl le l a).Pairwise (fun x y => le x y = true) := by
  induction l with
  | nil => simp [insertEl]
  | cons b bs ih =>
    rcases List.pairwise_cons.mp hl with ⟨hb, hbs⟩
    unfold insertEl
    split
    · rename_i hba
      refine List.pairwise_cons.mpr ⟨?_, ih hbs⟩
      intro x hx
      rcases List.mem_cons.mp ((insertEl_perm le bs a).mem_iff.mp hx) with hx | hx
      · subst hx
        exact hba
      · exact hb x hx
    · rename_i hba
      have hab : le a b = true := by
        rcases htot a b with h | h
        · exact h
        · exact absurd h hba
      refine List.pairwise_cons.mpr ⟨?_, hl⟩
      intro x hx
      rcases List.mem_cons.mp hx with hx | hx
      · subst hx
        exact hab
      · exact htrans a b x hab (hb x hx)

theorem stableSort_pairwise (htrans : ∀ x y z, le x y = true → le y z = true → le x z = true)
    (htot : ∀ x y, le x y = true ∨ le y x = true) (l : List α) :
    (stableSort le l).Pairwise (fun x y => le x y = true) := by
  suffices h : ∀ (acc : List α), acc.Pairwise (fun x y => le x y = true) →
      (l.foldl (insertEl le) acc).Pairwise (fun x y => le x y = true) by
    exact h [] (List.Pairwise.nil)
  induction l with
  | nil => intro acc h; exact h
  | cons a as ih =>
    intro acc h
    simp only [List.foldl_cons]
    exact ih _ (insertEl_pairwise le htrans htot acc a h)

theorem insertEl_filter_neg (p : α → Bool) (l : List α) (a : α) (hpa : p a = false) :
    (insertEl le l a).filter p = l.filter p := by
  induction l with
  | nil => simp [insertEl, hpa]
  | cons b bs ih =>
    unfold insertEl
    split
    · rw [List.filter_cons, List.filter_cons, ih]
    · rw [List.filter_cons, hpa]
      simp

theorem insertEl_filter_pos (p : α → Bool)
    (htrans : ∀ x y z, le x y = true → le y z = true → le x z = true)
    (l : List α) (a : α) (hpa : p a = true)
    (hall : ∀ b, p b = true → le b a = true)
    (hl : l.Pairwise (fun x y => le x y = true)) :
    (insertEl le l a).filter p = l.filter p ++ [a] := by
  induction l with
  | nil => simp [insertEl, hpa]
  | cons b bs ih =>
    rcases List.pairwise_cons.mp hl with ⟨hb, hbs⟩
    unfold insertEl
    split
    · rw [List.filter_cons, List.filter_cons, ih hbs]
      split <;> simp
    · rename_i hba
      have hnb : p b = false := by
        cases hpb : p b
        · rfl
        · exact absurd (hall b hpb) (by simpa using hba)
      have hrest : ∀ x ∈ bs, p x = false := by
        intro x hx
        cases hpx : p x
        · rfl
        · exact absurd (htrans b x a (hb x hx) (hall x hpx)) (by simpa using hba)
      have h1 : bs.filter p = [] := List.filter_eq_nil_iff.mpr (by
        intro x hx
        simp [hrest x hx])
      simp [List.filter_cons, hpa, hnb, h1]

theorem stableSort_filter (p : α → Bool)
    (htrans : ∀ x y z, le x y = true → le y z = true → le x z = true)
    (htot : ∀ x y, le x y = true ∨ le y x = true)
    (hp : ∀ b, p b = true → ∀ a, p a = true → le b a = true)
    (l : List α) : (stableSort le l).filter p = l.filter p := by
  suffices h : ∀ (acc : List α), acc.Pairwise (fun x y => le x y = true) →
      (l.foldl (insertEl le) acc).filter p = acc.filter p ++ l.filter p by
    simpa using h [] List.Pairwise.nil
  induction l with
  | nil => intro acc h; simp
  | cons a as ih =>
    intro acc h
    simp only [List.foldl_cons]
    rw [ih _ (insertEl_pairwise le htrans htot acc a h)]
    rw [List.filter_cons]
    cases hpa : p a
    · rw [insertEl_filter_neg le p acc a hpa]
      simp
    · rw [insertEl_filter_pos le p htrans acc a hpa (fun b hb => hp b hb a hpa) h]
      simp

end StableSortLemmas

/-- C6: clustering is deterministic — identical input and configuration give
identical output — and the candidate list `findDuplicateGroups` processes
(`sortedPotentialMatches`) is the stable confidence-descending reordering of
the enumeration-ordered `potentialMatches`: pairwise descending in
confidence, a permutation of the enumeration, and within each confidence
level exactly the enumeration order. -/
theorem clustering_deterministic_stable_order :
    (∀ (points₁ points₂ : List ParsedMapPoint) (config₁ config₂ : DedupConfig),
      points₁ = points₂ → config₁ = config₂ →
      findDuplicateGroups points₁ config₁ = findDuplicateGroups points₂ config₂) ∧
    (∀ (points : List ParsedMapPoint) (config : DedupConfig),
      (sortedPotentialMatches points config).Pairwise
        (fun a b => b.confidence ≤ a.confidence)) ∧
    (∀ (points : List ParsedMapPoint) (config : DedupConfig),
      (sortedPotentialMatches points config).Perm (potentialMatches points config)) ∧
    (∀ (points : List ParsedMapPoint) (config : DedupConfig) (c : Nat),
      (sortedPotentialMatches points config).filter (fun m => m.confidence = c) =
        (potentialMatches points config).filter (fun m => m.confidence = c)) := by
  refine ⟨?_, ?_, ?_, ?_⟩
  · intro p1 p2 c1 c2 hp hc
    rw [hp, hc]
  · intro points config
    have h := stableSort_pairwise (fun a b => decide (b.confidence ≤ a.confidence))
      (fun x y z hxy hyz => by
        simp only [decide_eq_true_eq] at hxy hyz ⊢
        omega)
      (fun x y => by
        simp only [decide_eq_true_eq]
        omega)
      (potentialMatches points config)
    refine h.imp ?_
    intro a b hab
    simpa using hab
  · intro points config
    exact stableSort_perm _ _
  · intro points config c
    exact stableSort_filter _ _
      (fun x y z hxy hyz => by
        simp only [decide_eq_true_eq] at hxy hyz ⊢
        omega)
      (fun x y => by
        simp only [decide_eq_true_eq]
        omega)
      (fun b hb a ha => by
        simp only [decide_eq_true_eq] at hb ha ⊢
        omega)
      _

/-- Witness for C6: two runs on an identical concrete input and configuration
coincide. -/
theorem clustering_deterministic_stable_order_witness :
    findDuplicateGroups
        [⟨some "Union Station", Option.none, 43, -77, Option.none, Option.none, Option.none⟩]
        DEFAULT_DEDUP_CONFIG =
      findDuplicateGroups
        [⟨some "Union Station", Option.none, 43, -77, Option.none, Option.none, Option.none⟩]
        DEFAULT_DEDUP_CONFIG :=
  clustering_deterministic_stable_order.1 _ _ _ _ rfl rfl

/-! ### C4: the word-overlap boost and the evaluator's threshold -/

theorem atan2_zero_one : atan2 0 1 = 0 := by
  unfold atan2
  rw [if_pos one_pos]
  simp [Real.arctan_zero]

/-- The haversine distance from a point to itself is 0. -/
theorem haversineDistance_self (lat lng : ℝ) : haversineDistance lat lng lat lng = 0 := by
  unfold haversineDistance
  simp only [sub_self, zero_mul, zero_div, Real.sin_zero, ne_eq, OfNat.ofNat_ne_zero,
    not_false_eq_true, zero_pow, add_zero, mul_zero, Real.sqrt_zero, sub_zero,
    Real.sqrt_one, atan2_zero_one]

/-- The decision chain on a close pair with a sub-threshold name score of at
least 0.70: rule 6 fires, giving `(both, 75)`. -/
theorem decideMatch_both75 (gpsMatch nameMatch : Prop) (isGeneric : Bool)
    (genericClose bothUnnamed : Prop) (requireGps : Bool) (score : ℚ)
    (hgps : gpsMatch) (hnm : ¬nameMatch) (hig : isGeneric = false)
    (hbu : ¬bothUnnamed) (hs : score ≥ 70/100) :
    decideMatch false gpsMatch nameMatch isGeneric genericClose bothUnnamed requireGps score
      = (MatchType.both, 75) := by
  unfold decideMatch
  split_ifs <;> simp_all

/-- `checkDuplicate` on a conflict-free, GPS-close, non-generic pair whose
combined name score is at least 0.70 but below `config.nameThreshold` — the
unadjusted base threshold is what the evaluator consults, so such a pair gets
`(both, 75)`, never the `(both, 95)` of a name match. -/
theorem checkDuplicate_moderate_gps (p1 p2 : ParsedMapPoint) (config : DedupConfig)
    (hconf : (checkBlockingConflict (cdName p1) (cdName p2)).hasConflict = false)
    (hgps : cdGpsDistance p1 p2 ≤ config.gpsThreshold)
    (hnm : ¬(cdCombinedNameScore p1 p2 config ≥ config.nameThreshold))
    (hig : (isGenericName (cdName p1) || isGenericName (cdName p2)) = false)
    (hs : cdCombinedNameScore p1 p2 config ≥ 70/100) :
    (checkDuplicate p1 p2 config).matchType = MatchType.both ∧
      (checkDuplicate p1 p2 config).confidence = 75 := by
  have hbu : ¬(cdName p1 = "" ∧ cdName p2 = "") := by
    intro h
    have h0 := cdScores_empty p1 p2 config (Or.inl h.1)
    have hz : cdCombinedNameScore p1 p2 config = 0 := by
      unfold cdCombinedNameScore
      rw [h0.1, h0.2]
      simp
    rw [hz] at hs
    norm_num at hs
  rw [checkDuplicate_matchType, checkDuplicate_confidence]
  unfold cdDecision
  rw [hconf, decideMatch_both75 _ _ _ _ _ _ _ hgps hnm hig hbu hs]
  exact ⟨rfl, rfl⟩

set_option maxRecDepth 100000 in
/-- C4 counterexample: "Union Station" vs "Union Depot" at identical
coordinates under the default configuration.  The word-overlap boost
condition holds (shared token, ratio ≥ 0.25) and the combined name score lies
between the lowered threshold 0.75 and the base threshold 0.85 — so under the
claimed behaviour the pair would be a name match and rule 2 would give
confidence 95 — yet `checkDuplicate` returns confidence 75: it compares the
score against the unadjusted base threshold. -/
theorem word_overlap_boost_counterexample :
    (calculateWordOverlap (normalizeName "Union Station") (normalizeName "Union Depot")).shouldBoost
        = true ∧
    getAdjustedThreshold "Union Station" "Union Depot" (85/100) = 75/100 ∧
    75/100 ≤ cdCombinedNameScore
        ⟨some "Union Station", Option.none, 43, -77, Option.none, Option.none, Option.none⟩
        ⟨some "Union Depot", Option.none, 43, -77, Option.none, Option.none, Option.none⟩
        DEFAULT_DEDUP_CONFIG ∧
    cdCombinedNameScore
        ⟨some "Union Station", Option.none, 43, -77, Option.none, Option.none, Option.none⟩
        ⟨some "Union Depot", Option.none, 43, -77, Option.none, Option.none, Option.none⟩
        DEFAULT_DEDUP_CONFIG < 85/100 ∧
    (checkDuplicate
        ⟨some "Union Station", Option.none, 43, -77, Option.none, Option.none, Option.none⟩
        ⟨some "Union Depot", Option.none, 43, -77, Option.none, Option.none, Option.none⟩
        DEFAULT_DEDUP_CONFIG).confidence = 75 ∧
    (checkDuplicate
        ⟨some "Union Station", Option.none, 43, -77, Option.none, Option.none, Option.none⟩
        ⟨some "Union Depot", Option.none, 43, -77, Option.none, Option.none, Option.none⟩
        DEFAULT_DEDUP_CONFIG).confidence ≠ 95 := by
  refine ⟨by with_unfolding_all decide, by with_unfolding_all decide,
    by with_unfolding_all decide, by with_unfolding_all decide, ?_, ?_⟩
  · refine (checkDuplicate_moderate_gps _ _ _ (by with_unfolding_all decide) ?_
      (by with_unfolding_all decide) (by with_unfolding_all decide)
      (by with_unfolding_all decide)).2
    show haversineDistance 43 (-77) 43 (-77) ≤ (50 : ℝ)
    rw [haversineDistance_self]
    norm_num
  · intro hcontra
    have h75 := (checkDuplicate_moderate_gps
      ⟨some "Union Station", Option.none, 43, -77, Option.none, Option.none, Option.none⟩
      ⟨some "Union Depot", Option.none, 43, -77, Option.none, Option.none, Option.none⟩
      DEFAULT_DEDUP_CONFIG (by with_unfolding_all decide)
      (by
        show haversineDistance 43 (-77) 43 (-77) ≤ (50 : ℝ)
        rw [haversineDistance_self]
        norm_num)
      (by with_unfolding_all decide) (by with_unfolding_all decide)
      (by with_unfolding_all decide)).2
    rw [h75] at hcontra
    exact absurd hcontra (by norm_num)

/-- C4 amended: the lowered threshold `max (base − 0.10) 0.70` is computed by
`getAdjustedThreshold` (and consulted by `isSmartMatch`), but `checkDuplicate`
always compares the pair's combined name score against the unadjusted
`config.nameThreshold`: a boosted pair whose score clears only the lowered
threshold is not a name match, and at close range falls through to the
moderate-similarity GPS rule `(both, 75)`. -/
theorem word_overlap_boost_amended :
    (∀ (n1 n2 : String) (base : ℚ),
      (calculateWordOverlap (normalizeName n1) (normalizeName n2)).shouldBoost = true →
      getAdjustedThreshold n1 n2 base = max (base - 10/100) (70/100)) ∧
    (∀ (n1 n2 : String) (base : ℚ),
      isSmartMatch n1 n2 base =
        decide (normalizedSimilarity n1 n2 ≥ getAdjustedThreshold n1 n2 base)) ∧
    (∀ (p1 p2 : ParsedMapPoint) (config : DedupConfig),
      (checkBlockingConflict (cdName p1) (cdName p2)).hasConflict = false →
      cdGpsDistance p1 p2 ≤ config.gpsThreshold →
      ¬(cdCombinedNameScore p1 p2 config ≥ config.nameThreshold) →
      (isGenericName (cdName p1) || isGenericName (cdName p2)) = false →
      cdCombinedNameScore p1 p2 config ≥ 70/100 →
      (checkDuplicate p1 p2 config).matchType = MatchType.both ∧
        (checkDuplicate p1 p2 config).confidence = 75) := by
  refine ⟨?_, ?_, checkDuplicate_moderate_gps⟩
  · intro n1 n2 base h
    unfold getAdjustedThreshold
    simp only [h, if_true]
    rfl
  · intro n1 n2 base
    rfl

set_option maxRecDepth 100000 in
/-- Witness for C4's amended theorem: the boost condition of the
counterexample pair is satisfiable together with the evaluator hypotheses,
and the evaluator yields `(both, 75)`. -/
theorem word_overlap_boost_amended_witness :
    getAdjustedThreshold "Union Station" "Union Depot" (85/100) = max ((85:ℚ)/100 - 10/100) (70/100) ∧
    (checkDuplicate
        ⟨some "Union Station", Option.none, 43, -77, Option.none, Option.none, Option.none⟩
        ⟨some "Union Depot", Option.none, 43, -77, Option.none, Option.none, Option.none⟩
        DEFAULT_DEDUP_CONFIG).matchType = MatchType.both := by
  constructor
  · exact word_overlap_boost_amended.1 "Union Station" "Union Depot" (85/100)
      (by with_unfolding_all decide)
  · refine (word_overlap_boost_amended.2.2 _ _ DEFAULT_DEDUP_CONFIG
      (by with_unfolding_all decide) ?_ (by with_unfolding_all decide)
      (by with_unfolding_all decide) (by with_unfolding_all decide)).1
    show haversineDistance 43 (-77) 43 (-77) ≤ (50 : ℝ)
    rw [haversineDistance_self]
    norm_num

/-! ### C2: verification of the union-find parent structure

The parent array of `UnionFind` always describes a rooted forest.  `rootAux`
is the pure (compression-free) fuelled root computation; the invariant
`UFInv` states that parents stay in range and that fuel equal to the array
length reaches a root from every node.  The lemmas below show that path
compression preserves roots, that `union` merges exactly the two root
classes, and that fuel `length - 1` already suffices (parent chains visit
distinct nodes). -/

/-- `p[x]`, with out-of-range reads returning `x` itself. -/
def pget (p : List Nat) (x : Nat) : Nat := p.getD x x

/-- `x` is a root of the parent array `p`. -/
def isRootP (p : List Nat) (x : Nat) : Prop := pget p x = x

instance (p : List Nat) (x : Nat) : Decidable (isRootP p x) := by
  unfold isRootP
  infer_instance

/-- Follow parent pointers for at most `k` steps. -/
def rootAux : Nat → List Nat → Nat → Nat
  | 0, _, x => x
  | k + 1, p, x => if pget p x = x then x else rootAux k p (pget p x)

/-- The root of `x`, with fuel equal to the array length. -/
def rootP (p : List Nat) (x : Nat) : Nat := rootAux p.length p x

theorem pget_out (p : List Nat) (x : Nat) (h : p.length ≤ x) : pget p x = x :=
  List.getD_eq_default p x h

theorem isRootP_out (p : List Nat) (x : Nat) (h : p.length ≤ x) : isRootP p x :=
  pget_out p x h

theorem rootAux_of_root {p : List Nat} {x : Nat} (h : isRootP p x) (k : Nat) :
    rootAux k p x = x := by
  induction k with
  | zero => rfl
  | succ k ih =>
    unfold rootAux
    rw [if_pos (show pget p x = x from h)]

theorem rootAux_add (a b : Nat) (p : List Nat) (x : Nat) :
    rootAux (a + b) p x = rootAux b p (rootAux a p x) := by
  induction a generalizing x with
  | zero => simp [rootAux]
  | succ a ih =>
    have hh : a + 1 + b = (a + b) + 1 := by omega
    rw [hh]
    show (if pget p x = x then x else rootAux (a + b) p (pget p x)) = _
    by_cases h : pget p x = x
    · rw [if_pos h]
      show x = rootAux b p (rootAux (a + 1) p x)
      rw [rootAux_of_root h, rootAux_of_root h]
    · rw [if_neg h, ih]
      show _ = rootAux b p (rootAux (a + 1) p x)
      have : rootAux (a + 1) p x = rootAux a p (pget p x) := by
        show (if pget p x = x then x else rootAux a p (pget p x)) = _
        rw [if_neg h]
      rw [this]

theorem rootAux_mono {p : List Nat} {x k : Nat}
    (h : isRootP p (rootAux k p x)) (m : Nat) :
    rootAux (k + m) p x = rootAux k p x := by
  rw [rootAux_add]
  exact rootAux_of_root h m

theorem rootAux_reached_eq {p : List Nat} {x k1 k2 : Nat}
    (h1 : isRootP p (rootAux k1 p x)) (h2 : isRootP p (rootAux k2 p x)) :
    rootAux k1 p x = rootAux k2 p x := by
  rcases Nat.le_total k1 k2 with h | h
  · have := rootAux_mono h1 (k2 - k1)
    rw [Nat.add_sub_cancel' h] at this
    rw [this]
  · have := rootAux_mono h2 (k1 - k2)
    rw [Nat.add_sub_cancel' h] at this
    rw [this]

/-- The union-find forest invariant. -/
structure UFInv (p : List Nat) : Prop where
  inRange : ∀ x, x < p.length → pget p x < p.length
  reaches : ∀ x, isRootP p (rootP p x)

theorem rootAux_lt {p : List Nat} (inv : UFInv p) (k : Nat) :
    ∀ x, x < p.length → rootAux k p x < p.length := by
  induction k with
  | zero => intro x hx; exact hx
  | succ k ih =>
    intro x hx
    unfold rootAux
    by_cases h : pget p x = x
    · rw [if_pos h]; exact hx
    · rw [if_neg h]
      exact ih _ (inv.inRange x hx)

theorem rootP_lt {p : List Nat} (inv : UFInv p) {x : Nat} (hx : x < p.length) :
    rootP p x < p.length :=
  rootAux_lt inv _ x hx

theorem rootP_of_root {p : List Nat} {x : Nat} (h : isRootP p x) : rootP p x = x :=
  rootAux_of_root h _

theorem rootP_eq_self_iff {p : List Nat} (inv : UFInv p) (x : Nat) :
    rootP p x = x ↔ isRootP p x := by
  constructor
  · intro h
    have := inv.reaches x
    rw [h] at this
    exact this
  · exact rootP_of_root

/-- A parent chain reaches its root within `length - 1` steps: the nodes it
visits before rooting are pairwise distinct. -/
theorem rootAux_short {p : List Nat} (inv : UFInv p) (x : Nat) :
    isRootP p (rootAux (p.length - 1) p x) := by
  by_cases hx : x < p.length
  · have hex : ∃ k, isRootP p (rootAux k p x) := ⟨p.length, inv.reaches x⟩
    set m := Nat.find hex with hm
    have hroot : isRootP p (rootAux m p x) := Nat.find_spec hex
    have hmin : ∀ j, j < m → ¬isRootP p (rootAux j p x) := fun j hj => Nat.find_min hex hj
    have hmn : m ≤ p.length - 1 := by
      by_contra hcon
      push_neg at hcon
      have hinj : Function.Injective
          (fun j : Fin (m + 1) => (⟨rootAux j p x, rootAux_lt inv j x hx⟩ : Fin p.length)) := by
        intro j1 j2 heq
        simp only [Fin.mk.injEq] at heq
        by_contra hne
        rcases Nat.lt_or_ge j1.val j2.val with hlt | hge
        · have hj2m : j2.val ≤ m := Nat.lt_succ_iff.mp j2.isLt
          have : rootAux (j1.val + (m - j2.val)) p x = rootAux m p x := by
            rw [rootAux_add, heq, ← rootAux_add, Nat.add_sub_cancel' hj2m]
          have hlt2 : j1.val + (m - j2.val) < m := by omega
          exact hmin _ hlt2 (by rw [this]; exact hroot)
        · have hne2 : j2.val < j1.val := by
            rcases Nat.lt_or_ge j2.val j1.val with h | h
            · exact h
            · exact absurd (Fin.ext (Nat.le_antisymm hge h)).symm hne
          have hj1m : j1.val ≤ m := Nat.lt_succ_iff.mp j1.isLt
          have : rootAux (j2.val + (m - j1.val)) p x = rootAux m p x := by
            rw [rootAux_add, ← heq, ← rootAux_add, Nat.add_sub_cancel' hj1m]
          have hlt2 : j2.val + (m - j1.val) < m := by omega
          exact hmin _ hlt2 (by rw [this]; exact hroot)
      have hcard := Fintype.card_le_of_injective _ hinj
      simp only [Fintype.card_fin] at hcard
      omega
    have := rootAux_mono hroot (p.length - 1 - m)
    rw [Nat.add_sub_cancel' hmn] at this
    rw [this]
    exact hroot
  · push_neg at hx
    rw [rootAux_of_root (isRootP_out p x hx)]
    exact isRootP_out p x hx

theorem pget_set_self {p : List Nat} {x r : Nat} (hx : x < p.length) :
    pget (p.set x r) x = r := by
  unfold pget
  simp [List.getD_eq_getElem?_getD, List.getElem?_set_self hx]

theorem pget_set_ne {p : List Nat} {x r y : Nat} (h : x ≠ y) :
    pget (p.set x r) y = pget p y := by
  unfold pget
  simp [List.getD_eq_getElem?_getD, List.getElem?_set_ne h]

theorem not_isRootP_lt {p : List Nat} {x : Nat} (hx : ¬isRootP p x) : x < p.length := by
  by_contra h
  push_neg at h
  exact hx (isRootP_out p x h)

/-- Core of the path-compression lemma: redirecting a non-root `x` straight
to its root changes no `rootAux` value that was already rooted. -/
theorem set_to_root_rootAux {p : List Nat} (inv : UFInv p) {x r : Nat}
    (hx : ¬isRootP p x) (hr : r = rootP p x) :
    ∀ k y, isRootP p (rootAux k p y) →
      rootAux k (p.set x r) y = rootAux k p y ∧
        isRootP (p.set x r) (rootAux k p y) := by
  have hxlt : x < p.length := not_isRootP_lt hx
  have hrroot : isRootP p r := hr ▸ inv.reaches x
  have hrx : r ≠ x := fun h => hx (h ▸ hrroot)
  have hroot_pres : ∀ z, isRootP p z → isRootP (p.set x r) z := by
    intro z hz
    have hzx : x ≠ z := fun h => hx (h ▸ hz)
    unfold isRootP
    rw [pget_set_ne hzx]
    exact hz
  intro k
  induction k with
  | zero =>
    intro y hy
    exact ⟨rfl, hroot_pres y hy⟩
  | succ k ih =>
    intro y hy
    by_cases hyr : isRootP p y
    · rw [rootAux_of_root hyr]
      have hyx : x ≠ y := fun h => hx (h ▸ hyr)
      refine ⟨?_, hroot_pres y hyr⟩
      rw [rootAux_of_root (hroot_pres y hyr)]
    · by_cases hyx : y = x
      · subst hyx
        have h1 : rootAux (k + 1) p y = r := by
          rw [hr]
          exact rootAux_reached_eq hy (inv.reaches y)
        rw [h1]
        have hp' : pget (p.set y r) y = r := pget_set_self hxlt
        have hrootr' : isRootP (p.set y r) r := hroot_pres r hrroot
        constructor
        · show (if pget (p.set y r) y = y then y else rootAux k (p.set y r) (pget (p.set y r) y)) = r
          rw [hp', if_neg hrx]
          exact rootAux_of_root hrootr' k
        · exact hrootr'
      · have hstep : pget (p.set x r) y = pget p y := pget_set_ne (fun h => hyx h.symm)
        have hpy : ¬(pget p y = y) := hyr
        have hprem : isRootP p (rootAux k p (pget p y)) := by
          have : rootAux (k + 1) p y = rootAux k p (pget p y) := by
            show (if pget p y = y then y else rootAux k p (pget p y)) = _
            rw [if_neg hpy]
          rw [this] at hy
          exact hy
        have hih := ih (pget p y) hprem
        constructor
        · show (if pget (p.set x r) y = y then y else rootAux k (p.set x r) (pget (p.set x r) y)) = _
          rw [hstep, if_neg hpy, hih.1]
          show rootAux k p (pget p y) = rootAux (k+1) p y
          show _ = (if pget p y = y then y else rootAux k p (pget p y))
          rw [if_neg hpy]
        · have : rootAux (k + 1) p y = rootAux k p (pget p y) := by
            show (if pget p y = y then y else rootAux k p (pget p y)) = _
            rw [if_neg hpy]
          rw [this]
          exact hih.2

/-- Path compression: setting a non-root node's parent to its root preserves
every root value, the forest invariant, and the set of roots. -/
theorem set_to_root_spec {p : List Nat} (inv : UFInv p) {x r : Nat}
    (hx : ¬isRootP p x) (hr : r = rootP p x) :
    (∀ y, rootP (p.set x r) y = rootP p y) ∧ UFInv (p.set x r) ∧
      (∀ y, isRootP (p.set x r) y ↔ isRootP p y) := by
  have hxlt : x < p.length := not_isRootP_lt hx
  have hrroot : isRootP p r := hr ▸ inv.reaches x
  have hrx : r ≠ x := fun h => hx (h ▸ hrroot)
  have hlen : (p.set x r).length = p.length := List.length_set p x r
  have hcore := set_to_root_rootAux inv hx hr
  have hroots : ∀ y, rootP (p.set x r) y = rootP p y := by
    intro y
    unfold rootP
    rw [hlen]
    exact (hcore p.length y (inv.reaches y)).1
  refine ⟨hroots, ⟨?_, ?_⟩, ?_⟩
  · intro z hz
    rw [hlen] at hz ⊢
    by_cases hzx : z = x
    · subst hzx
      rw [pget_set_self hxlt]
      rw [hr]
      exact rootP_lt inv hxlt
    · rw [pget_set_ne (fun h => hzx h.symm)]
      exact inv.inRange z hz
  · intro y
    have h2 := (hcore p.length y (inv.reaches y)).2
    show isRootP (p.set x r) (rootP (p.set x r) y)
    rw [hroots y]
    exact h2
  · intro y
    by_cases hyx : y = x
    · subst hyx
      constructor
      · intro h
        exact absurd h (by
          unfold isRootP
          rw [pget_set_self hxlt]
          exact hrx)
      · intro h
        exact absurd h hx
    · unfold isRootP
      rw [pget_set_ne (fun h => hyx h.symm)]

/-- Core of the linking lemma: pointing root `ra` at root `rb` reroutes the
classes of `ra` to `rb` and leaves every other root value unchanged (one more
step of fuel absorbs the extra hop). -/
theorem link_rootAux {p : List Nat} (inv : UFInv p) {ra rb : Nat}
    (hra : isRootP p ra) (hrb : isRootP p rb) (hne : ra ≠ rb) (hlt : ra < p.length) :
    ∀ k y, isRootP p (rootAux k p y) →
      rootAux (k + 1) (p.set ra rb) y =
        (if rootAux k p y = ra then rb else rootAux k p y) ∧
        isRootP (p.set ra rb) (rootAux (k + 1) (p.set ra rb) y) := by
  have hrb' : isRootP (p.set ra rb) rb := by
    unfold isRootP
    rw [pget_set_ne hne]
    exact hrb
  have hroot_pres : ∀ z, isRootP p z → z ≠ ra → isRootP (p.set ra rb) z := by
    intro z hz hzra
    unfold isRootP
    rw [pget_set_ne (fun h => hzra h.symm)]
    exact hz
  have hrootcase : ∀ k y, isRootP p y →
      rootAux (k + 1) (p.set ra rb) y = (if y = ra then rb else y) ∧
        isRootP (p.set ra rb) (rootAux (k + 1) (p.set ra rb) y) := by
    intro k y hy
    by_cases hyaeq : y = ra
    · subst hyaeq
      have hp' : pget (p.set y rb) y = rb := pget_set_self hlt
      have h1 : rootAux (k + 1) (p.set y rb) y = rb := by
        show (if pget (p.set y rb) y = y then y else rootAux k (p.set y rb) (pget (p.set y rb) y)) = rb
        rw [hp', if_neg (fun h => hne h.symm)]
        exact rootAux_of_root hrb' k
      rw [h1]
      exact ⟨by rw [if_pos rfl], hrb'⟩
    · have hy' : isRootP (p.set ra rb) y := hroot_pres y hy hyaeq
      have h1 : rootAux (k + 1) (p.set ra rb) y = y := rootAux_of_root hy' (k + 1)
      rw [h1]
      exact ⟨by rw [if_neg hyaeq], hy'⟩
  intro k
  induction k with
  | zero =>
    intro y hy
    exact hrootcase 0 y hy
  | succ k ih =>
    intro y hy
    by_cases hyr : isRootP p y
    · have := hrootcase (k + 1) y hyr
      rw [rootAux_of_root hyr]
      exact this
    · have hyra : y ≠ ra := fun h => hyr (h ▸ hra)
      have hstep : pget (p.set ra rb) y = pget p y := pget_set_ne (fun h => hyra h.symm)
      have hpy : ¬(pget p y = y) := hyr
      have hprem : isRootP p (rootAux k p (pget p y)) := by
        have : rootAux (k + 1) p y = rootAux k p (pget p y) := by
          show (if pget p y = y then y else rootAux k p (pget p y)) = _
          rw [if_neg hpy]
        rw [this] at hy
        exact hy
      have hih := ih (pget p y) hprem
      have hy1 : rootAux (k + 1) p y = rootAux k p (pget p y) := by
        show (if pget p y = y then y else rootAux k p (pget p y)) = _
        rw [if_neg hpy]
      have hstep2 : rootAux (k + 1 + 1) (p.set ra rb) y =
          rootAux (k + 1) (p.set ra rb) (pget p y) := by
        show (if pget (p.set ra rb) y = y then y
          else rootAux (k + 1) (p.set ra rb) (pget (p.set ra rb) y)) = _
        rw [hstep, if_neg hpy]
      rw [hstep2, hy1]
      exact hih

/-- Linking two distinct roots: the new root function maps the old class of
`ra` to `rb` and fixes everything else; the forest invariant is preserved. -/
theorem link_spec {p : List Nat} (inv : UFInv p) {ra rb : Nat}
    (hra : isRootP p ra) (hrb : isRootP p rb) (hne : ra ≠ rb)
    (hlt : ra < p.length) (hltb : rb < p.length) :
    (∀ y, rootP (p.set ra rb) y = if rootP p y = ra then rb else rootP p y) ∧
      UFInv (p.set ra rb) := by
  have hlen : (p.set ra rb).length = p.length := List.length_set p ra rb
  have hn1 : p.length - 1 + 1 = p.length := by omega
  have hcore := link_rootAux inv hra hrb hne hlt
  have hroots : ∀ y, rootP (p.set ra rb) y = if rootP p y = ra then rb else rootP p y := by
    intro y
    have hshort := rootAux_short inv y
    have h := hcore (p.length - 1) y hshort
    have heq : rootAux (p.length - 1) p y = rootP p y :=
      rootAux_reached_eq hshort (inv.reaches y)
    unfold rootP
    rw [hlen, ← hn1]
    rw [h.1, heq]
    rw [hn1]
    rfl
  refine ⟨hroots, ⟨?_, ?_⟩⟩
  · intro z hz
    rw [hlen] at hz ⊢
    by_cases hzx : z = ra
    · subst hzx
      rw [pget_set_self hlt]
      exact hltb
    · rw [pget_set_ne (fun h => hzx h.symm)]
      exact inv.inRange z hz
  · intro y
    have hshort := rootAux_short inv y
    have h := (hcore (p.length - 1) y hshort).2
    show isRootP (p.set ra rb) (rootP (p.set ra rb) y)
    unfold rootP
    rw [hlen, ← hn1]
    exact h

theorem ufFindAux_succ (k : Nat) (p : List Nat) (x : Nat) :
    ufFindAux (k + 1) p x =
      if pget p x = x then (p, x)
      else ((ufFindAux k p (pget p x)).1.set x (ufFindAux k p (pget p x)).2,
        (ufFindAux k p (pget p x)).2) := rfl

/-- Specification of the fuelled compressing find: it returns the `rootAux`
value and a parent array with identical roots and intact invariant. -/
theorem ufFindAux_spec {p : List Nat} (inv : UFInv p) :
    ∀ k x, isRootP p (rootAux k p x) →
      (ufFindAux k p x).2 = rootAux k p x ∧
      (ufFindAux k p x).1.length = p.length ∧
      (∀ y, rootP (ufFindAux k p x).1 y = rootP p y) ∧
      UFInv (ufFindAux k p x).1 ∧
      (∀ y, isRootP (ufFindAux k p x).1 y ↔ isRootP p y) := by
  intro k
  induction k generalizing p inv with
  | zero =>
    intro x hx
    exact ⟨rfl, rfl, fun y => rfl, inv, fun y => Iff.rfl⟩
  | succ k ih =>
    intro x hx
    by_cases hroot : pget p x = x
    · have h1 : ufFindAux (k + 1) p x = (p, x) := by
        rw [ufFindAux_succ, if_pos hroot]
      have h2 : rootAux (k + 1) p x = x := rootAux_of_root hroot (k + 1)
      rw [h1, h2]
      exact ⟨rfl, rfl, fun y => rfl, inv, fun y => Iff.rfl⟩
    · have hprem : isRootP p (rootAux k p (pget p x)) := by
        have : rootAux (k + 1) p x = rootAux k p (pget p x) := by
          show (if pget p x = x then x else rootAux k p (pget p x)) = _
          rw [if_neg hroot]
        rw [this] at hx
        exact hx
      have hih := ih inv (pget p x) hprem
      obtain ⟨hr2, hlen1, hroots1, hinv1, hriff1⟩ := hih
      have h1 : ufFindAux (k + 1) p x =
          ((ufFindAux k p (pget p x)).1.set x (ufFindAux k p (pget p x)).2,
            (ufFindAux k p (pget p x)).2) := by
        rw [ufFindAux_succ, if_neg hroot]
      have hxnr1 : ¬isRootP (ufFindAux k p (pget p x)).1 x :=
        fun h => hroot ((hriff1 x).mp h)
      have hreq : (ufFindAux k p (pget p x)).2 = rootP (ufFindAux k p (pget p x)).1 x := by
        rw [hr2, hroots1 x]
        have h3 : rootAux (k + 1) p x = rootAux k p (pget p x) := by
          show (if pget p x = x then x else rootAux k p (pget p x)) = _
          rw [if_neg hroot]
        rw [← h3]
        exact rootAux_reached_eq hx (inv.reaches x)
      have hset := set_to_root_spec hinv1 hxnr1 hreq
      obtain ⟨hroots2, hinv2, hriff2⟩ := hset
      rw [h1]
      refine ⟨?_, ?_, ?_, hinv2, ?_⟩
      · rw [hr2]
        show rootAux k p (pget p x) = rootAux (k + 1) p x
        show _ = (if pget p x = x then x else rootAux k p (pget p x))
        rw [if_neg hroot]
      · rw [List.length_set]
        exact hlen1
      · intro y
        rw [hroots2 y, hroots1 y]
      · intro y
        rw [hriff2 y, hriff1 y]

/-- Specification of `UnionFind.find`. -/
theorem find_spec (uf : UnionFind) (inv : UFInv uf.parent) (x : Nat) :
    (uf.find x).1 = rootP uf.parent x ∧
    (uf.find x).2.parent.length = uf.parent.length ∧
    (∀ y, rootP (uf.find x).2.parent y = rootP uf.parent y) ∧
    UFInv (uf.find x).2.parent ∧
    (∀ y, isRootP (uf.find x).2.parent y ↔ isRootP uf.parent y) ∧
    (uf.find x).2.rank = uf.rank ∧ (uf.find x).2.size = uf.size := by
  have h := ufFindAux_spec inv uf.parent.length x (inv.reaches x)
  obtain ⟨h1, h2, h3, h4, h5⟩ := h
  exact ⟨h1, h2, h3, h4, h5, rfl, rfl⟩

theorem union_parent_eq (uf : UnionFind) (x y : Nat) :
    (uf.union x y).2.parent =
      (if (uf.find x).1 = ((uf.find x).2.find y).1 then ((uf.find x).2.find y).2.parent
       else if ((uf.find x).2.find y).2.rank.getD (uf.find x).1 0 <
           ((uf.find x).2.find y).2.rank.getD ((uf.find x).2.find y).1 0 then
         ((uf.find x).2.find y).2.parent.set (uf.find x).1 ((uf.find x).2.find y).1
       else ((uf.find x).2.find y).2.parent.set ((uf.find x).2.find y).1 (uf.find x).1) := by
  unfold UnionFind.union
  dsimp only
  split_ifs <;> rfl

/-- Specification of `UnionFind.union` on two nodes with distinct roots: some
`nr` among the two old roots becomes the root of both old classes, every
other class is untouched, and the invariant holds. -/
theorem union_spec (uf : UnionFind) (inv : UFInv uf.parent) (x y : Nat)
    (hx : x < uf.parent.length) (hy : y < uf.parent.length)
    (hne : rootP uf.parent x ≠ rootP uf.parent y) :
    ∃ nr, (nr = rootP uf.parent x ∨ nr = rootP uf.parent y) ∧
      (∀ z, rootP (uf.union x y).2.parent z =
        if rootP uf.parent z = rootP uf.parent x ∨ rootP uf.parent z = rootP uf.parent y
        then nr else rootP uf.parent z) ∧
      UFInv (uf.union x y).2.parent ∧
      (uf.union x y).2.parent.length = uf.parent.length := by
  obtain ⟨hf1, hl1, hr1, hi1, hif1, _, _⟩ := find_spec uf inv x
  obtain ⟨hf2, hl2, hr2, hi2, hif2, _, _⟩ := find_spec (uf.find x).2 hi1 y
  set p2 := ((uf.find x).2.find y).2.parent with hp2
  have hr2all : ∀ z, rootP p2 z = rootP uf.parent z := fun z => (hr2 z).trans (hr1 z)
  have hl2all : p2.length = uf.parent.length := hl2.trans hl1
  have hrx : (uf.find x).1 = rootP uf.parent x := hf1
  have hry : ((uf.find x).2.find y).1 = rootP uf.parent y := by
    rw [hf2, hr1 y]
  have hrootx : isRootP p2 (rootP uf.parent x) := by
    have := hi2.reaches (rootP uf.parent x)
    rwa [hr2all, rootP_of_root (inv.reaches x)] at this
  have hrooty : isRootP p2 (rootP uf.parent y) := by
    have := hi2.reaches (rootP uf.parent y)
    rwa [hr2all, rootP_of_root (inv.reaches y)] at this
  have hltx : rootP uf.parent x < p2.length := by
    rw [hl2all]
    exact rootP_lt inv hx
  have hlty : rootP uf.parent y < p2.length := by
    rw [hl2all]
    exact rootP_lt inv hy
  rw [union_parent_eq, hrx, hry, if_neg hne, ← hp2]
  by_cases hc1 : ((uf.find x).2.find y).2.rank.getD (rootP uf.parent x) 0 <
      ((uf.find x).2.find y).2.rank.getD (rootP uf.parent y) 0
  · rw [if_pos hc1]
    obtain ⟨hmap, hinv⟩ := link_spec hi2 hrootx hrooty hne hltx hlty
    refine ⟨rootP uf.parent y, Or.inr rfl, ?_, hinv, ?_⟩
    · intro z
      rw [hmap z, hr2all z]
      by_cases hz : rootP uf.parent z = rootP uf.parent x
      · rw [if_pos hz, if_pos (Or.inl hz)]
      · rw [if_neg hz]
        by_cases hz2 : rootP uf.parent z = rootP uf.parent y
        · rw [if_pos (Or.inr hz2), hz2]
        · rw [if_neg (by tauto)]
    · rw [List.length_set]
      exact hl2all
  · rw [if_neg hc1]
    obtain ⟨hmap, hinv⟩ := link_spec hi2 hrooty hrootx (Ne.symm hne) hlty hltx
    refine ⟨rootP uf.parent x, Or.inl rfl, ?_, hinv, ?_⟩
    · intro z
      rw [hmap z, hr2all z]
      by_cases hz : rootP uf.parent z = rootP uf.parent y
      · rw [if_pos hz, if_pos (Or.inr hz)]
      · rw [if_neg hz]
        by_cases hz2 : rootP uf.parent z = rootP uf.parent x
        · rw [if_pos (Or.inl hz2), hz2]
        · rw [if_neg (by tauto)]
    · rw [List.length_set]
      exact hl2all

/-! ### Support lemmas for the cluster safeguards -/

theorem eraseDups_loop_mem (x : Nat) :
    ∀ (as bs : List Nat), x ∈ List.eraseDups.loop as bs ↔ x ∈ bs ∨ x ∈ as := by
  intro as
  induction as with
  | nil =>
    intro bs
    simp [List.eraseDups.loop]
  | cons a as ih =>
    intro bs
    cases hel : bs.elem a with
    | true =>
      have ha : a ∈ bs := List.elem_iff.mp hel
      simp only [List.eraseDups.loop, hel, ih, List.mem_cons]
      constructor
      · rintro (h | h)
        · exact Or.inl h
        · exact Or.inr (Or.inr h)
      · rintro (h | rfl | h)
        · exact Or.inl h
        · exact Or.inl ha
        · exact Or.inr h
    | false =>
      simp only [List.eraseDups.loop, hel, ih, List.mem_cons]
      tauto

theorem eraseDups_loop_nodup :
    ∀ (as bs : List Nat), bs.Nodup → (List.eraseDups.loop as bs).Nodup := by
  intro as
  induction as with
  | nil =>
    intro bs hbs
    simpa [List.eraseDups.loop] using hbs
  | cons a as ih =>
    intro bs hbs
    cases hel : bs.elem a with
    | true =>
      simpa only [List.eraseDups.loop, hel] using ih bs hbs
    | false =>
      have ha : a ∉ bs := by
        intro h
        rw [List.elem_iff.mpr h] at hel
        exact absurd hel (by simp)
      simpa only [List.eraseDups.loop, hel] using ih (a :: bs) (List.nodup_cons.mpr ⟨ha, hbs⟩)

theorem eraseDups_loop_length :
    ∀ (as bs : List Nat), (List.eraseDups.loop as bs).length ≤ bs.length + as.length := by
  intro as
  induction as with
  | nil =>
    intro bs
    simp [List.eraseDups.loop]
  | cons a as ih =>
    intro bs
    cases hel : bs.elem a with
    | true =>
      have h1 := ih bs
      simp only [List.eraseDups.loop, hel]
      simp only [List.length_cons]
      omega
    | false =>
      have h1 := ih (a :: bs)
      simp only [List.eraseDups.loop, hel]
      simp only [List.length_cons] at h1 ⊢
      omega

theorem mem_eraseDups {x : Nat} {l : List Nat} : x ∈ l.eraseDups ↔ x ∈ l := by
  unfold List.eraseDups
  rw [eraseDups_loop_mem]
  simp

theorem nodup_eraseDups (l : List Nat) : l.eraseDups.Nodup :=
  eraseDups_loop_nodup l [] List.nodup_nil

theorem length_eraseDups_le (l : List Nat) : l.eraseDups.length ≤ l.length := by
  have := eraseDups_loop_length l []
  simpa [List.eraseDups] using this

/-- The haversine distance is symmetric in its two endpoints. -/
theorem haversineDistance_comm (lat1 lng1 lat2 lng2 : ℝ) :
    haversineDistance lat1 lng1 lat2 lng2 = haversineDistance lat2 lng2 lat1 lng1 := by
  simp only [haversineDistance]
  have hs : ∀ u v : ℝ, Real.sin ((u - v) * Real.pi / 180 / 2) ^ 2
      = Real.sin ((v - u) * Real.pi / 180 / 2) ^ 2 := by
    intro u v
    have h : (u - v) * Real.pi / 180 / 2 = -((v - u) * Real.pi / 180 / 2) := by ring
    rw [h, Real.sin_neg, neg_sq]
  rw [hs lat2 lat1, hs lng2 lng1,
    mul_comm (Real.cos (lat1 * Real.pi / 180)) (Real.cos (lat2 * Real.pi / 180))]

theorem mem_pairIndices {n a b : Nat} : (a, b) ∈ pairIndices n ↔ a < b ∧ b < n := by
  unfold pairIndices
  simp only [List.mem_flatMap, List.mem_map, List.mem_range, List.mem_range'_1,
    Prod.mk.injEq]
  constructor
  · rintro ⟨i, hi, j, hj, rfl, rfl⟩
    omega
  · rintro ⟨hab, hbn⟩
    exact ⟨a, by omega, b, by omega, rfl, rfl⟩

open Classical in
theorem foldlMax_le_iff {α : Type} (f : α → ℝ) (c : ℝ) :
    ∀ (l : List α) (z : ℝ),
      l.foldl (fun m a => if m < f a then f a else m) z ≤ c ↔ z ≤ c ∧ ∀ a ∈ l, f a ≤ c := by
  intro l
  induction l with
  | nil =>
    intro z
    simp
  | cons a as ih =>
    intro z
    rw [List.foldl_cons, ih]
    constructor
    · rintro ⟨h1, h2⟩
      split_ifs at h1 with h
      · exact ⟨le_trans h.le h1, fun x hx => by
          rcases List.mem_cons.mp hx with rfl | hx
          exacts [h1, h2 x hx]⟩
      · refine ⟨h1, fun x hx => ?_⟩
        rcases List.mem_cons.mp hx with rfl | hx
        · exact le_trans (le_of_not_lt h) h1
        · exact h2 x hx
    · rintro ⟨h1, h2⟩
      refine ⟨?_, fun x hx => h2 x (List.mem_cons_of_mem a hx)⟩
      split_ifs with h
      · exact h2 a (List.mem_cons_self a as)
      · exact h1

open Classical in
/-- The haversine distance between the points at positions `pq.1` and `pq.2`
of the index list, as read by `calculateClusterDiameter`. -/
noncomputable def distAt (points : List ParsedMapPoint) (indices : List Nat)
    (pq : Nat × Nat) : ℝ :=
  haversineDistance (points.getD (indices.getD pq.1 0) default).lat
    (points.getD (indices.getD pq.1 0) default).lng
    (points.getD (indices.getD pq.2 0) default).lat
    (points.getD (indices.getD pq.2 0) default).lng

open Classical in
theorem calculateClusterDiameter_eq (points : List ParsedMapPoint)
    (indices : List Nat) :
    calculateClusterDiameter points indices =
      if indices.length ≤ 1 then 0
      else (pairIndices indices.length).foldl
        (fun m pq => if m < distAt points indices pq then distAt points indices pq else m)
        0 := rfl

open Classical in
theorem calculateClusterDiameter_le_iff {points : List ParsedMapPoint}
    {indices : List Nat} (h2 : 2 ≤ indices.length) (c : ℝ) :
    calculateClusterDiameter points indices ≤ c ↔
      0 ≤ c ∧ ∀ pq ∈ pairIndices indices.length, distAt points indices pq ≤ c := by
  rw [calculateClusterDiameter_eq, if_neg (by omega), foldlMax_le_iff]

theorem calculateClusterDiameter_short {points : List ParsedMapPoint}
    {indices : List Nat} (h : indices.length ≤ 1) :
    calculateClusterDiameter points indices = 0 := by
  rw [calculateClusterDiameter_eq, if_pos h]

theorem calculateClusterDiameter_nonneg (points : List ParsedMapPoint)
    (indices : List Nat) : 0 ≤ calculateClusterDiameter points indices := by
  by_cases h : indices.length ≤ 1
  · rw [calculateClusterDiameter_short h]
  · exact ((calculateClusterDiameter_le_iff (by omega) _).mp le_rfl).1

theorem distAt_le_diam (points : List ParsedMapPoint) (indices : List Nat)
    (h2 : 2 ≤ indices.length) :
    ∀ pq ∈ pairIndices indices.length,
      distAt points indices pq ≤ calculateClusterDiameter points indices :=
  ((calculateClusterDiameter_le_iff h2 _).mp le_rfl).2

/-- The distance between any two listed members is at most the cluster
diameter. -/
theorem dist_le_diam (points : List ParsedMapPoint) {l : List Nat} {x y : Nat}
    (hx : x ∈ l) (hy : y ∈ l) :
    haversineDistance (points.getD x default).lat (points.getD x default).lng
        (points.getD y default).lat (points.getD y default).lng
      ≤ calculateClusterDiameter points l := by
  by_cases hxy : x = y
  · subst hxy
    rw [haversineDistance_self]
    exact calculateClusterDiameter_nonneg points l
  · obtain ⟨i, hi, hix⟩ := List.mem_iff_getElem.mp hx
    obtain ⟨j, hj, hjy⟩ := List.mem_iff_getElem.mp hy
    have hij : i ≠ j := by
      rintro rfl
      exact hxy (hix.symm.trans hjy)
    have h2 : 2 ≤ l.length := by omega
    have hgx : l.getD i 0 = x := by
      rw [List.getD_eq_getElem l 0 hi]
      exact hix
    have hgy : l.getD j 0 = y := by
      rw [List.getD_eq_getElem l 0 hj]
      exact hjy
    rcases Nat.lt_or_ge i j with hlt | hge
    · have hpq : (i, j) ∈ pairIndices l.length := mem_pairIndices.mpr ⟨hlt, hj⟩
      have h := distAt_le_diam points l h2 (i, j) hpq
      simp only [distAt] at h
      rwa [hgx, hgy] at h
    · have hlt : j < i := by omega
      have hpq : (j, i) ∈ pairIndices l.length := mem_pairIndices.mpr ⟨hlt, hi⟩
      have h := distAt_le_diam points l h2 (j, i) hpq
      simp only [distAt] at h
      rw [hgx, hgy] at h
      rw [haversineDistance_comm]
      exact h

/-- The diameter of a sub-multiset of members is bounded by any bound on the
diameter of the larger member list. -/
theorem diam_subset_le {points : List ParsedMapPoint} {l1 l2 : List Nat} {c : ℝ}
    (h0 : 0 ≤ c) (hsub : ∀ x ∈ l2, x ∈ l1)
    (h1 : calculateClusterDiameter points l1 ≤ c) :
    calculateClusterDiameter points l2 ≤ c := by
  by_cases hlen : l2.length ≤ 1
  · rw [calculateClusterDiameter_short hlen]
    exact h0
  · rw [calculateClusterDiameter_le_iff (by omega)]
    refine ⟨h0, fun pq hpq => ?_⟩
    obtain ⟨a, b⟩ := pq
    obtain ⟨hab, hbn⟩ := mem_pairIndices.mp hpq
    have hx : l2.getD a 0 ∈ l2 := by
      rw [List.getD_eq_getElem l2 0 (by omega)]
      exact List.getElem_mem _
    have hy : l2.getD b 0 ∈ l2 := by
      rw [List.getD_eq_getElem l2 0 hbn]
      exact List.getElem_mem _
    simp only [distAt]
    exact le_trans (dist_le_diam points (hsub _ hx) (hsub _ hy)) h1

/-! ### Association-list lemmas (JavaScript `Map` semantics) -/

theorem mem_keys {l : List (Nat × List Nat)} {k : Nat} :
    k ∈ l.map Prod.fst ↔ ∃ v, (k, v) ∈ l := by
  simp only [List.mem_map]
  constructor
  · rintro ⟨e, he, rfl⟩
    exact ⟨e.2, he⟩
  · rintro ⟨v, hv⟩
    exact ⟨(k, v), hv, rfl⟩

theorem assocGetD_of_mem {l : List (Nat × List Nat)} {k : Nat} {v : List Nat}
    (hnd : (l.map Prod.fst).Nodup) (h : (k, v) ∈ l) (d : List Nat) :
    assocGetD l k d = v := by
  induction l with
  | nil => cases h
  | cons e rest ih =>
    rw [List.map_cons, List.nodup_cons] at hnd
    rcases List.mem_cons.mp h with heq | hm
    · subst heq
      unfold assocGetD
      rw [List.find?_cons_of_pos _ (by simp)]
      rfl
    · have hne : e.1 ≠ k := by
        intro hek
        exact hnd.1 (hek ▸ List.mem_map.mpr ⟨(k, v), hm, rfl⟩)
      have hstep : assocGetD (e :: rest) k d = assocGetD rest k d := by
        unfold assocGetD
        rw [List.find?_cons_of_neg _ (by simp [hne])]
      rw [hstep]
      exact ih hnd.2 hm

theorem keys_assocSet {l : List (Nat × List Nat)} {k : Nat} (v : List Nat)
    (hk : k ∈ l.map Prod.fst) : (assocSet l k v).map Prod.fst = l.map Prod.fst := by
  induction l with
  | nil => simp at hk
  | cons a rest ih =>
    by_cases ha : a.1 = k
    · unfold assocSet
      rw [if_pos ha]
      simp [ha]
    · unfold assocSet
      rw [if_neg ha]
      rw [List.map_cons] at hk
      rcases List.mem_cons.mp hk with h | h
      · exact absurd h.symm ha
      · simp only [List.map_cons]
        rw [ih h]

theorem mem_assocSet {l : List (Nat × List Nat)} {k : Nat} {v : List Nat}
    (hnd : (l.map Prod.fst).Nodup) (hk : k ∈ l.map Prod.fst) (e : Nat × List Nat) :
    e ∈ assocSet l k v ↔ (e = (k, v) ∨ (e ∈ l ∧ e.1 ≠ k)) := by
  induction l with
  | nil => simp at hk
  | cons a rest ih =>
    rw [List.map_cons, List.nodup_cons] at hnd
    by_cases ha : a.1 = k
    · unfold assocSet
      rw [if_pos ha]
      constructor
      · intro h
        rcases List.mem_cons.mp h with heq | hm
        · exact Or.inl heq
        · right
          refine ⟨List.mem_cons_of_mem a hm, ?_⟩
          intro hek
          exact hnd.1 (ha ▸ hek ▸ List.mem_map.mpr ⟨e, hm, rfl⟩)
      · rintro (rfl | ⟨hm, hne⟩)
        · exact List.mem_cons_self _ _
        · rcases List.mem_cons.mp hm with rfl | hm'
          · exact absurd ha hne
          · exact List.mem_cons_of_mem _ hm'
    · unfold assocSet
      rw [if_neg ha]
      have hk' : k ∈ rest.map Prod.fst := by
        rw [List.map_cons] at hk
        rcases List.mem_cons.mp hk with h | h
        · exact absurd h.symm ha
        · exact h
      rw [List.mem_cons, ih hnd.2 hk']
      constructor
      · rintro (rfl | h | h)
        · exact Or.inr ⟨List.mem_cons_self _ _, ha⟩
        · exact Or.inl h
        · exact Or.inr ⟨List.mem_cons_of_mem a h.1, h.2⟩
      · rintro (rfl | ⟨hm, hne⟩)
        · exact Or.inr (Or.inl rfl)
        · rcases List.mem_cons.mp hm with rfl | hm'
          · exact Or.inl rfl
          · exact Or.inr (Or.inr ⟨hm', hne⟩)

theorem mem_assocDelete {l : List (Nat × List Nat)} {k : Nat}
    (hnd : (l.map Prod.fst).Nodup) (e : Nat × List Nat) :
    e ∈ assocDelete l k ↔ (e ∈ l ∧ e.1 ≠ k) := by
  induction l with
  | nil => simp [assocDelete]
  | cons a rest ih =>
    rw [List.map_cons, List.nodup_cons] at hnd
    by_cases ha : a.1 = k
    · unfold assocDelete
      rw [if_pos ha]
      constructor
      · intro h
        refine ⟨List.mem_cons_of_mem a h, ?_⟩
        intro hek
        exact hnd.1 (ha ▸ hek ▸ List.mem_map.mpr ⟨e, h, rfl⟩)
      · rintro ⟨hm, hne⟩
        rcases List.mem_cons.mp hm with rfl | h
        · exact absurd ha hne
        · exact h
    · unfold assocDelete
      rw [if_neg ha]
      rw [List.mem_cons, ih hnd.2]
      constructor
      · rintro (rfl | ⟨hm, hne⟩)
        · exact ⟨List.mem_cons_self _ _, ha⟩
        · exact ⟨List.mem_cons_of_mem a hm, hne⟩
      · rintro ⟨hm, hne⟩
        rcases List.mem_cons.mp hm with rfl | h
        · exact Or.inl rfl
        · exact Or.inr ⟨h, hne⟩

theorem assocDelete_sublist (l : List (Nat × List Nat)) (k : Nat) :
    List.Sublist (assocDelete l k) l := by
  induction l with
  | nil => simp [assocDelete]
  | cons a rest ih =>
    unfold assocDelete
    by_cases ha : a.1 = k
    · rw [if_pos ha]
      exact List.sublist_cons_self a rest
    · rw [if_neg ha]
      exact ih.cons₂ a

theorem keys_nodup_assocDelete {l : List (Nat × List Nat)} {k : Nat}
    (hnd : (l.map Prod.fst).Nodup) : ((assocDelete l k).map Prod.fst).Nodup :=
  hnd.sublist ((assocDelete_sublist l k).map Prod.fst)

theorem assocPush_of_not_mem {l : List (Nat × List Nat)} {k : Nat} (v : Nat)
    (h : k ∉ l.map Prod.fst) : assocPush l k v = l ++ [(k, [v])] := by
  induction l with
  | nil => rfl
  | cons a rest ih =>
    rw [List.map_cons] at h
    have ha : a.1 ≠ k := fun hek => h (hek ▸ List.mem_cons_self _ _)
    unfold assocPush
    rw [if_neg ha, ih (fun hm => h (List.mem_cons_of_mem _ hm)), List.cons_append]

theorem keys_assocPush {l : List (Nat × List Nat)} {k : Nat} (v : Nat)
    (hk : k ∈ l.map Prod.fst) : (assocPush l k v).map Prod.fst = l.map Prod.fst := by
  induction l with
  | nil => simp at hk
  | cons a rest ih =>
    by_cases ha : a.1 = k
    · unfold assocPush
      rw [if_pos ha]
      simp
    · unfold assocPush
      rw [if_neg ha]
      rw [List.map_cons] at hk
      rcases List.mem_cons.mp hk with h | h
      · exact absurd h.symm ha
      · simp only [List.map_cons]
        rw [ih h]

theorem mem_assocPush {l : List (Nat × List Nat)} {k : Nat} {v : Nat}
    (hnd : (l.map Prod.fst).Nodup) (hk : k ∈ l.map Prod.fst) (e : Nat × List Nat) :
    e ∈ assocPush l k v ↔
      ((e.1 = k ∧ ∃ v0, (k, v0) ∈ l ∧ e.2 = v0 ++ [v]) ∨ (e ∈ l ∧ e.1 ≠ k)) := by
  induction l with
  | nil => simp at hk
  | cons a rest ih =>
    rw [List.map_cons, List.nodup_cons] at hnd
    by_cases ha : a.1 = k
    · unfold assocPush
      rw [if_pos ha]
      constructor
      · intro h
        rcases List.mem_cons.mp h with heq | hm
        · subst heq
          left
          refine ⟨ha, a.2, ?_, rfl⟩
          have h2 : (k, a.2) = a := by rw [← ha]
          rw [h2]
          exact List.mem_cons_self _ _
        · right
          refine ⟨List.mem_cons_of_mem a hm, ?_⟩
          intro hek
          exact hnd.1 (ha ▸ hek ▸ List.mem_map.mpr ⟨e, hm, rfl⟩)
      · rintro (⟨hek, v0, hv0, hev⟩ | ⟨hm, hne⟩)
        · rcases List.mem_cons.mp hv0 with heq | hm'
          · have h1 : v0 = a.2 := congrArg Prod.snd heq
            have h2 : e = (a.1, a.2 ++ [v]) := by
              obtain ⟨e1, e2⟩ := e
              simp only [Prod.mk.injEq]
              exact ⟨hek.trans ha.symm, hev.trans (by rw [h1])⟩
            rw [h2]
            exact List.mem_cons_self _ _
          · exact absurd (ha ▸ List.mem_map.mpr ⟨(k, v0), hm', rfl⟩) hnd.1
        · rcases List.mem_cons.mp hm with rfl | hm'
          · exact absurd ha hne
          · exact List.mem_cons_of_mem _ hm'
    · unfold assocPush
      rw [if_neg ha]
      have hk' : k ∈ rest.map Prod.fst := by
        rw [List.map_cons] at hk
        rcases List.mem_cons.mp hk with h | h
        · exact absurd h.symm ha
        · exact h
      rw [List.mem_cons, ih hnd.2 hk']
      constructor
      · rintro (rfl | ⟨hek, v0, hv0, hev⟩ | h)
        · exact Or.inr ⟨List.mem_cons_self _ _, ha⟩
        · exact Or.inl ⟨hek, v0, List.mem_cons_of_mem a hv0, hev⟩
        · exact Or.inr ⟨List.mem_cons_of_mem a h.1, h.2⟩
      · rintro (⟨hek, v0, hv0, hev⟩ | ⟨hm, hne⟩)
        · rcases List.mem_cons.mp hv0 with heq | hm'
          · exact absurd (congrArg Prod.fst heq.symm) ha
          · exact Or.inr (Or.inl ⟨hek, v0, hm', hev⟩)
        · rcases List.mem_cons.mp hm with rfl | hm'
          · exact Or.inl rfl
          · exact Or.inr (Or.inr ⟨hm', hne⟩)

/-! ### Bucket characterisation of `UnionFind.getClusters` -/

theorem bucketFold_spec (ρ : Nat → Nat) :
    ∀ (todo done : List Nat) (acc : List (Nat × List Nat)) (u : UnionFind),
      UFInv u.parent → (∀ y, rootP u.parent y = ρ y) →
      (∀ km ∈ acc, km.2 = done.filter (fun i => ρ i = km.1)) →
      (acc.map Prod.fst).Nodup →
      (∀ km ∈ acc, ∃ i ∈ done, ρ i = km.1) →
      (∀ i ∈ done, ρ i ∈ acc.map Prod.fst) →
      (∀ km ∈ (todo.foldl (fun acc2 i =>
            let f := acc2.2.find i
            (assocPush acc2.1 f.1 i, f.2)) (acc, u)).1,
          km.2 = (done ++ todo).filter (fun i => ρ i = km.1)) ∧
      ((todo.foldl (fun acc2 i =>
            let f := acc2.2.find i
            (assocPush acc2.1 f.1 i, f.2)) (acc, u)).1.map Prod.fst).Nodup ∧
      (∀ km ∈ (todo.foldl (fun acc2 i =>
            let f := acc2.2.find i
            (assocPush acc2.1 f.1 i, f.2)) (acc, u)).1,
          ∃ i ∈ done ++ todo, ρ i = km.1) ∧
      (∀ i ∈ done ++ todo, ρ i ∈ (todo.foldl (fun acc2 i =>
            let f := acc2.2.find i
            (assocPush acc2.1 f.1 i, f.2)) (acc, u)).1.map Prod.fst) := by
  intro todo
  induction todo with
  | nil =>
    intro done acc u hinv hρ hfil hnd hwit hcomp
    refine ⟨?_, ?_, ?_, ?_⟩ <;> simp only [List.foldl_nil, List.append_nil]
    · exact hfil
    · exact hnd
    · exact hwit
    · exact hcomp
  | cons i todo ih =>
    intro done acc u hinv hρ hfil hnd hwit hcomp
    obtain ⟨hf1, _, hr1, hi1, _, _, _⟩ := find_spec u hinv i
    have hfi : (u.find i).1 = ρ i := hf1.trans (hρ i)
    have hρ1 : ∀ y, rootP (u.find i).2.parent y = ρ y := fun y => (hr1 y).trans (hρ y)
    rw [List.foldl_cons]
    dsimp only
    rw [hfi]
    -- establish the invariant for the pushed accumulator and `done ++ [i]`
    by_cases hk : ρ i ∈ acc.map Prod.fst
    · have hfil' : ∀ km ∈ assocPush acc (ρ i) i,
          km.2 = (done ++ [i]).filter (fun j => ρ j = km.1) := by
        intro km hkm
        rcases (mem_assocPush hnd hk km).mp hkm with ⟨hek, v0, hv0, hev⟩ | ⟨hm, hne⟩
        · have h0 := hfil (ρ i, v0) hv0
          simp only at h0
          rw [List.filter_append, hev, h0, hek]
          simp
        · have h0 := hfil km hm
          rw [List.filter_append, h0]
          have : [i].filter (fun j => ρ j = km.1) = [] := by
            simp [Ne.symm hne]
          rw [this, List.append_nil]
      have hnd' : ((assocPush acc (ρ i) i).map Prod.fst).Nodup := by
        rw [keys_assocPush i hk]
        exact hnd
      have hwit' : ∀ km ∈ assocPush acc (ρ i) i, ∃ j ∈ done ++ [i], ρ j = km.1 := by
        intro km hkm
        rcases (mem_assocPush hnd hk km).mp hkm with ⟨hek, v0, hv0, hev⟩ | ⟨hm, _⟩
        · exact ⟨i, by simp, hek.symm⟩
        · obtain ⟨j, hj, hρj⟩ := hwit km hm
          exact ⟨j, by simp [hj], hρj⟩
      have hcomp' : ∀ j ∈ done ++ [i], ρ j ∈ (assocPush acc (ρ i) i).map Prod.fst := by
        intro j hj
        rw [keys_assocPush i hk]
        rcases List.mem_append.mp hj with hj | hj
        · exact hcomp j hj
        · rw [List.mem_singleton.mp hj]
          exact hk
      have := ih (done ++ [i]) (assocPush acc (ρ i) i) (u.find i).2 hi1 hρ1 hfil' hnd'
        hwit' hcomp'
      simpa [List.append_assoc] using this
    · rw [assocPush_of_not_mem i hk]
      have hfil' : ∀ km ∈ acc ++ [(ρ i, [i])],
          km.2 = (done ++ [i]).filter (fun j => ρ j = km.1) := by
        intro km hkm
        rcases List.mem_append.mp hkm with hm | hm
        · have h0 := hfil km hm
          have hne : ρ i ≠ km.1 := by
            intro h
            exact hk (h ▸ List.mem_map.mpr ⟨km, hm, rfl⟩)
          rw [List.filter_append, h0]
          have : [i].filter (fun j => ρ j = km.1) = [] := by simp [hne]
          rw [this, List.append_nil]
        · rw [List.mem_singleton.mp hm]
          simp only
          have hdone : done.filter (fun j => ρ j = ρ i) = [] := by
            rw [List.filter_eq_nil_iff]
            intro j hj
            simp only [decide_eq_true_eq]
            intro h
            exact hk (h ▸ hcomp j hj)
          rw [List.filter_append, hdone]
          simp
      have hnd' : ((acc ++ [(ρ i, [i])]).map Prod.fst).Nodup := by
        rw [List.map_append]
        rw [List.nodup_append]
        refine ⟨hnd, by simp, ?_⟩
        intro a ha hb
        simp only [List.map_cons, List.map_nil, List.mem_singleton] at hb
        exact hk (hb ▸ ha)
      have hwit' : ∀ km ∈ acc ++ [(ρ i, [i])], ∃ j ∈ done ++ [i], ρ j = km.1 := by
        intro km hkm
        rcases List.mem_append.mp hkm with hm | hm
        · obtain ⟨j, hj, hρj⟩ := hwit km hm
          exact ⟨j, by simp [hj], hρj⟩
        · rw [List.mem_singleton.mp hm]
          exact ⟨i, by simp, rfl⟩
      have hcomp' : ∀ j ∈ done ++ [i], ρ j ∈ (acc ++ [(ρ i, [i])]).map Prod.fst := by
        intro j hj
        rw [List.map_append]
        rcases List.mem_append.mp hj with hj | hj
        · exact List.mem_append_left _ (hcomp j hj)
        · rw [List.mem_singleton.mp hj]
          exact List.mem_append_right _ (by simp)
      have := ih (done ++ [i]) (acc ++ [(ρ i, [i])]) (u.find i).2 hi1 hρ1 hfil' hnd'
        hwit' hcomp'
      simpa [List.append_assoc] using this

/-- Every bucket produced by `getClusters` is exactly the class of its root:
its member list is duplicate-free and holds precisely the indices whose root
is the bucket key, and every root below `n` has a bucket. -/
theorem getClusters_spec (uf : UnionFind) (inv : UFInv uf.parent) :
    (∀ km ∈ uf.getClusters.1,
        (∀ i, i ∈ km.2 ↔ (i < uf.parent.length ∧ rootP uf.parent i = km.1)) ∧
        km.2.Nodup ∧ isRootP uf.parent km.1 ∧ km.1 < uf.parent.length) ∧
    (∀ r, r < uf.parent.length → isRootP uf.parent r →
        r ∈ uf.getClusters.1.map Prod.fst) := by
  have h := bucketFold_spec (rootP uf.parent) (List.range uf.parent.length) [] [] uf inv
    (fun y => rfl) (by simp) (by simp) (by simp) (by simp)
  obtain ⟨hfil, hnd, hwit, hcomp⟩ := h
  constructor
  · intro km hkm
    refine ⟨?_, ?_, ?_, ?_⟩
    · intro i
      have h0 := hfil km hkm
      rw [h0]
      simp [List.mem_filter, List.mem_range]
    · have h0 := hfil km hkm
      rw [h0]
      simp only [List.nil_append]
      exact List.Nodup.filter _ (List.nodup_range _)
    · obtain ⟨i, _, hρi⟩ := hwit km hkm
      have := inv.reaches i
      rwa [hρi] at this
    · obtain ⟨i, hi, hρi⟩ := hwit km hkm
      simp only [List.nil_append, List.mem_range] at hi
      rw [← hρi]
      exact rootP_lt inv hi
  · intro r hr hroot
    have h1 : rootP uf.parent r = r := rootP_of_root hroot
    have := hcomp r (by simpa using hr)
    rwa [h1] at this

/-! ### The safeguard invariant of the candidate-processing loop -/

/-- The invariant `findDuplicateGroups` maintains over its merge loop: the
union-find is a well-formed forest over the `n` records, `clusterMembers` maps
each live root to exactly its class, and every tracked cluster obeys both
safeguards (size capped by `maxClusterSize`, except that the initial
singletons always count 1; diameter capped by `maxClusterDiameter`). -/
structure CMInv (points : List ParsedMapPoint) (config : DedupConfig)
    (st : MergeState) : Prop where
  inv : UFInv st.uf.parent
  plen : st.uf.parent.length = points.length
  keysNodup : (st.clusterMembers.map Prod.fst).Nodup
  entries : ∀ km ∈ st.clusterMembers,
    (∀ i, i ∈ km.2 ↔ (i < points.length ∧ rootP st.uf.parent i = km.1)) ∧
    km.2.Nodup ∧
    km.2.length ≤ max config.maxClusterSize 1 ∧
    calculateClusterDiameter points km.2 ≤ config.maxClusterDiameter
  complete : ∀ r, r < points.length → isRootP st.uf.parent r →
    r ∈ st.clusterMembers.map Prod.fst

/-- Replacing the union-find of a state by one with the same roots preserves
the invariant. -/
theorem cmInv_uf_congr {points : List ParsedMapPoint} {config : DedupConfig}
    {st : MergeState} (hinv : CMInv points config st) (u : UnionFind)
    (hlen : u.parent.length = st.uf.parent.length)
    (hroots : ∀ y, rootP u.parent y = rootP st.uf.parent y)
    (hiff : ∀ y, isRootP u.parent y ↔ isRootP st.uf.parent y)
    (hu : UFInv u.parent) :
    CMInv points config { st with uf := u } := by
  refine ⟨hu, hlen.trans hinv.plen, hinv.keysNodup, ?_, ?_⟩
  · intro km hkm
    obtain ⟨hmem, hnd, hsz, hdi⟩ := hinv.entries km hkm
    refine ⟨?_, hnd, hsz, hdi⟩
    intro i
    rw [hmem i, hroots i]
  · intro r hr hroot
    exact hinv.complete r hr ((hiff r).mp hroot)

theorem init_pget (n x : Nat) : pget (List.range n) x = x := by
  by_cases h : x < n
  · rw [pget, List.getD_eq_getElem _ _ (by simpa using h), List.getElem_range]
  · exact pget_out _ _ (by simpa using Nat.le_of_not_lt h)

theorem init_ufInv (n : Nat) : UFInv (List.range n) := by
  constructor
  · intro x hx
    rw [init_pget]
    simpa using hx
  · intro x
    have h : isRootP (List.range n) x := init_pget n x
    rw [rootP, rootAux_of_root h]
    exact h

theorem init_rootP (n x : Nat) : rootP (List.range n) x = x := by
  rw [rootP, rootAux_of_root (init_pget n x)]

/-- The invariant holds on the initial state of the merge loop. -/
theorem cmInv_init (points : List ParsedMapPoint) (config : DedupConfig)
    (h0 : 0 ≤ config.maxClusterDiameter) :
    CMInv points config
      { uf := UnionFind.init points.length
        clusterMembers := (List.range points.length).map (fun i => (i, [i]))
        matchList := [] } := by
  constructor
  · exact init_ufInv points.length
  · simp [UnionFind.init]
  · simp only [List.map_map]
    have h : (Prod.fst ∘ fun i => ((i : Nat), ([i] : List Nat))) = fun i => i := rfl
    rw [h]
    simpa using List.nodup_range points.length
  · intro km hkm
    obtain ⟨i, hi, rfl⟩ := List.mem_map.mp hkm
    rw [List.mem_range] at hi
    refine ⟨?_, by simp, by simp, ?_⟩
    · intro j
      show j ∈ [i] ↔ _
      simp only [List.mem_singleton]
      show _ ↔ (j < points.length ∧ rootP (List.range points.length) j = i)
      rw [init_rootP]
      constructor
      · rintro rfl
        exact ⟨hi, rfl⟩
      · rintro ⟨_, rfl⟩
        rfl
    · show calculateClusterDiameter points [i] ≤ _
      rw [calculateClusterDiameter_short (by simp)]
      exact h0
  · intro r hr _
    simp only [List.map_map]
    have h : (Prod.fst ∘ fun i => ((i : Nat), ([i] : List Nat))) = fun i => i := rfl
    rw [h]
    simpa using hr

/-- Generic form of the merge case: replacing the two merged roots' entries by
the merged cluster keyed at the surviving root preserves the invariant. -/
theorem cmInv_merge_core {points : List ParsedMapPoint} {config : DedupConfig}
    {p : List Nat} {cm : List (Nat × List Nat)} {r1 r2 nr other : Nat}
    {merged : List Nat} {u : UnionFind} {ml : List MatchResult}
    (hpinv : UFInv p)
    (hknd : (cm.map Prod.fst).Nodup)
    (hentries : ∀ km ∈ cm, (∀ i, i ∈ km.2 ↔ (i < points.length ∧ rootP p i = km.1)) ∧
      km.2.Nodup ∧ km.2.length ≤ max config.maxClusterSize 1 ∧
      calculateClusterDiameter points km.2 ≤ config.maxClusterDiameter)
    (hcomplete : ∀ r, r < points.length → isRootP p r → r ∈ cm.map Prod.fst)
    (hpair : (nr = r1 ∧ other = r2) ∨ (nr = r2 ∧ other = r1))
    (hne : r1 ≠ r2)
    (hr1root : isRootP p r1) (hr2root : isRootP p r2)
    (hufinv : UFInv u.parent) (hulen : u.parent.length = points.length)
    (hρ1 : ∀ z, rootP u.parent z =
      if rootP p z = r1 ∨ rootP p z = r2 then nr else rootP p z)
    (hnrk : nr ∈ cm.map Prod.fst)
    (hmmem : ∀ i, i ∈ merged ↔ (i < points.length ∧ (rootP p i = r1 ∨ rootP p i = r2)))
    (hmnd : merged.Nodup)
    (hmlen : merged.length ≤ max config.maxClusterSize 1)
    (hmdi : calculateClusterDiameter points merged ≤ config.maxClusterDiameter) :
    CMInv points config
      { uf := u, clusterMembers := assocDelete (assocSet cm nr merged) other
        matchList := ml } := by
  have hnro : nr ≠ other := by
    rcases hpair with ⟨ha1, hb⟩ | ⟨ha1, hb⟩
    · rw [ha1, hb]
      exact hne
    · rw [ha1, hb]
      exact hne.symm
  have hnds : ((assocSet cm nr merged).map Prod.fst).Nodup := by
    rw [keys_assocSet merged hnrk]
    exact hknd
  have hmem3 : ∀ e, e ∈ assocDelete (assocSet cm nr merged) other ↔
      (e = (nr, merged) ∨ (e ∈ cm ∧ e.1 ≠ r1 ∧ e.1 ≠ r2)) := by
    intro e
    rw [mem_assocDelete hnds, mem_assocSet hknd hnrk]
    constructor
    · rintro ⟨rfl | ⟨hm, hnenr⟩, hneo⟩
      · exact Or.inl rfl
      · right
        refine ⟨hm, ?_, ?_⟩
        · rcases hpair with ⟨ha1, hb⟩ | ⟨ha1, hb⟩
          · rw [← ha1]
            exact hnenr
          · rw [← hb]
            exact hneo
        · rcases hpair with ⟨ha1, hb⟩ | ⟨ha1, hb⟩
          · rw [← hb]
            exact hneo
          · rw [← ha1]
            exact hnenr
    · rintro (rfl | ⟨hm, hner1, hner2⟩)
      · refine ⟨Or.inl rfl, ?_⟩
        show nr ≠ other
        exact hnro
      · refine ⟨Or.inr ⟨hm, ?_⟩, ?_⟩
        · rcases hpair with ⟨ha1, _⟩ | ⟨ha1, _⟩
          · rw [ha1]
            exact hner1
          · rw [ha1]
            exact hner2
        · rcases hpair with ⟨_, hb⟩ | ⟨_, hb⟩
          · rw [hb]
            exact hner2
          · rw [hb]
            exact hner1
  have hnrcases : nr = r1 ∨ nr = r2 := by
    rcases hpair with ⟨ha1, _⟩ | ⟨ha1, _⟩
    · exact Or.inl ha1
    · exact Or.inr ha1
  refine ⟨hufinv, hulen, keys_nodup_assocDelete hnds, ?_, ?_⟩
  · intro km hkm
    rcases (hmem3 km).mp hkm with rfl | ⟨hm, hner1, hner2⟩
    · refine ⟨?_, hmnd, hmlen, hmdi⟩
      intro i
      show i ∈ merged ↔ _
      rw [hmmem i, hρ1 i]
      constructor
      · rintro ⟨hlt, hc⟩
        exact ⟨hlt, by rw [if_pos hc]⟩
      · rintro ⟨hlt, heq⟩
        refine ⟨hlt, ?_⟩
        by_cases hc : rootP p i = r1 ∨ rootP p i = r2
        · exact hc
        · rw [if_neg hc] at heq
          rcases hnrcases with h | h
          · exact absurd (Or.inl (heq.trans h)) hc
          · exact absurd (Or.inr (heq.trans h)) hc
    · obtain ⟨hmem, hnd, hsz, hdi⟩ := hentries km hm
      refine ⟨?_, hnd, hsz, hdi⟩
      intro i
      rw [hmem i, hρ1 i]
      constructor
      · rintro ⟨hlt, heq⟩
        refine ⟨hlt, ?_⟩
        have hc : ¬ (rootP p i = r1 ∨ rootP p i = r2) := by
          rintro (h | h)
          · exact hner1 (heq ▸ h ▸ rfl)
          · exact hner2 (heq ▸ h ▸ rfl)
        rw [if_neg hc]
        exact heq
      · rintro ⟨hlt, heq⟩
        refine ⟨hlt, ?_⟩
        by_cases hc : rootP p i = r1 ∨ rootP p i = r2
        · rw [if_pos hc] at heq
          rcases hnrcases with h | h
          · exact absurd (heq.symm.trans h) hner1
          · exact absurd (heq.symm.trans h) hner2
        · rw [if_neg hc] at heq
          exact heq
  · intro r hr hroot
    have hfix : rootP u.parent r = r := rootP_of_root hroot
    rw [hρ1 r] at hfix
    by_cases hc : rootP p r = r1 ∨ rootP p r = r2
    · rw [if_pos hc] at hfix
      rw [← hfix]
      exact mem_keys.mpr ⟨merged, (hmem3 _).mpr (Or.inl rfl)⟩
    · rw [if_neg hc] at hfix
      have hrootp : isRootP p r := (rootP_eq_self_iff hpinv r).mp hfix
      obtain ⟨v, hv⟩ := mem_keys.mp (hcomplete r hr hrootp)
      refine mem_keys.mpr ⟨v, (hmem3 _).mpr (Or.inr ⟨hv, ?_, ?_⟩)⟩
      · intro h
        have h' : r = r1 := h
        exact hc (Or.inl (by rw [h']; exact rootP_of_root hr1root))
      · intro h
        have h' : r = r2 := h
        exact hc (Or.inr (by rw [h']; exact rootP_of_root hr2root))

set_option maxHeartbeats 1000000 in
open Classical in
/-- One pass of the candidate loop preserves the safeguard invariant. -/
theorem cmInv_step {points : List ParsedMapPoint} {config : DedupConfig}
    (h0 : 0 ≤ config.maxClusterDiameter) {st : MergeState} {m : MatchResult}
    (hinv : CMInv points config st)
    (h1 : m.index1 < points.length) (h2 : m.index2 < points.length) :
    CMInv points config (mergeStep points config st m) := by
  obtain ⟨e1, l1, r1eq, i1inv, if1, _, _⟩ := find_spec st.uf hinv.inv m.index1
  obtain ⟨e2, l2, r2eq, i2inv, if2, _, _⟩ :=
    find_spec (st.uf.find m.index1).2 i1inv m.index2
  have hP2root : ∀ y, rootP ((st.uf.find m.index1).2.find m.index2).2.parent y
      = rootP st.uf.parent y := fun y => (r2eq y).trans (r1eq y)
  have hP2len : ((st.uf.find m.index1).2.find m.index2).2.parent.length
      = st.uf.parent.length := l2.trans l1
  have hP2iff : ∀ y, isRootP ((st.uf.find m.index1).2.find m.index2).2.parent y
      ↔ isRootP st.uf.parent y := fun y => (if2 y).trans (if1 y)
  have he2' : ((st.uf.find m.index1).2.find m.index2).1
      = rootP st.uf.parent m.index2 := e2.trans (r1eq m.index2)
  have hi1lt : m.index1 < st.uf.parent.length := by
    rw [hinv.plen]
    exact h1
  have hi2lt : m.index2 < st.uf.parent.length := by
    rw [hinv.plen]
    exact h2
  simp only [mergeStep]
  rw [e1, he2']
  split
  next hroots => exact cmInv_uf_congr hinv _ hP2len hP2root hP2iff i2inv
  next hroots =>
    split
    next hsize => exact cmInv_uf_congr hinv _ hP2len hP2root hP2iff i2inv
    next hsize =>
      split
      next hdiam => exact cmInv_uf_congr hinv _ hP2len hP2root hP2iff i2inv
      next hdiam =>
        have hr1lt : rootP st.uf.parent m.index1 < points.length := by
          rw [← hinv.plen]
          exact rootP_lt hinv.inv hi1lt
        have hr2lt : rootP st.uf.parent m.index2 < points.length := by
          rw [← hinv.plen]
          exact rootP_lt hinv.inv hi2lt
        have hr1root : isRootP st.uf.parent (rootP st.uf.parent m.index1) :=
          hinv.inv.reaches _
        have hr2root : isRootP st.uf.parent (rootP st.uf.parent m.index2) :=
          hinv.inv.reaches _
        obtain ⟨v1, hv1⟩ := mem_keys.mp (hinv.complete _ hr1lt hr1root)
        obtain ⟨v2, hv2⟩ := mem_keys.mp (hinv.complete _ hr2lt hr2root)
        have hget1 : assocGetD st.clusterMembers (rootP st.uf.parent m.index1) [] = v1 :=
          assocGetD_of_mem hinv.keysNodup hv1 []
        have hget2 : assocGetD st.clusterMembers (rootP st.uf.parent m.index2) [] = v2 :=
          assocGetD_of_mem hinv.keysNodup hv2 []
        rw [hget1, hget2] at hsize hdiam ⊢
        obtain ⟨nr, hnrcase, humap, huinv, hulen⟩ :=
          union_spec ((st.uf.find m.index1).2.find m.index2).2 i2inv m.index1 m.index2
            (by rw [hP2len]; exact hi1lt) (by rw [hP2len]; exact hi2lt)
            (by rw [hP2root, hP2root]; exact hroots)
        have humap' : ∀ z,
            rootP ((((st.uf.find m.index1).2.find m.index2).2.union m.index1 m.index2)).2.parent z
              = if rootP st.uf.parent z = rootP st.uf.parent m.index1 ∨
                   rootP st.uf.parent z = rootP st.uf.parent m.index2 then nr
                else rootP st.uf.parent z := by
          intro z
          rw [humap z]
          simp only [hP2root]
        have hnr1 : nr = rootP st.uf.parent m.index1 ∨ nr = rootP st.uf.parent m.index2 := by
          rcases hnrcase with h | h
          · left
            rw [h, hP2root]
          · right
            rw [h, hP2root]
        obtain ⟨e3, l3, r3eq, i3inv, _, _, _⟩ :=
          find_spec ((((st.uf.find m.index1).2.find m.index2).2.union m.index1 m.index2)).2
            huinv m.index1
        have hnew :
            (((((st.uf.find m.index1).2.find m.index2).2.union m.index1 m.index2)).2.find
              m.index1).1 = nr := by
          rw [e3, humap' m.index1]
          simp
        rw [hnew]
        have hρ1 : ∀ z,
            rootP (((((st.uf.find m.index1).2.find m.index2).2.union m.index1
                m.index2)).2.find m.index1).2.parent z
              = if rootP st.uf.parent z = rootP st.uf.parent m.index1 ∨
                   rootP st.uf.parent z = rootP st.uf.parent m.index2 then nr
                else rootP st.uf.parent z := fun z => (r3eq z).trans (humap' z)
        have hflen : (((((st.uf.find m.index1).2.find m.index2).2.union m.index1
            m.index2)).2.find m.index1).2.parent.length = points.length := by
          rw [l3, hulen, hP2len, hinv.plen]
        obtain ⟨hm1, hnd1, hsz1, hdi1⟩ := hinv.entries _ hv1
        obtain ⟨hm2, hnd2, hsz2, hdi2⟩ := hinv.entries _ hv2
        dsimp only at hm1 hm2
        have hmmem : ∀ i, i ∈ (v1 ++ v2).eraseDups ↔
            (i < points.length ∧ (rootP st.uf.parent i = rootP st.uf.parent m.index1 ∨
              rootP st.uf.parent i = rootP st.uf.parent m.index2)) := by
          intro i
          rw [mem_eraseDups, List.mem_append, hm1 i, hm2 i]
          constructor
          · rintro (⟨hlt, h⟩ | ⟨hlt, h⟩)
            · exact ⟨hlt, Or.inl h⟩
            · exact ⟨hlt, Or.inr h⟩
          · rintro ⟨hlt, h | h⟩
            · exact Or.inl ⟨hlt, h⟩
            · exact Or.inr ⟨hlt, h⟩
        have hmlen : (v1 ++ v2).eraseDups.length ≤ max config.maxClusterSize 1 := by
          have hle := length_eraseDups_le (v1 ++ v2)
          rw [List.length_append] at hle
          have hs : v1.length + v2.length ≤ config.maxClusterSize := by omega
          exact le_trans hle (le_trans hs (le_max_left _ _))
        have hmdi : calculateClusterDiameter points (v1 ++ v2).eraseDups
            ≤ config.maxClusterDiameter :=
          diam_subset_le h0 (fun x hx => mem_eraseDups.mp hx) (not_lt.mp hdiam)
        have hnrk : nr ∈ st.clusterMembers.map Prod.fst := by
          rcases hnr1 with h | h
          · rw [h]
            exact mem_keys.mpr ⟨v1, hv1⟩
          · rw [h]
            exact mem_keys.mpr ⟨v2, hv2⟩
        rcases hnr1 with hnra | hnrb
        · have hno1 : ¬ (nr ≠ rootP st.uf.parent m.index1) := by
            rw [hnra]
            simp
          have hyes2 : nr ≠ rootP st.uf.parent m.index2 := by
            rw [hnra]
            exact hroots
          rw [if_neg hno1, if_pos hyes2]
          exact cmInv_merge_core hinv.inv hinv.keysNodup hinv.entries hinv.complete
            (Or.inl ⟨hnra, rfl⟩) hroots hr1root hr2root i3inv hflen hρ1 hnrk hmmem
            (nodup_eraseDups _) hmlen hmdi
        · have hyes1 : nr ≠ rootP st.uf.parent m.index1 := by
            rw [hnrb]
            exact fun h => hroots h.symm
          have hno2 : ¬ (nr ≠ rootP st.uf.parent m.index2) := by
            rw [hnrb]
            simp
          rw [if_pos hyes1, if_neg hno2]
          exact cmInv_merge_core hinv.inv hinv.keysNodup hinv.entries hinv.complete
            (Or.inr ⟨hnrb, rfl⟩) hroots hr1root hr2root i3inv hflen hρ1 hnrk hmmem
            (nodup_eraseDups _) hmlen hmdi

/-- The safeguard invariant is preserved by the whole candidate loop. -/
theorem cmInv_foldl {points : List ParsedMapPoint} {config : DedupConfig}
    (h0 : 0 ≤ config.maxClusterDiameter) :
    ∀ (ms : List MatchResult) (st : MergeState), CMInv points config st →
      (∀ m ∈ ms, m.index1 < points.length ∧ m.index2 < points.length) →
      CMInv points config (ms.foldl (mergeStep points config) st) := by
  intro ms
  induction ms with
  | nil =>
    intro st h _
    simpa using h
  | cons m ms ih =>
    intro st h hall
    rw [List.foldl_cons]
    exact ih _ (cmInv_step h0 h (hall m (by simp)).1 (hall m (by simp)).2)
      (fun x hx => hall x (List.mem_cons_of_mem m hx))

/-- Every retained candidate pair indexes two records of the input. -/
theorem sortedPotentialMatches_indices {points : List ParsedMapPoint}
    {config : DedupConfig} :
    ∀ m ∈ sortedPotentialMatches points config,
      m.index1 < points.length ∧ m.index2 < points.length := by
  intro m hm
  rw [sortedPotentialMatches] at hm
  have hm' : m ∈ potentialMatches points config := (stableSort_perm _ _).mem_iff.mp hm
  rw [potentialMatches] at hm'
  rw [List.mem_filterMap] at hm'
  obtain ⟨ij, hij, hf⟩ := hm'
  obtain ⟨a, b⟩ := ij
  rw [mem_pairIndices] at hij
  dsimp only at hf
  split_ifs at hf with hc
  have heq := Option.some.inj hf
  have ha : m.index1 = a := by
    rw [← heq]
  have hb : m.index2 = b := by
    rw [← heq]
  rw [ha, hb]
  omega

/-- **C2** (amended). Cluster safeguards, post hoc: when the configured
maximum cluster diameter is non-negative, every group returned by
`findDuplicateGroups` has at most `max maxClusterSize 1` members, and the
maximum pairwise haversine distance among its members is at most
`maxClusterDiameter`.  The `max … 1` is necessary: the size guard only vets
merges, so the initial singleton clusters (and the single-record fast path)
always survive, even when `maxClusterSize = 0`. -/
theorem cluster_safeguards (points : List ParsedMapPoint) (config : DedupConfig)
    (h0 : 0 ≤ config.maxClusterDiameter) :
    ∀ g ∈ findDuplicateGroups points config,
      g.members.length ≤ max config.maxClusterSize 1 ∧
      calculateClusterDiameter points g.members ≤ config.maxClusterDiameter := by
  intro g hg
  simp only [findDuplicateGroups] at hg
  by_cases h0n : points.length = 0
  · rw [if_pos h0n] at hg
    cases hg
  · rw [if_neg h0n] at hg
    by_cases h1n : points.length = 1
    · rw [if_pos h1n] at hg
      rw [List.mem_singleton] at hg
      subst hg
      constructor
      · show ([0] : List Nat).length ≤ _
        simp
      · show calculateClusterDiameter points [0] ≤ _
        rw [calculateClusterDiameter_short (by simp)]
        exact h0
    · rw [if_neg h1n] at hg
      rw [List.mem_map] at hg
      obtain ⟨rc, hrc, rfl⟩ := hg
      have hfin : CMInv points config
          ((sortedPotentialMatches points config).foldl (mergeStep points config)
            { uf := UnionFind.init points.length
              clusterMembers := (List.range points.length).map (fun i => (i, [i]))
              matchList := [] }) :=
        cmInv_foldl h0 (sortedPotentialMatches points config) _
          (cmInv_init points config h0) sortedPotentialMatches_indices
      obtain ⟨hbuck, _⟩ := getClusters_spec _ hfin.inv
      obtain ⟨hmemiff, hbnd, hroot, hklt⟩ := hbuck rc hrc
      have hklt' : rc.1 < points.length := by
        rw [← hfin.plen]
        exact hklt
      obtain ⟨v, hv⟩ := mem_keys.mp (hfin.complete rc.1 hklt' hroot)
      obtain ⟨hviff, hvnd, hvlen, hvdi⟩ := hfin.entries _ hv
      dsimp only at hviff
      have hsame : ∀ i, i ∈ rc.2 ↔ i ∈ v := by
        intro i
        rw [hmemiff i, hviff i, hfin.plen]
      have hperm : rc.2.Perm v := (List.perm_ext_iff_of_nodup hbnd hvnd).mpr hsame
      have hmem_eq : (buildGroup points
          ((sortedPotentialMatches points config).foldl (mergeStep points config)
            { uf := UnionFind.init points.length
              clusterMembers := (List.range points.length).map (fun i => (i, [i]))
              matchList := [] }).matchList rc.1 rc.2).members = rc.2 := rfl
      rw [hmem_eq]
      constructor
      · rw [hperm.length_eq]
        exact hvlen
      · exact diam_subset_le h0 (fun x hx => (hsame x).mp hx) hvdi

/-- The configuration of `cluster_size_counterexample`: the default
deduplication configuration with `maxClusterSize` lowered to the (valid,
non-negative) count 0. -/
noncomputable def zeroSizeConfig : DedupConfig :=
  { DEFAULT_DEDUP_CONFIG with maxClusterSize := 0 }

/-- Counterexample to the literal reading of the claim: with
`maxClusterSize = 0` (a valid count), the single-record fast path still
returns a group with one member, exceeding the configured maximum cluster
size. -/
theorem cluster_size_counterexample :
    ∃ g ∈ findDuplicateGroups [default] zeroSizeConfig,
      ¬ (g.members.length ≤ zeroSizeConfig.maxClusterSize) := by
  have h : findDuplicateGroups [default] zeroSizeConfig =
      [{ representative := 0
         members := [0]
         mergedName := (([default] : List ParsedMapPoint).getD 0 default).name
         akaNames := []
         centroidLat := (([default] : List ParsedMapPoint).getD 0 default).lat
         centroidLng := (([default] : List ParsedMapPoint).getD 0 default).lng
         confidence := 100 }] := rfl
  rw [h]
  refine ⟨_, List.mem_singleton_self _, ?_⟩
  show ¬ (([0] : List Nat).length ≤ 0)
  simp

theorem cluster_safeguards_witness :
    (0 : ℝ) ≤ DEFAULT_DEDUP_CONFIG.maxClusterDiameter ∧
    ∀ g ∈ findDuplicateGroups [] DEFAULT_DEDUP_CONFIG,
      g.members.length ≤ max DEFAULT_DEDUP_CONFIG.maxClusterSize 1 ∧
      calculateClusterDiameter [] g.members ≤ DEFAULT_DEDUP_CONFIG.maxClusterDiameter :=
  ⟨by norm_num [DEFAULT_DEDUP_CONFIG],
    cluster_safeguards [] DEFAULT_DEDUP_CONFIG (by norm_num [DEFAULT_DEDUP_CONFIG])⟩

/-! ### Symmetry of the scoring functions (C7)

The greedy matching pass of `jaroSimilarity` decomposes per character class
(a matched pair always joins equal characters), and within one class it is
the canonical two-pointer matching `ml` below, which is manifestly
symmetric.  The lemmas of this section establish that decomposition and
derive the symmetry of the whole scoring stack. -/

/-- Positions `< k` of character `c` in `a`, ascending. -/
def posUpTo (c : Char) (a : List Char) (k : Nat) : List Nat :=
  (List.range k).filter (fun i => a.getD i ' ' = c)

/-- All positions of character `c` in `a`, ascending. -/
def posOf (c : Char) (a : List Char) : List Nat := posUpTo c a a.length

/-- Fuelled canonical window matching of two ascending position lists:
match the heads when they are within `w` of each other, otherwise drop the
smaller head (it can never match).  Returns the matched pairs and the
remaining elements of the second list. -/
def mlAux (w : Nat) (fuel : Nat) (ps qs : List Nat) : List (Nat × Nat) × List Nat :=
  match ps, qs with
  | [], rest => ([], rest)
  | _ :: _, [] => ([], [])
  | p :: ps', q :: qs' =>
    match fuel with
    | 0 => ([], [])
    | fuel' + 1 =>
      if p ≤ q + w ∧ q ≤ p + w then
        ((p, q) :: (mlAux w fuel' ps' qs').1, (mlAux w fuel' ps' qs').2)
      else if q < p then mlAux w fuel' (p :: ps') qs'
      else mlAux w fuel' ps' (q :: qs')

/-- Canonical window matching with sufficient fuel. -/
def ml (w : Nat) (ps qs : List Nat) : List (Nat × Nat) × List Nat :=
  mlAux w (ps.length + qs.length) ps qs

theorem mlAux_succ_eq (w : Nat) :
    ∀ (fuel : Nat) (ps qs : List Nat), ps.length + qs.length ≤ fuel →
      mlAux w (fuel + 1) ps qs = mlAux w fuel ps qs := by
  intro fuel
  induction fuel with
  | zero =>
    intro ps qs h
    match ps, qs with
    | [], qs => rfl
    | p :: ps, [] => rfl
    | p :: ps, q :: qs => simp [List.length_cons] at h
  | succ fuel ih =>
    intro ps qs h
    match ps, qs with
    | [], qs => rfl
    | p :: ps, [] => rfl
    | p :: ps, q :: qs =>
      show (if p ≤ q + w ∧ q ≤ p + w then
          ((p, q) :: (mlAux w (fuel + 1) ps qs).1, (mlAux w (fuel + 1) ps qs).2)
        else if q < p then mlAux w (fuel + 1) (p :: ps) qs
        else mlAux w (fuel + 1) ps (q :: qs)) =
        (if p ≤ q + w ∧ q ≤ p + w then
          ((p, q) :: (mlAux w fuel ps qs).1, (mlAux w fuel ps qs).2)
        else if q < p then mlAux w fuel (p :: ps) qs
        else mlAux w fuel ps (q :: qs))
      simp only [List.length_cons] at h
      rw [ih ps qs (by omega), ih (p :: ps) qs (by simp [List.length_cons]; omega),
        ih ps (q :: qs) (by simp [List.length_cons]; omega)]

theorem mlAux_fuel (w : Nat) (ps qs : List Nat) :
    ∀ (fuel : Nat), ps.length + qs.length ≤ fuel → mlAux w fuel ps qs = ml w ps qs := by
  have hstep : ∀ d, mlAux w (ps.length + qs.length + d) ps qs = ml w ps qs := by
    intro d
    induction d with
    | zero => rfl
    | succ d ih =>
      rw [show ps.length + qs.length + (d + 1) = (ps.length + qs.length + d) + 1 by omega,
        mlAux_succ_eq w _ ps qs (by omega), ih]
  intro fuel h
  have h2 : fuel = ps.length + qs.length + (fuel - (ps.length + qs.length)) := by omega
  rw [h2, hstep]

theorem mlAux_nil_left (w fuel : Nat) (qs : List Nat) : mlAux w fuel [] qs = ([], qs) := by
  cases fuel <;> rfl

theorem mlAux_nil_right (w fuel : Nat) (ps : List Nat) :
    mlAux w fuel ps [] = ([], []) := by
  cases ps <;> cases fuel <;> rfl

theorem ml_nil_left (w : Nat) (qs : List Nat) : ml w [] qs = ([], qs) :=
  mlAux_nil_left w _ qs

theorem ml_nil_right (w : Nat) (ps : List Nat) : ml w ps [] = ([], []) :=
  mlAux_nil_right w _ ps

theorem ml_cons_cons (w p q : Nat) (ps qs : List Nat) :
    ml w (p :: ps) (q :: qs) =
      if p ≤ q + w ∧ q ≤ p + w then
        ((p, q) :: (ml w ps qs).1, (ml w ps qs).2)
      else if q < p then ml w (p :: ps) qs
      else ml w ps (q :: qs) := by
  show mlAux w ((p :: ps).length + (q :: qs).length) (p :: ps) (q :: qs) = _
  have hlen : (p :: ps).length + (q :: qs).length = (ps.length + qs.length + 1) + 1 := by
    simp [List.length_cons]
    omega
  rw [hlen]
  show (if p ≤ q + w ∧ q ≤ p + w then
      ((p, q) :: (mlAux w (ps.length + qs.length + 1) ps qs).1,
        (mlAux w (ps.length + qs.length + 1) ps qs).2)
    else if q < p then mlAux w (ps.length + qs.length + 1) (p :: ps) qs
    else mlAux w (ps.length + qs.length + 1) ps (q :: qs)) = _
  rw [mlAux_fuel w ps qs _ (by omega),
    mlAux_fuel w (p :: ps) qs _ (by simp [List.length_cons]; omega),
    mlAux_fuel w ps (q :: qs) _ (by simp [List.length_cons]; omega)]

theorem ml_swap_aux (w : Nat) :
    ∀ (n : Nat) (ps qs : List Nat), ps.length + qs.length ≤ n →
      (ml w qs ps).1 = (ml w ps qs).1.map Prod.swap := by
  intro n
  induction n with
  | zero =>
    intro ps qs h
    have hps : ps = [] := by
      cases ps
      · rfl
      · simp [List.length_cons] at h
    have hqs : qs = [] := by
      cases qs
      · rfl
      · simp [List.length_cons] at h
    subst hps
    subst hqs
    rfl
  | succ n ih =>
    intro ps qs h
    match ps, qs with
    | [], qs =>
      rw [ml_nil_left, ml_nil_right]
      rfl
    | p :: ps, [] =>
      rw [ml_nil_left, ml_nil_right]
      rfl
    | p :: ps, q :: qs =>
      simp only [List.length_cons] at h
      by_cases hw : p ≤ q + w ∧ q ≤ p + w
      · rw [ml_cons_cons w q p qs ps, if_pos ⟨hw.2, hw.1⟩,
          ml_cons_cons w p q ps qs, if_pos hw]
        simp only [List.map_cons]
        rw [ih ps qs (by omega)]
        rfl
      · have h1 : ¬ (q ≤ p + w ∧ p ≤ q + w) := fun hx => hw ⟨hx.2, hx.1⟩
        rw [ml_cons_cons w q p qs ps, if_neg h1, ml_cons_cons w p q ps qs, if_neg hw]
        have hne : p ≠ q := by
          rintro rfl
          exact hw ⟨Nat.le_add_right _ _, Nat.le_add_right _ _⟩
        by_cases hqp : q < p
        · rw [if_pos hqp, if_neg (by omega : ¬ p < q)]
          exact ih (p :: ps) qs (by simp [List.length_cons]; omega)
        · have hpq : p < q := by omega
          rw [if_neg hqp, if_pos hpq]
          exact ih ps (q :: qs) (by simp [List.length_cons]; omega)

theorem ml_swap (w : Nat) (ps qs : List Nat) :
    (ml w qs ps).1 = (ml w ps qs).1.map Prod.swap :=
  ml_swap_aux w (ps.length + qs.length) ps qs le_rfl

theorem ml_sndrest_sublist (w : Nat) :
    ∀ (n : Nat) (ps qs : List Nat), ps.length + qs.length ≤ n →
      List.Sublist ((ml w ps qs).1.map Prod.snd ++ (ml w ps qs).2) qs := by
  intro n
  induction n with
  | zero =>
    intro ps qs h
    have hqs : qs = [] := by
      cases qs
      · rfl
      · simp [List.length_cons] at h
    subst hqs
    rw [ml_nil_right]
    simp
  | succ n ih =>
    intro ps qs h
    match ps, qs with
    | [], qs =>
      rw [ml_nil_left]
      simp
    | p :: ps, [] =>
      rw [ml_nil_right]
      simp
    | p :: ps, q :: qs =>
      simp only [List.length_cons] at h
      rw [ml_cons_cons]
      by_cases hw : p ≤ q + w ∧ q ≤ p + w
      · rw [if_pos hw]
        simp only [List.map_cons, List.cons_append]
        exact (ih ps qs (by omega)).cons₂ q
      · rw [if_neg hw]
        by_cases hqp : q < p
        · rw [if_pos hqp]
          exact (ih (p :: ps) qs (by simp [List.length_cons]; omega)).cons q
        · rw [if_neg hqp]
          exact ih ps (q :: qs) (by simp [List.length_cons]; omega)

theorem ml_fst_sublist (w : Nat) :
    ∀ (n : Nat) (ps qs : List Nat), ps.length + qs.length ≤ n →
      List.Sublist ((ml w ps qs).1.map Prod.fst) ps := by
  intro n
  induction n with
  | zero =>
    intro ps qs h
    have hps : ps = [] := by
      cases ps
      · rfl
      · simp [List.length_cons] at h
    subst hps
    rw [ml_nil_left]
    simp
  | succ n ih =>
    intro ps qs h
    match ps, qs with
    | [], qs =>
      rw [ml_nil_left]
      simp
    | p :: ps, [] =>
      rw [ml_nil_right]
      simp
    | p :: ps, q :: qs =>
      simp only [List.length_cons] at h
      rw [ml_cons_cons]
      by_cases hw : p ≤ q + w ∧ q ≤ p + w
      · rw [if_pos hw]
        simp only [List.map_cons]
        exact (ih ps qs (by omega)).cons₂ p
      · rw [if_neg hw]
        by_cases hqp : q < p
        · rw [if_pos hqp]
          exact ih (p :: ps) qs (by simp [List.length_cons]; omega)
        · rw [if_neg hqp]
          exact (ih ps (q :: qs) (by simp [List.length_cons]; omega)).cons p

theorem ml_dropped (w : Nat) :
    ∀ (n : Nat) (ps qs : List Nat), ps.length + qs.length ≤ n →
      ∀ x ∈ qs, x ∉ (ml w ps qs).1.map Prod.snd → x ∉ (ml w ps qs).2 →
        ∃ p' ∈ ps, x + w < p' := by
  intro n
  induction n with
  | zero =>
    intro ps qs h
    have hqs : qs = [] := by
      cases qs
      · rfl
      · simp [List.length_cons] at h
    subst hqs
    intro x hx
    cases hx
  | succ n ih =>
    intro ps qs h
    match ps, qs with
    | [], qs =>
      rw [ml_nil_left]
      intro x hx _ hr
      exact absurd hx hr
    | p :: ps, [] =>
      intro x hx
      cases hx
    | p :: ps, q :: qs =>
      simp only [List.length_cons] at h
      rw [ml_cons_cons]
      by_cases hw : p ≤ q + w ∧ q ≤ p + w
      · rw [if_pos hw]
        intro x hx hs hr
        simp only [List.map_cons, List.mem_cons] at hs
        rcases List.mem_cons.mp hx with rfl | hx'
        · exact absurd (Or.inl rfl) hs
        · obtain ⟨p', hp', hdead⟩ := ih ps qs (by omega) x hx'
            (fun hm => hs (Or.inr hm)) hr
          exact ⟨p', List.mem_cons_of_mem p hp', hdead⟩
      · rw [if_neg hw]
        by_cases hqp : q < p
        · rw [if_pos hqp]
          intro x hx hs hr
          rcases List.mem_cons.mp hx with rfl | hx'
          · refine ⟨p, List.mem_cons_self _ _, ?_⟩
            rcases Nat.lt_or_ge (x + w) p with hlt | hge
            · exact hlt
            · exact absurd ⟨hge, by omega⟩ hw
          · obtain ⟨p', hp', hdead⟩ := ih (p :: ps) qs
              (by simp [List.length_cons]; omega) x hx' hs hr
            exact ⟨p', hp', hdead⟩
        · rw [if_neg hqp]
          intro x hx hs hr
          obtain ⟨p', hp', hdead⟩ := ih ps (q :: qs)
            (by simp [List.length_cons]; omega) x hx hs hr
          exact ⟨p', List.mem_cons_of_mem p hp', hdead⟩

/-- The effect of offering one more first-list element `p` to the canonical
matching: dead second-list leftovers in front of `p`'s window are discarded,
then the first in-window leftover (if any) is matched. -/
def mlStep (w p : Nat) (r : List (Nat × Nat) × List Nat) :
    List (Nat × Nat) × List Nat :=
  match r.2.dropWhile (fun q => decide (q + w < p)) with
  | [] => (r.1, [])
  | q :: rest' => if q ≤ p + w then (r.1 ++ [(p, q)], rest') else (r.1, q :: rest')

theorem mlStep_nil (w p : Nat) (pr : List (Nat × Nat)) :
    mlStep w p (pr, []) = (pr, []) := rfl

theorem mlStep_cons_dead (w p q : Nat) (pr : List (Nat × Nat)) (rest : List Nat)
    (h : q + w < p) : mlStep w p (pr, q :: rest) = mlStep w p (pr, rest) := by
  unfold mlStep
  dsimp only
  rw [List.dropWhile_cons_of_pos (by simpa using h)]

theorem mlStep_cons_window (w p q : Nat) (pr : List (Nat × Nat)) (rest : List Nat)
    (h1 : ¬ q + w < p) (h2 : q ≤ p + w) :
    mlStep w p (pr, q :: rest) = (pr ++ [(p, q)], rest) := by
  unfold mlStep
  dsimp only
  rw [List.dropWhile_cons_of_neg (by simpa using h1)]
  dsimp only
  rw [if_pos h2]

theorem mlStep_cons_far (w p q : Nat) (pr : List (Nat × Nat)) (rest : List Nat)
    (h1 : ¬ q + w < p) (h2 : ¬ q ≤ p + w) :
    mlStep w p (pr, q :: rest) = (pr, q :: rest) := by
  unfold mlStep
  dsimp only
  rw [List.dropWhile_cons_of_neg (by simpa using h1)]
  dsimp only
  rw [if_neg h2]

theorem mlStep_cons (w p : Nat) (x : Nat × Nat) (pr : List (Nat × Nat))
    (rest : List Nat) :
    mlStep w p (x :: pr, rest) = ((x :: (mlStep w p (pr, rest)).1),
      (mlStep w p (pr, rest)).2) := by
  unfold mlStep
  dsimp only
  cases hrest : rest.dropWhile (fun q => decide (q + w < p)) with
  | nil => rfl
  | cons q rest2 =>
    dsimp only
    by_cases hq : q ≤ p + w
    · rw [if_pos hq, if_pos hq]
      rfl
    · rw [if_neg hq, if_neg hq]

theorem ml_append_aux (w : Nat) :
    ∀ (n : Nat) (ps qs : List Nat) (p : Nat), ps.length + qs.length ≤ n →
      ml w (ps ++ [p]) qs = mlStep w p (ml w ps qs) := by
  intro n
  induction n with
  | zero =>
    intro ps qs p h
    have hps : ps = [] := by
      cases ps
      · rfl
      · simp [List.length_cons] at h
    have hqs : qs = [] := by
      cases qs
      · rfl
      · simp [List.length_cons] at h
    subst hps
    subst hqs
    rw [List.nil_append, ml_nil_right, ml_nil_left]
    rfl
  | succ n ih =>
    intro ps qs p h
    match ps, qs with
    | [], [] =>
      rw [List.nil_append, ml_nil_right, ml_nil_left]
      rfl
    | [], q :: qs =>
      simp only [List.length_nil, List.length_cons] at h
      rw [List.nil_append, ml_cons_cons]
      by_cases hw : p ≤ q + w ∧ q ≤ p + w
      · rw [if_pos hw, ml_nil_left, ml_nil_left,
          mlStep_cons_window w p q [] qs (by omega) hw.2]
        rfl
      · by_cases hqp : q < p
        · have hdead : q + w < p := by
            rcases Nat.lt_or_ge (q + w) p with hlt | hge
            · exact hlt
            · exact absurd ⟨hge, by omega⟩ hw
          rw [if_neg hw, if_pos hqp]
          have hrec := ih [] qs p (by simp; omega)
          rw [List.nil_append] at hrec
          rw [hrec, ml_nil_left, ml_nil_left, mlStep_cons_dead w p q [] qs hdead]
        · have hqgt : p + w < q := by
            rcases Nat.lt_or_ge (p + w) q with hlt | hge
            · exact hlt
            · exact absurd ⟨by omega, hge⟩ hw
          rw [if_neg hw, if_neg hqp, ml_nil_left,
            mlStep_cons_far w p q [] qs (by omega) (by omega)]
    | p0 :: ps, [] =>
      rw [ml_nil_right, ml_nil_right]
      rfl
    | p0 :: ps, q :: qs =>
      simp only [List.length_cons] at h
      rw [show (p0 :: ps) ++ [p] = p0 :: (ps ++ [p]) from rfl,
        ml_cons_cons w p0 q (ps ++ [p]) qs, ml_cons_cons w p0 q ps qs]
      by_cases hw : p0 ≤ q + w ∧ q ≤ p0 + w
      · rw [if_pos hw, if_pos hw, ih ps qs p (by omega)]
        rw [mlStep_cons]
      · rw [if_neg hw, if_neg hw]
        by_cases hqp : q < p0
        · rw [if_pos hqp, if_pos hqp]
          have hrec := ih (p0 :: ps) qs p (by simp [List.length_cons]; omega)
          rw [show (p0 :: ps) ++ [p] = p0 :: (ps ++ [p]) from rfl] at hrec
          exact hrec
        · rw [if_neg hqp, if_neg hqp]
          exact ih ps (q :: qs) p (by simp [List.length_cons]; omega)

theorem ml_append (w : Nat) (ps qs : List Nat) (p : Nat) :
    ml w (ps ++ [p]) qs = mlStep w p (ml w ps qs) :=
  ml_append_aux w (ps.length + qs.length) ps qs p le_rfl

theorem mem_posUpTo {c : Char} {a : List Char} {k i : Nat} :
    i ∈ posUpTo c a k ↔ (i < k ∧ a.getD i ' ' = c) := by
  unfold posUpTo
  simp [List.mem_filter, List.mem_range]

theorem mem_posOf {c : Char} {a : List Char} {i : Nat} :
    i ∈ posOf c a ↔ (i < a.length ∧ a.getD i ' ' = c) := mem_posUpTo

theorem posUpTo_sorted (c : Char) (a : List Char) (k : Nat) :
    (posUpTo c a k).Pairwise (· < ·) :=
  List.Pairwise.sublist (List.filter_sublist _) (List.pairwise_lt_range k)

theorem posOf_sorted (c : Char) (a : List Char) : (posOf c a).Pairwise (· < ·) :=
  posUpTo_sorted c a a.length

theorem posOf_nodup (c : Char) (a : List Char) : (posOf c a).Nodup :=
  (posOf_sorted c a).imp Nat.ne_of_lt

theorem posUpTo_succ (c : Char) (a : List Char) (k : Nat) :
    posUpTo c a (k + 1) =
      posUpTo c a k ++ (if a.getD k ' ' = c then [k] else []) := by
  unfold posUpTo
  rw [List.range_succ, List.filter_append]
  congr 1
  by_cases h : a.getD k ' ' = c
  · rw [if_pos h]
    simp only [List.filter_cons, List.filter_nil]
    rw [if_pos (decide_eq_true h)]
  · rw [if_neg h]
    simp only [List.filter_cons, List.filter_nil]
    rw [if_neg (fun hd => h (of_decide_eq_true hd))]

/-- Number of `true` flags. -/
def countTrue (M : List Bool) : Nat := (M.filter (fun b => b)).length

theorem countTrue_cons (b : Bool) (l : List Bool) :
    countTrue (b :: l) = (if b then 1 else 0) + countTrue l := by
  cases b <;> simp [countTrue, List.filter_cons] <;> omega

theorem countTrue_set (M : List Bool) :
    ∀ (i : Nat), i < M.length → M.getD i false = false →
      countTrue (M.set i true) = countTrue M + 1 := by
  induction M with
  | nil =>
    intro i h
    simp at h
  | cons b bs ih =>
    intro i h hf
    cases i with
    | zero =>
      have hb : b = false := hf
      subst hb
      show countTrue (true :: bs) = countTrue (false :: bs) + 1
      rw [countTrue_cons, countTrue_cons]
      simp
      omega
    | succ i =>
      have hf' : bs.getD i false = false := hf
      have h' : i < bs.length := by
        simpa [List.length_cons] using h
      show countTrue (b :: bs.set i true) = countTrue (b :: bs) + 1
      rw [countTrue_cons, countTrue_cons, ih i h' hf']
      omega

theorem getD_set_self {α : Type} {M : List α} {i : Nat} (b d : α)
    (h : i < M.length) : (M.set i b).getD i d = b := by
  simp [List.getD_eq_getElem?_getD, List.getElem?_set_self h]

theorem getD_set_ne {α : Type} {M : List α} {i j : Nat} (b d : α)
    (h : i ≠ j) : (M.set i b).getD j d = M.getD j d := by
  simp [List.getD_eq_getElem?_getD, List.getElem?_set_ne h]

theorem find?_range'_eq_some {p : Nat → Bool} {x : Nat} :
    ∀ (s n : Nat), s ≤ x → x < s + n → p x = true →
      (∀ y, s ≤ y → y < x → p y = false) →
      (List.range' s n).find? p = some x := by
  intro s n
  induction n generalizing s with
  | zero =>
    intro h1 h2
    omega
  | succ n ih =>
    intro h1 h2 hx hmin
    rw [List.range'_succ]
    by_cases hs : s = x
    · subst hs
      rw [List.find?_cons_of_pos _ hx]
    · have hps : p s = false := hmin s le_rfl (by omega)
      rw [List.find?_cons_of_neg _ (by simp [hps])]
      exact ih (s + 1) (by omega) (by omega) hx (fun y hy1 hy2 => hmin y (by omega) hy2)

theorem find?_range'_eq_none {p : Nat → Bool} {s n : Nat}
    (h : ∀ y, s ≤ y → y < s + n → p y = false) :
    (List.range' s n).find? p = none := by
  rw [List.find?_eq_none]
  intro x hx
  rw [List.mem_range'_1] at hx
  simp [h x hx.1 hx.2]

theorem mem_dropWhile_of_neg {α : Type} {p : α → Bool} {x : α} :
    ∀ {l : List α}, x ∈ l → p x = false → x ∈ l.dropWhile p := by
  intro l
  induction l with
  | nil =>
    intro h
    cases h
  | cons a as ih =>
    intro hm hp
    cases ha : p a with
    | true =>
      rw [List.dropWhile_cons_of_pos ha]
      rcases List.mem_cons.mp hm with rfl | hm'
      · rw [hp] at ha
        cases ha
      · exact ih hm' hp
    | false =>
      rw [List.dropWhile_cons_of_neg (by simp [ha])]
      exact hm

theorem dropWhile_sublist' {α : Type} (p : α → Bool) (l : List α) :
    List.Sublist (l.dropWhile p) l := by
  induction l with
  | nil => simp
  | cons a as ih =>
    cases ha : p a with
    | true =>
      rw [List.dropWhile_cons_of_pos ha]
      exact ih.cons a
    | false =>
      rw [List.dropWhile_cons_of_neg (by simp [ha])]

theorem dropWhile_head_false {α : Type} {p : α → Bool} {a : α} {l2 : List α} :
    ∀ {l : List α}, l.dropWhile p = a :: l2 → p a = false := by
  intro l
  induction l with
  | nil =>
    intro h
    simp at h
  | cons b bs ih =>
    intro h
    cases hb : p b with
    | true =>
      rw [List.dropWhile_cons_of_pos hb] at h
      exact ih h
    | false =>
      rw [List.dropWhile_cons_of_neg (by simp [hb])] at h
      injection h with h1 _
      rw [← h1]
      exact hb

theorem mlStep_eq_nil (w p : Nat) (r : List (Nat × Nat) × List Nat)
    (h : r.2.dropWhile (fun x => decide (x + w < p)) = []) :
    mlStep w p r = (r.1, []) := by
  unfold mlStep
  rw [h]

theorem mlStep_eq_window (w p : Nat) (r : List (Nat × Nat) × List Nat)
    (q : Nat) (rest' : List Nat)
    (h : r.2.dropWhile (fun x => decide (x + w < p)) = q :: rest')
    (hq : q ≤ p + w) : mlStep w p r = (r.1 ++ [(p, q)], rest') := by
  unfold mlStep
  rw [h]
  dsimp only
  rw [if_pos hq]

theorem mlStep_eq_far (w p : Nat) (r : List (Nat × Nat) × List Nat)
    (q : Nat) (rest' : List Nat)
    (h : r.2.dropWhile (fun x => decide (x + w < p)) = q :: rest')
    (hq : ¬ q ≤ p + w) : mlStep w p r = (r.1, q :: rest') := by
  unfold mlStep
  rw [h]
  dsimp only
  rw [if_neg hq]

/-- The invariant of the matching pass after the outer loop has processed the
first-string indices `< k`: each flag array is the characteristic vector of
the canonical per-character-class matching of the processed prefix, and the
match counter counts either flag array. -/
def MInv (w : Nat) (a1 a2 : List Char) (k : Nat)
    (st : List Bool × List Bool × Nat) : Prop :=
  st.1.length = a1.length ∧
  st.2.1.length = a2.length ∧
  (∀ i, i < a1.length →
    (st.1.getD i false = true ↔
      i ∈ (ml w (posUpTo (a1.getD i ' ') a1 k)
        (posOf (a1.getD i ' ') a2)).1.map Prod.fst)) ∧
  (∀ j, j < a2.length →
    (st.2.1.getD j false = true ↔
      j ∈ (ml w (posUpTo (a2.getD j ' ') a1 k)
        (posOf (a2.getD j ' ') a2)).1.map Prod.snd)) ∧
  st.2.2 = countTrue st.1 ∧ st.2.2 = countTrue st.2.1

theorem getD_replicate {α : Type} (n i : Nat) (a : α) :
    (List.replicate n a).getD i a = a := by
  by_cases h : i < n
  · rw [List.getD_eq_getElem _ _ (by simpa using h)]
    exact List.getElem_replicate a _
  · exact List.getD_eq_default _ _ (by simpa using Nat.le_of_not_lt h)

theorem countTrue_replicate_false (n : Nat) :
    countTrue (List.replicate n false) = 0 := by
  induction n with
  | zero => rfl
  | succ n ih =>
    rw [List.replicate_succ, countTrue_cons, ih]
    simp

/-- The initial state satisfies the matching invariant. -/
theorem mInv_zero (w : Nat) (a1 a2 : List Char) :
    MInv w a1 a2 0
      (List.replicate a1.length false, List.replicate a2.length false, 0) := by
  refine ⟨by simp, by simp, ?_, ?_, ?_, ?_⟩
  · intro i hi
    rw [getD_replicate]
    rw [show posUpTo (a1.getD i ' ') a1 0 = [] from rfl, ml_nil_left]
    simp
  · intro j hj
    rw [getD_replicate]
    rw [show posUpTo (a2.getD j ' ') a1 0 = [] from rfl, ml_nil_left]
    simp
  · rw [countTrue_replicate_false]
  · rw [countTrue_replicate_false]

/-- One step of the matching pass preserves the invariant. -/
theorem mInv_step (w : Nat) (a1 a2 : List Char) (k : Nat) (hk : k < a1.length)
    (s1M s2M : List Bool) (m : Nat) (hinv : MInv w a1 a2 k (s1M, s2M, m)) :
    MInv w a1 a2 (k + 1)
      (match jaroScan (a1.getD k ' ') a2 s2M (k - w) (min (k + w + 1) a2.length) with
       | some j => (s1M.set k true, s2M.set j true, m + 1)
       | none => (s1M, s2M, m)) := by
  obtain ⟨hl1, hl2, hf1, hf2, hm1, hm2⟩ := hinv
  dsimp only at hl1 hl2 hf1 hf2 hm1 hm2
  set c := a1.getD k ' ' with hc
  have hfst_lt : ∀ x ∈ (ml w (posUpTo c a1 k) (posOf c a2)).1.map Prod.fst, x < k := by
    intro x hx
    have hsub := ml_fst_sublist w ((posUpTo c a1 k).length + (posOf c a2).length)
      (posUpTo c a1 k) (posOf c a2) le_rfl
    exact (mem_posUpTo.mp (hsub.subset hx)).1
  have hrsub := ml_sndrest_sublist w ((posUpTo c a1 k).length + (posOf c a2).length)
    (posUpTo c a1 k) (posOf c a2) le_rfl
  have hrest_sub : List.Sublist (ml w (posUpTo c a1 k) (posOf c a2)).2 (posOf c a2) :=
    (List.sublist_append_right _ _).trans hrsub
  have hnodup := (posOf_nodup c a2).sublist hrsub
  have hdisj : ∀ q ∈ (ml w (posUpTo c a1 k) (posOf c a2)).2,
      q ∉ (ml w (posUpTo c a1 k) (posOf c a2)).1.map Prod.snd := by
    intro q hq hq'
    rw [List.nodup_append] at hnodup
    exact hnodup.2.2 hq' hq
  have hpred : ∀ j, k - w ≤ j → j < min (k + w + 1) a2.length →
      ((!(s2M.getD j false) && decide (a2.getD j ' ' = c)) = true ↔
        j ∈ (ml w (posUpTo c a1 k) (posOf c a2)).2.dropWhile
          (fun q => decide (q + w < k))) := by
    intro j hj1 hj2
    constructor
    · intro hp
      rw [Bool.and_eq_true] at hp
      have hflag : s2M.getD j false = false := by
        cases hval : s2M.getD j false
        · rfl
        · rw [hval] at hp
          simp at hp
      have hchar : a2.getD j ' ' = c := by
        have h2 := hp.2
        simpa using h2
      have hjlen : j < a2.length := (lt_min_iff.mp hj2).2
      have hjpos : j ∈ posOf c a2 := mem_posOf.mpr ⟨hjlen, hchar⟩
      have hnotsnd : j ∉ (ml w (posUpTo c a1 k) (posOf c a2)).1.map Prod.snd := by
        intro hmem
        have ht := hf2 j hjlen
        rw [hchar] at ht
        rw [ht.mpr hmem] at hflag
        cases hflag
      by_cases hrest : j ∈ (ml w (posUpTo c a1 k) (posOf c a2)).2
      · exact mem_dropWhile_of_neg hrest (by simp; omega)
      · exfalso
        obtain ⟨p', hp', hdead⟩ := ml_dropped w
          ((posUpTo c a1 k).length + (posOf c a2).length)
          (posUpTo c a1 k) (posOf c a2) le_rfl j hjpos hnotsnd hrest
        have hpk : p' < k := (mem_posUpTo.mp hp').1
        omega
    · intro hj
      have hjrest : j ∈ (ml w (posUpTo c a1 k) (posOf c a2)).2 :=
        (dropWhile_sublist' _ _).subset hj
      have hjpos := hrest_sub.subset hjrest
      obtain ⟨hjlen, hchar⟩ := mem_posOf.mp hjpos
      have hflag : s2M.getD j false = false := by
        cases hval : s2M.getD j false
        · rfl
        · exfalso
          have ht := hf2 j hjlen
          rw [hchar] at ht
          exact hdisj j hjrest (ht.mp hval)
      rw [hflag, hchar]
      simp
  rcases hrest1 : (ml w (posUpTo c a1 k) (posOf c a2)).2.dropWhile
      (fun q => decide (q + w < k)) with _ | ⟨q, rest'⟩
  · -- no unmatched class-`c` position survives: the scan fails
    have hscan : jaroScan c a2 s2M (k - w) (min (k + w + 1) a2.length) = none := by
      unfold jaroScan
      apply find?_range'_eq_none
      intro y hy1 hy2
      show (!(s2M.getD y false) && decide (a2.getD y ' ' = c)) = false
      cases hv : (!(s2M.getD y false) && decide (a2.getD y ' ' = c))
      · rfl
      · exfalso
        have hy2' : y < min (k + w + 1) a2.length := by omega
        have hmem := (hpred y hy1 hy2').mp hv
        rw [hrest1] at hmem
        cases hmem
    rw [hscan]
    refine ⟨hl1, hl2, ?_, ?_, hm1, hm2⟩
    · intro i hi
      rw [posUpTo_succ]
      by_cases hci : c = a1.getD i ' '
      · rw [← hci, if_pos rfl, ml_append, mlStep_eq_nil w k _ hrest1]
        have hb := hf1 i hi
        rw [← hci] at hb
        exact hb
      · rw [if_neg hci, List.append_nil]
        exact hf1 i hi
    · intro j hj
      rw [posUpTo_succ]
      by_cases hcj : c = a2.getD j ' '
      · rw [← hcj, if_pos rfl, ml_append, mlStep_eq_nil w k _ hrest1]
        have hb := hf2 j hj
        rw [← hcj] at hb
        exact hb
      · rw [if_neg hcj, List.append_nil]
        exact hf2 j hj
  · have hqhead : ¬ (q + w < k) := by
      have := dropWhile_head_false hrest1
      simpa using this
    have hqrest : q ∈ (ml w (posUpTo c a1 k) (posOf c a2)).2 :=
      (dropWhile_sublist' _ _).subset (hrest1 ▸ List.mem_cons_self _ _)
    obtain ⟨hqlen, hqchar⟩ := mem_posOf.mp (hrest_sub.subset hqrest)
    have hsorted_rest1 : (q :: rest').Pairwise (· < ·) := by
      rw [← hrest1]
      exact List.Pairwise.sublist ((dropWhile_sublist' _ _).trans hrest_sub)
        (posOf_sorted c a2)
    by_cases hq : q ≤ k + w
    · -- the scan matches `k` with `q`
      have hscan : jaroScan c a2 s2M (k - w) (min (k + w + 1) a2.length) = some q := by
        unfold jaroScan
        apply find?_range'_eq_some
        · omega
        · have hqlt : q < min (k + w + 1) a2.length := lt_min (by omega) hqlen
          omega
        · exact (hpred q (by omega) (lt_min (by omega) hqlen)).mpr
            (hrest1 ▸ List.mem_cons_self _ _)
        · intro y hy1 hy2
          show (!(s2M.getD y false) && decide (a2.getD y ' ' = c)) = false
          cases hv : (!(s2M.getD y false) && decide (a2.getD y ' ' = c))
          · rfl
          · exfalso
            have hy2' : y < min (k + w + 1) a2.length := lt_min (by omega)
              (by have := (lt_min_iff.mp (lt_min (by omega : q < k + w + 1) hqlen)).2; omega)
            have hmem := (hpred y hy1 hy2').mp hv
            rw [hrest1] at hmem
            rcases List.mem_cons.mp hmem with rfl | hmem'
            · omega
            · have := (List.pairwise_cons.mp hsorted_rest1).1 y hmem'
              omega
      rw [hscan]
      refine ⟨?_, ?_, ?_, ?_, ?_, ?_⟩
      · rw [List.length_set]
        exact hl1
      · rw [List.length_set]
        exact hl2
      · intro i hi
        rw [posUpTo_succ]
        by_cases hci : c = a1.getD i ' '
        · rw [← hci, if_pos rfl, ml_append,
            mlStep_eq_window w k _ q rest' hrest1 hq, List.map_append]
          by_cases hik : i = k
          · subst hik
            rw [getD_set_self _ _ (by rw [hl1]; exact hi)]
            simp
          · rw [getD_set_ne _ _ (fun h => hik h.symm), List.mem_append]
            have hb := hf1 i hi
            rw [← hci] at hb
            rw [hb]
            constructor
            · exact fun h => Or.inl h
            · rintro (h | h)
              · exact h
              · exfalso
                simp at h
                exact hik h
        · have hik : i ≠ k := by
            intro h
            subst h
            exact hci rfl
          rw [if_neg hci, List.append_nil, getD_set_ne _ _ (fun h => hik h.symm)]
          exact hf1 i hi
      · intro j hj
        rw [posUpTo_succ]
        by_cases hcj : c = a2.getD j ' '
        · rw [← hcj, if_pos rfl, ml_append,
            mlStep_eq_window w k _ q rest' hrest1 hq, List.map_append]
          by_cases hjq : j = q
          · subst hjq
            rw [getD_set_self _ _ (by rw [hl2]; exact hj)]
            simp
          · rw [getD_set_ne _ _ (fun h => hjq h.symm), List.mem_append]
            have hb := hf2 j hj
            rw [← hcj] at hb
            rw [hb]
            constructor
            · exact fun h => Or.inl h
            · rintro (h | h)
              · exact h
              · exfalso
                simp at h
                exact hjq h
        · have hjq : j ≠ q := by
            intro h
            subst h
            exact hcj hqchar.symm
          rw [if_neg hcj, List.append_nil, getD_set_ne _ _ (fun h => hjq h.symm)]
          exact hf2 j hj
      · show m + 1 = countTrue (s1M.set k true)
        have hkflag : s1M.getD k false = false := by
          cases hv : s1M.getD k false
          · rfl
          · exfalso
            have := (hf1 k hk).mp hv
            exact absurd (hfst_lt k this) (lt_irrefl k)
        rw [countTrue_set s1M k (by rw [hl1]; exact hk) hkflag, hm1]
      · show m + 1 = countTrue (s2M.set q true)
        have hqflag : s2M.getD q false = false := by
          cases hv : s2M.getD q false
          · rfl
          · exfalso
            have ht := hf2 q hqlen
            rw [hqchar] at ht
            exact hdisj q hqrest (ht.mp hv)
        rw [countTrue_set s2M q (by rw [hl2]; exact hqlen) hqflag, hm2]
    · -- the surviving class-`c` position is beyond the window: the scan fails
      have hscan : jaroScan c a2 s2M (k - w) (min (k + w + 1) a2.length) = none := by
        unfold jaroScan
        apply find?_range'_eq_none
        intro y hy1 hy2
        show (!(s2M.getD y false) && decide (a2.getD y ' ' = c)) = false
        cases hv : (!(s2M.getD y false) && decide (a2.getD y ' ' = c))
        · rfl
        · exfalso
          have hy2' : y < min (k + w + 1) a2.length := by omega
          have hmem := (hpred y hy1 hy2').mp hv
          rw [hrest1] at hmem
          have hyq : q ≤ y := by
            rcases List.mem_cons.mp hmem with rfl | hmem'
            · exact le_rfl
            · exact le_of_lt ((List.pairwise_cons.mp hsorted_rest1).1 y hmem')
          have hylt := (lt_min_iff.mp hy2').1
          omega
      rw [hscan]
      refine ⟨hl1, hl2, ?_, ?_, hm1, hm2⟩
      · intro i hi
        rw [posUpTo_succ]
        by_cases hci : c = a1.getD i ' '
        · rw [← hci, if_pos rfl, ml_append,
            mlStep_eq_far w k _ q rest' hrest1 hq]
          have hb := hf1 i hi
          rw [← hci] at hb
          exact hb
        · rw [if_neg hci, List.append_nil]
          exact hf1 i hi
      · intro j hj
        rw [posUpTo_succ]
        by_cases hcj : c = a2.getD j ' '
        · rw [← hcj, if_pos rfl, ml_append,
            mlStep_eq_far w k _ q rest' hrest1 hq]
          have hb := hf2 j hj
          rw [← hcj] at hb
          exact hb
        · rw [if_neg hcj, List.append_nil]
          exact hf2 j hj

theorem jaroMatchLoop_cons (a1 a2 : List Char) (w i : Nat) (rest : List Nat)
    (s1M s2M : List Bool) (m : Nat) :
    jaroMatchLoop a1 a2 w (i :: rest) (s1M, s2M, m) =
      match jaroScan (a1.getD i ' ') a2 s2M (i - w) (min (i + w + 1) a2.length) with
      | some j => jaroMatchLoop a1 a2 w rest (s1M.set i true, s2M.set j true, m + 1)
      | none => jaroMatchLoop a1 a2 w rest (s1M, s2M, m) := rfl

theorem mInv_loop (w : Nat) (a1 a2 : List Char) :
    ∀ (n k : Nat) (s1M s2M : List Bool) (m : Nat),
      MInv w a1 a2 k (s1M, s2M, m) → k + n ≤ a1.length →
      MInv w a1 a2 (k + n)
        (jaroMatchLoop a1 a2 w (List.range' k n) (s1M, s2M, m)) := by
  intro n
  induction n with
  | zero =>
    intro k s1M s2M m h _
    simpa using h
  | succ n ih =>
    intro k s1M s2M m h hle
    rw [List.range'_succ, jaroMatchLoop_cons]
    have hstep := mInv_step w a1 a2 k (by omega) s1M s2M m h
    have harith : k + (n + 1) = (k + 1) + n := by omega
    rw [harith]
    cases hscan : jaroScan (a1.getD k ' ') a2 s2M (k - w) (min (k + w + 1) a2.length) with
    | none =>
      rw [hscan] at hstep
      exact ih (k + 1) s1M s2M m hstep (by omega)
    | some j =>
      rw [hscan] at hstep
      exact ih (k + 1) (s1M.set k true) (s2M.set j true) (m + 1) hstep (by omega)

/-- Characterisation of the whole matching pass. -/
theorem jaroMatchFold_spec (w : Nat) (a1 a2 : List Char) :
    MInv w a1 a2 a1.length (jaroMatchFold a1 a2 w) := by
  have h := mInv_loop w a1 a2 a1.length 0 (List.replicate a1.length false)
    (List.replicate a2.length false) 0 (mInv_zero w a1 a2) (by omega)
  rw [show (0 : Nat) + a1.length = a1.length from by omega] at h
  rw [jaroMatchFold, List.range_eq_range']
  exact h

theorem bool_eq_of_iff {b1 b2 : Bool} (h : b1 = true ↔ b2 = true) : b1 = b2 := by
  cases b1 <;> cases b2 <;> simp_all

/-- Swapping the two strings swaps the two flag arrays of the matching pass
and preserves the match count. -/
theorem jaroMatchFold_swap (w : Nat) (a1 a2 : List Char) :
    jaroMatchFold a2 a1 w =
      ((jaroMatchFold a1 a2 w).2.1, (jaroMatchFold a1 a2 w).1,
        (jaroMatchFold a1 a2 w).2.2) := by
  obtain ⟨hl1, hl2, hf1, hf2, hm1, hm2⟩ := jaroMatchFold_spec w a1 a2
  obtain ⟨hl1', hl2', hf1', hf2', hm1', hm2'⟩ := jaroMatchFold_spec w a2 a1
  have hcomp : (Prod.fst ∘ (Prod.swap : Nat × Nat → Nat × Nat)) = Prod.snd := rfl
  have hcomp2 : (Prod.snd ∘ (Prod.swap : Nat × Nat → Nat × Nat)) = Prod.fst := rfl
  have hflag1 : (jaroMatchFold a2 a1 w).1 = (jaroMatchFold a1 a2 w).2.1 := by
    apply List.ext_getElem (by rw [hl1', hl2])
    intro i h1 h2
    have hi : i < a2.length := by
      rwa [hl1'] at h1
    apply bool_eq_of_iff
    rw [← List.getD_eq_getElem _ false h1, ← List.getD_eq_getElem _ false h2]
    rw [hf1' i hi, hf2 i hi]
    rw [show posUpTo (a2.getD i ' ') a2 a2.length = posOf (a2.getD i ' ') a2 from rfl,
      show posUpTo (a2.getD i ' ') a1 a1.length = posOf (a2.getD i ' ') a1 from rfl]
    rw [ml_swap w (posOf (a2.getD i ' ') a1) (posOf (a2.getD i ' ') a2)]
    rw [List.map_map, hcomp]
  have hflag2 : (jaroMatchFold a2 a1 w).2.1 = (jaroMatchFold a1 a2 w).1 := by
    apply List.ext_getElem (by rw [hl2', hl1])
    intro j h1 h2
    have hj : j < a1.length := by
      rwa [hl2'] at h1
    apply bool_eq_of_iff
    rw [← List.getD_eq_getElem _ false h1, ← List.getD_eq_getElem _ false h2]
    rw [hf2' j hj, hf1 j hj]
    rw [show posUpTo (a1.getD j ' ') a2 a2.length = posOf (a1.getD j ' ') a2 from rfl,
      show posUpTo (a1.getD j ' ') a1 a1.length = posOf (a1.getD j ' ') a1 from rfl]
    rw [ml_swap w (posOf (a1.getD j ' ') a1) (posOf (a1.getD j ' ') a2)]
    rw [List.map_map, hcomp2]
  have hcount : (jaroMatchFold a2 a1 w).2.2 = (jaroMatchFold a1 a2 w).2.2 := by
    rw [hm1', hflag1]
    exact hm2.symm
  have heta : jaroMatchFold a2 a1 w = ((jaroMatchFold a2 a1 w).1,
      (jaroMatchFold a2 a1 w).2.1, (jaroMatchFold a2 a1 w).2.2) := rfl
  rw [heta, hflag1, hflag2, hcount]

/-- Ascending list of the positions whose flag is set. -/
def trueIdx (M : List Bool) : List Nat :=
  (List.range M.length).filter (fun i => M.getD i false)

/-- The set positions at or after `k`. -/
def trueFrom (M : List Bool) (k : Nat) : List Nat :=
  (trueIdx M).filter (fun j => k ≤ j)

/-- Number of positions where the two (zipped) character sequences differ. -/
def mismatches (xs ys : List Char) : Nat :=
  (xs.zip ys).countP (fun pr => decide (pr.1 ≠ pr.2))

theorem mem_trueIdx {M : List Bool} {i : Nat} :
    i ∈ trueIdx M ↔ (i < M.length ∧ M.getD i false = true) := by
  unfold trueIdx
  simp [List.mem_filter, List.mem_range]

theorem trueIdx_sorted (M : List Bool) : (trueIdx M).Pairwise (· < ·) :=
  List.Pairwise.sublist (List.filter_sublist _) (List.pairwise_lt_range _)

theorem trueFrom_sorted (M : List Bool) (k : Nat) :
    (trueFrom M k).Pairwise (· < ·) :=
  List.Pairwise.sublist (List.filter_sublist _) (trueIdx_sorted M)

theorem mem_trueFrom {M : List Bool} {k j : Nat} :
    j ∈ trueFrom M k ↔ (j ∈ trueIdx M ∧ k ≤ j) := by
  unfold trueFrom
  simp [List.mem_filter]

theorem trueIdx_length (M : List Bool) : (trueIdx M).length = countTrue M := by
  induction M with
  | nil => rfl
  | cons b M' ih =>
    rw [countTrue_cons]
    unfold trueIdx
    rw [← List.countP_eq_length_filter]
    rw [show (b :: M').length = M'.length + 1 from rfl, List.range_succ_eq_map,
      List.countP_cons, List.countP_map]
    have hcomp : ((fun i => (b :: M').getD i false) ∘ Nat.succ) =
        (fun i => M'.getD i false) := rfl
    rw [hcomp, List.countP_eq_length_filter]
    unfold trueIdx at ih
    rw [ih]
    show countTrue M' + (if (b :: M').getD 0 false = true then 1 else 0) = _
    cases b
    · simp
    · simp [Nat.add_comm]

theorem firstTrueFrom_eq (M : List Bool) (k : Nat) :
    firstTrueFrom M k =
      match trueFrom M k with
      | [] => M.length
      | j :: _ => j := by
  cases htf : trueFrom M k with
  | nil =>
    unfold firstTrueFrom
    rw [find?_range'_eq_none]
    · rfl
    · intro y hy1 hy2
      cases hv : M.getD y false
      · rfl
      · exfalso
        have hmem : y ∈ trueFrom M k :=
          mem_trueFrom.mpr ⟨mem_trueIdx.mpr ⟨by omega, hv⟩, hy1⟩
        rw [htf] at hmem
        cases hmem
  | cons j0 tl =>
    have hj0 : j0 ∈ trueFrom M k := htf ▸ List.mem_cons_self _ _
    obtain ⟨hj0t, hj0k⟩ := mem_trueFrom.mp hj0
    obtain ⟨hj0len, hj0flag⟩ := mem_trueIdx.mp hj0t
    unfold firstTrueFrom
    rw [find?_range'_eq_some k (M.length - k) hj0k (by omega) hj0flag]
    · rfl
    · intro y hy1 hy2
      cases hv : M.getD y false
      · rfl
      · exfalso
        have hmem : y ∈ trueFrom M k :=
          mem_trueFrom.mpr ⟨mem_trueIdx.mpr ⟨by omega, hv⟩, hy1⟩
        rw [htf] at hmem
        rcases List.mem_cons.mp hmem with rfl | hmem'
        · omega
        · have := (List.pairwise_cons.mp (htf ▸ trueFrom_sorted M k)).1 y hmem'
          omega

theorem trueFrom_tail {M : List Bool} {k j0 : Nat} {tl : List Nat}
    (h : trueFrom M k = j0 :: tl) : trueFrom M (j0 + 1) = tl := by
  have hsorted : (j0 :: tl).Pairwise (· < ·) := h ▸ trueFrom_sorted M k
  have hj0 : j0 ∈ trueFrom M k := h ▸ List.mem_cons_self _ _
  have hj0k : k ≤ j0 := (mem_trueFrom.mp hj0).2
  have h1 : trueFrom M (j0 + 1) = (trueFrom M k).filter (fun j => j0 + 1 ≤ j) := by
    unfold trueFrom
    rw [List.filter_filter]
    apply List.filter_congr
    intro x _
    by_cases hx : j0 + 1 ≤ x
    · have hk : k ≤ x := by omega
      simp [hx, hk]
    · simp [hx]
  rw [h1, h, List.filter_cons_of_neg (by simp)]
  apply List.filter_eq_self.mpr
  intro a ha
  have := (List.pairwise_cons.mp hsorted).1 a ha
  simp
  omega

theorem mismatches_cons (x y : Char) (xs ys : List Char) :
    mismatches (x :: xs) (y :: ys) = (if x = y then 0 else 1) + mismatches xs ys := by
  unfold mismatches
  rw [List.zip_cons_cons, List.countP_cons]
  by_cases h : x = y
  · rw [if_pos h]
    have hd : (decide ((x, y).1 ≠ (x, y).2)) = false := by
      subst h
      simp
    rw [hd]
    simp
  · rw [if_neg h]
    have hd : (decide ((x, y).1 ≠ (x, y).2)) = true := by
      simp
      exact h
    rw [hd]
    simp
    omega

theorem jaroTransLoop_cons (a1 a2 : List Char) (M1 M2 : List Bool) (i : Nat)
    (rest : List Nat) (k t : Nat) :
    jaroTransLoop a1 a2 M1 M2 (i :: rest) k t =
      if M1.getD i false then
        jaroTransLoop a1 a2 M1 M2 rest (firstTrueFrom M2 k + 1)
          (if a1.getD i ' ' = a2.getD (firstTrueFrom M2 k) ' ' then t else t + 1)
      else jaroTransLoop a1 a2 M1 M2 rest k t := rfl

theorem transLoop_spec (a1 a2 : List Char) (M1 M2 : List Bool) :
    ∀ (is : List Nat) (k t : Nat),
      (is.filter (fun i => M1.getD i false)).length ≤ (trueFrom M2 k).length →
      jaroTransLoop a1 a2 M1 M2 is k t =
        t + mismatches
          ((is.filter (fun i => M1.getD i false)).map (fun i => a1.getD i ' '))
          ((trueFrom M2 k).map (fun j => a2.getD j ' ')) := by
  intro is
  induction is with
  | nil =>
    intro k t _
    simp [jaroTransLoop, mismatches]
  | cons i rest ih =>
    intro k t hlen
    rw [jaroTransLoop_cons]
    cases hflag : M1.getD i false with
    | false =>
      rw [show List.filter (fun i => M1.getD i false) (i :: rest)
          = List.filter (fun i => M1.getD i false) rest
        from List.filter_cons_of_neg (by simpa using hflag)] at hlen
      rw [if_neg (by simp), show List.filter (fun i => M1.getD i false) (i :: rest)
          = List.filter (fun i => M1.getD i false) rest
        from List.filter_cons_of_neg (by simpa using hflag)]
      exact ih k t hlen
    | true =>
      rw [show List.filter (fun i => M1.getD i false) (i :: rest)
          = i :: List.filter (fun i => M1.getD i false) rest
        from List.filter_cons_of_pos (by exact hflag)] at hlen
      rw [if_pos rfl, show List.filter (fun i => M1.getD i false) (i :: rest)
          = i :: List.filter (fun i => M1.getD i false) rest
        from List.filter_cons_of_pos (by exact hflag)]
      cases htf : trueFrom M2 k with
      | nil =>
        rw [htf] at hlen
        simp at hlen
      | cons j0 tl =>
        have hk2 : firstTrueFrom M2 k = j0 := by
          rw [firstTrueFrom_eq, htf]
        rw [hk2]
        have htail := trueFrom_tail htf
        have hlen2 : (rest.filter (fun i => M1.getD i false)).length ≤
            (trueFrom M2 (j0 + 1)).length := by
          rw [htail]
          rw [htf] at hlen
          simpa using hlen
        rw [ih (j0 + 1) _ hlen2, htail, List.map_cons, List.map_cons, mismatches_cons]
        by_cases hchar : a1.getD i ' ' = a2.getD j0 ' '
        · rw [if_pos hchar, if_pos hchar]
          omega
        · rw [if_neg hchar, if_neg hchar]
          omega

/-- The transposition pass counts the mismatches between the two matched
character sequences. -/
theorem jaroTrans_eq (a1 a2 : List Char) (M1 M2 : List Bool)
    (hl1 : M1.length = a1.length)
    (hlen : (trueIdx M1).length ≤ (trueIdx M2).length) :
    jaroTrans a1 a2 M1 M2 =
      mismatches ((trueIdx M1).map (fun i => a1.getD i ' '))
        ((trueIdx M2).map (fun j => a2.getD j ' ')) := by
  unfold jaroTrans
  have h0 : trueFrom M2 0 = trueIdx M2 := by
    unfold trueFrom
    apply List.filter_eq_self.mpr
    intro a _
    simp
  have hfil : (List.range a1.length).filter (fun i => M1.getD i false) = trueIdx M1 := by
    unfold trueIdx
    rw [hl1]
  rw [transLoop_spec a1 a2 M1 M2 (List.range a1.length) 0 0 (by rw [hfil, h0]; exact hlen)]
  rw [hfil, h0]
  simp

theorem mismatches_comm (xs ys : List Char) : mismatches xs ys = mismatches ys xs := by
  unfold mismatches
  rw [← List.zip_swap xs ys, List.countP_map]
  apply List.countP_congr
  intro pr _
  simp only [Function.comp]
  by_cases h : pr.1 = pr.2
  · simp [h, Prod.swap]
  · simp [h, Prod.swap, Ne.symm h]

/-- Transpositions are symmetric once the flag arrays are swapped. -/
theorem jaroTrans_swap (w : Nat) (a1 a2 : List Char) :
    jaroTrans a2 a1 (jaroMatchFold a1 a2 w).2.1 (jaroMatchFold a1 a2 w).1 =
      jaroTrans a1 a2 (jaroMatchFold a1 a2 w).1 (jaroMatchFold a1 a2 w).2.1 := by
  obtain ⟨hl1, hl2, _, _, hm1, hm2⟩ := jaroMatchFold_spec w a1 a2
  have hcnt : (trueIdx (jaroMatchFold a1 a2 w).2.1).length =
      (trueIdx (jaroMatchFold a1 a2 w).1).length := by
    rw [trueIdx_length, trueIdx_length, ← hm1, ← hm2]
  rw [jaroTrans_eq a2 a1 _ _ hl2 (by omega),
    jaroTrans_eq a1 a2 _ _ hl1 (by omega)]
  exact mismatches_comm _ _

/-- `jaroSimilarity` is symmetric. -/
theorem jaroSimilarity_comm (s1 s2 : String) :
    jaroSimilarity s1 s2 = jaroSimilarity s2 s1 := by
  simp only [jaroSimilarity]
  by_cases heq : s1 = s2
  · rw [if_pos heq, if_pos (show s2 = s1 from heq.symm)]
  · rw [if_neg heq, if_neg (show ¬ (s2 = s1) from fun h => heq h.symm)]
    by_cases hemp : (s1.isEmpty || s2.isEmpty) = true
    · rw [if_pos hemp,
        if_pos (show (s2.isEmpty || s1.isEmpty) = true by rw [Bool.or_comm]; exact hemp)]
    · rw [if_neg hemp,
        if_neg (show ¬ ((s2.isEmpty || s1.isEmpty) = true) by rw [Bool.or_comm]; exact hemp)]
      have hmax : max s2.data.length s1.data.length
          = max s1.data.length s2.data.length := Nat.max_comm _ _
      rw [hmax]
      by_cases hz : max s1.data.length s2.data.length / 2 = 0
      · rw [if_pos hz, if_pos hz]
      · rw [if_neg hz, if_neg hz]
        rw [jaroMatchFold_swap (max s1.data.length s2.data.length / 2 - 1)
          s1.data s2.data]
        dsimp only
        by_cases hm : (jaroMatchFold s1.data s2.data
            (max s1.data.length s2.data.length / 2 - 1)).2.2 = 0
        · rw [if_pos hm, if_pos hm]
        · rw [if_neg hm, if_neg hm]
          rw [jaroTrans_swap (max s1.data.length s2.data.length / 2 - 1)
            s1.data s2.data]
          ring

theorem commonPrefixAux_comm : ∀ (l1 l2 : List Char) (n : Nat),
    commonPrefixAux l1 l2 n = commonPrefixAux l2 l1 n := by
  intro l1
  induction l1 with
  | nil =>
    intro l2 n
    cases l2 <;> cases n <;> rfl
  | cons c1 r1 ih =>
    intro l2 n
    cases l2 with
    | nil => cases n <;> rfl
    | cons c2 r2 =>
      cases n with
      | zero => rfl
      | succ n =>
        show (if c1 = c2 then commonPrefixAux r1 r2 n + 1 else 0)
          = (if c2 = c1 then commonPrefixAux r2 r1 n + 1 else 0)
        by_cases h : c1 = c2
        · rw [if_pos h, if_pos h.symm, ih r2 n]
        · rw [if_neg h, if_neg (fun hh => h hh.symm)]

theorem commonPrefixLength_comm (s1 s2 : String) :
    commonPrefixLength s1 s2 = commonPrefixLength s2 s1 :=
  commonPrefixAux_comm s1.data s2.data 4

/-- `jaroWinklerSimilarity` is symmetric (for any scaling factor). -/
theorem jaroWinklerSimilarity_comm (s1 s2 : String) (p : ℚ) :
    jaroWinklerSimilarity s1 s2 p = jaroWinklerSimilarity s2 s1 p := by
  simp only [jaroWinklerSimilarity]
  by_cases heq : jsTrim (jsToLower s1) = jsTrim (jsToLower s2)
  · rw [if_pos heq, if_pos (show jsTrim (jsToLower s2) = jsTrim (jsToLower s1) from heq.symm)]
  · rw [if_neg heq, if_neg (show ¬ (jsTrim (jsToLower s2) = jsTrim (jsToLower s1))
      from fun h => heq h.symm)]
    by_cases hemp : ((jsTrim (jsToLower s1)).isEmpty || (jsTrim (jsToLower s2)).isEmpty) = true
    · rw [if_pos hemp, if_pos (show ((jsTrim (jsToLower s2)).isEmpty ||
        (jsTrim (jsToLower s1)).isEmpty) = true by rw [Bool.or_comm]; exact hemp)]
    · rw [if_neg hemp, if_neg (show ¬ (((jsTrim (jsToLower s2)).isEmpty ||
        (jsTrim (jsToLower s1)).isEmpty) = true) by rw [Bool.or_comm]; exact hemp)]
      rw [jaroSimilarity_comm (jsTrim (jsToLower s1)) (jsTrim (jsToLower s2)),
        commonPrefixLength_comm (jsTrim (jsToLower s1)) (jsTrim (jsToLower s2))]

/-! Order lemmas for the JavaScript string comparison, used to show that
sorting two lists with the same members gives the same string. -/

theorem jsStringLt_asymm : ∀ (l1 l2 : List Char),
    jsStringLt l1 l2 = true → jsStringLt l2 l1 = true → False := by
  intro l1
  induction l1 with
  | nil =>
    intro l2 h1 h2
    cases l2 with
    | nil => cases h1
    | cons b bs => cases h2
  | cons a as ih =>
    intro l2 h1 h2
    cases l2 with
    | nil => cases h1
    | cons b bs =>
      show False
      rw [show jsStringLt (a :: as) (b :: bs)
          = (if a < b then true else if b < a then false else jsStringLt as bs) from rfl] at h1
      rw [show jsStringLt (b :: bs) (a :: as)
          = (if b < a then true else if a < b then false else jsStringLt bs as) from rfl] at h2
      by_cases hab : a < b
      · rw [if_pos hab] at h1
        rw [if_neg (lt_asymm hab), if_pos hab] at h2
        cases h2
      · rw [if_neg hab] at h1
        by_cases hba : b < a
        · rw [if_pos hba] at h1
          cases h1
        · rw [if_neg hba] at h1
          rw [if_neg hba, if_neg hab] at h2
          exact ih bs h1 h2

theorem jsStringLt_trichotomy : ∀ (l1 l2 : List Char),
    jsStringLt l1 l2 = true ∨ l1 = l2 ∨ jsStringLt l2 l1 = true := by
  intro l1
  induction l1 with
  | nil =>
    intro l2
    cases l2 with
    | nil => exact Or.inr (Or.inl rfl)
    | cons b bs => exact Or.inl rfl
  | cons a as ih =>
    intro l2
    cases l2 with
    | nil => exact Or.inr (Or.inr rfl)
    | cons b bs =>
      rcases lt_trichotomy a b with hab | hab | hab
      · left
        show (if a < b then true else if b < a then false else jsStringLt as bs) = true
        rw [if_pos hab]
      · subst hab
        rcases ih bs with h | h | h
        · left
          show (if a < a then true else if a < a then false else jsStringLt as bs) = true
          rw [if_neg (lt_irrefl a), if_neg (lt_irrefl a)]
          exact h
        · subst h
          exact Or.inr (Or.inl rfl)
        · right
          right
          show (if a < a then true else if a < a then false else jsStringLt bs as) = true
          rw [if_neg (lt_irrefl a), if_neg (lt_irrefl a)]
          exact h
      · right
        right
        show (if b < a then true else if a < b then false else jsStringLt bs as) = true
        rw [if_pos hab]

theorem jsStringLt_trans : ∀ (l1 l2 l3 : List Char),
    jsStringLt l1 l2 = true → jsStringLt l2 l3 = true → jsStringLt l1 l3 = true := by
  intro l1
  induction l1 with
  | nil =>
    intro l2 l3 h1 h2
    cases l2 with
    | nil => cases h1
    | cons b bs =>
      cases l3 with
      | nil => cases h2
      | cons c cs => rfl
  | cons a as ih =>
    intro l2 l3 h1 h2
    cases l2 with
    | nil => cases h1
    | cons b bs =>
      cases l3 with
      | nil => cases h2
      | cons c cs =>
        rw [show jsStringLt (a :: as) (b :: bs)
            = (if a < b then true else if b < a then false else jsStringLt as bs) from rfl] at h1
        rw [show jsStringLt (b :: bs) (c :: cs)
            = (if b < c then true else if c < b then false else jsStringLt bs cs) from rfl] at h2
        show (if a < c then true else if c < a then false else jsStringLt as cs) = true
        by_cases hab : a < b
        · by_cases hbc : b < c
          · rw [if_pos (lt_trans hab hbc)]
          · rw [if_neg hbc] at h2
            by_cases hcb : c < b
            · rw [if_pos hcb] at h2
              cases h2
            · have hbceq : b = c := le_antisymm (not_lt.mp hcb) (not_lt.mp hbc)
              subst hbceq
              rw [if_pos hab]
        · rw [if_neg hab] at h1
          by_cases hba : b < a
          · rw [if_pos hba] at h1
            cases h1
          · rw [if_neg hba] at h1
            have habeq : a = b := le_antisymm (not_lt.mp hba) (not_lt.mp hab)
            subst habeq
            by_cases hac : a < c
            · rw [if_pos hac]
            · rw [if_neg hac] at h2 ⊢
              by_cases hca : c < a
              · rw [if_pos hca] at h2
                cases h2
              · rw [if_neg hca] at h2 ⊢
                exact ih bs cs h1 h2

theorem string_data_eq {s1 s2 : String} (h : s1.data = s2.data) : s1 = s2 := by
  cases s1
  cases s2
  exact congrArg String.mk h

theorem sortStrings_le_trans : ∀ (x y z : String),
    (!jsStringLt y.data x.data) = true → (!jsStringLt z.data y.data) = true →
    (!jsStringLt z.data x.data) = true := by
  intro x y z h1 h2
  rw [Bool.not_eq_true'] at h1 h2 ⊢
  by_cases hzx : jsStringLt z.data x.data = true
  · exfalso
    rcases jsStringLt_trichotomy y.data z.data with h | h | h
    · have := jsStringLt_trans y.data z.data x.data h hzx
      rw [this] at h1
      cases h1
    · rw [← h] at hzx
      rw [hzx] at h1
      cases h1
    · rw [h] at h2
      cases h2
  · cases hv : jsStringLt z.data x.data
    · rfl
    · exact absurd hv hzx

theorem sortStrings_le_total : ∀ (x y : String),
    (!jsStringLt y.data x.data) = true ∨ (!jsStringLt x.data y.data) = true := by
  intro x y
  by_cases h : jsStringLt y.data x.data = true
  · right
    rw [Bool.not_eq_true']
    cases hv : jsStringLt x.data y.data
    · rfl
    · exact absurd (jsStringLt_asymm _ _ hv h) (fun f => f)
  · left
    rw [Bool.not_eq_true']
    cases hv : jsStringLt y.data x.data
    · rfl
    · exact absurd hv h

theorem sortStrings_le_antisymm : ∀ (x y : String),
    (!jsStringLt y.data x.data) = true → (!jsStringLt x.data y.data) = true → x = y := by
  intro x y h1 h2
  rw [Bool.not_eq_true'] at h1 h2
  rcases jsStringLt_trichotomy x.data y.data with h | h | h
  · rw [h] at h2
    cases h2
  · exact string_data_eq h
  · rw [h] at h1
    cases h1

theorem sortStrings_sorted (l : List String) :
    (sortStrings l).Pairwise (fun a b => (!jsStringLt b.data a.data) = true) :=
  stableSort_pairwise (fun a b => !jsStringLt b.data a.data)
    sortStrings_le_trans sortStrings_le_total l

theorem sortStrings_eq_of_perm {l1 l2 : List String} (h : l1.Perm l2) :
    sortStrings l1 = sortStrings l2 := by
  haveI : IsAntisymm String (fun a b => (!jsStringLt b.data a.data) = true) :=
    ⟨sortStrings_le_antisymm⟩
  exact List.eq_of_perm_of_sorted
    (((stableSort_perm _ l1).trans h).trans (stableSort_perm _ l2).symm)
    (sortStrings_sorted l1) (sortStrings_sorted l2)

theorem sortedTokenString_congr {l1 l2 : List String} (h : l1.Perm l2) :
    sortedTokenString l1 = sortedTokenString l2 := by
  unfold sortedTokenString
  rw [sortStrings_eq_of_perm h]

/-! `List.eraseDups` lemmas over an arbitrary lawful `BEq` type (for the
string token sets; the `Nat` versions above serve the cluster development). -/

theorem eraseDupsG_loop_mem {α : Type _} [BEq α] [LawfulBEq α] (x : α) :
    ∀ (as bs : List α), x ∈ List.eraseDups.loop as bs ↔ x ∈ bs ∨ x ∈ as := by
  intro as
  induction as with
  | nil =>
    intro bs
    simp [List.eraseDups.loop]
  | cons a as ih =>
    intro bs
    cases hel : bs.elem a with
    | true =>
      have ha : a ∈ bs := List.elem_iff.mp hel
      simp only [List.eraseDups.loop, hel, ih, List.mem_cons]
      constructor
      · rintro (h | h)
        · exact Or.inl h
        · exact Or.inr (Or.inr h)
      · rintro (h | rfl | h)
        · exact Or.inl h
        · exact Or.inl ha
        · exact Or.inr h
    | false =>
      simp only [List.eraseDups.loop, hel, ih, List.mem_cons]
      tauto

theorem eraseDupsG_loop_nodup {α : Type _} [BEq α] [LawfulBEq α] :
    ∀ (as bs : List α), bs.Nodup → (List.eraseDups.loop as bs).Nodup := by
  intro as
  induction as with
  | nil =>
    intro bs hbs
    simpa [List.eraseDups.loop] using hbs
  | cons a as ih =>
    intro bs hbs
    cases hel : bs.elem a with
    | true =>
      simpa only [List.eraseDups.loop, hel] using ih bs hbs
    | false =>
      have ha : a ∉ bs := by
        intro h
        rw [List.elem_iff.mpr h] at hel
        exact absurd hel (by simp)
      simpa only [List.eraseDups.loop, hel] using ih (a :: bs) (List.nodup_cons.mpr ⟨ha, hbs⟩)

theorem mem_eraseDupsG {α : Type _} [BEq α] [LawfulBEq α] {x : α} {l : List α} :
    x ∈ l.eraseDups ↔ x ∈ l := by
  unfold List.eraseDups
  rw [eraseDupsG_loop_mem]
  simp

theorem nodup_eraseDupsG {α : Type _} [BEq α] [LawfulBEq α] (l : List α) :
    l.eraseDups.Nodup :=
  eraseDupsG_loop_nodup l [] List.nodup_nil

/-- The three score entries of `tokenSetRatio` are each symmetric as a block. -/
theorem scoreBlock_comm (a b : String) (p : ℚ) :
    (if a ≠ "" && b ≠ "" then [jaroWinklerSimilarity a b p] else [])
      = (if b ≠ "" && a ≠ "" then [jaroWinklerSimilarity b a p] else []) := by
  rw [jaroWinklerSimilarity_comm a b p, Bool.and_comm]

theorem foldl_max_shift : ∀ (l : List ℚ) (z a : ℚ),
    l.foldl max (max z a) = max a (l.foldl max z) := by
  intro l
  induction l with
  | nil =>
    intro z a
    exact max_comm z a
  | cons b bs ih =>
    intro z a
    show bs.foldl max (max (max z a) b) = max a (bs.foldl max (max z b))
    rw [show max (max z a) b = max (max z b) a from by
      rw [max_assoc, max_comm a b, ← max_assoc], ih]

theorem foldlMax_append_comm (x y : List ℚ) (z : ℚ) :
    (x ++ y).foldl max z = (y ++ x).foldl max z := by
  induction x generalizing z with
  | nil => rw [List.nil_append, List.append_nil]
  | cons a x' ih =>
    rw [List.cons_append, List.foldl_cons, ih]
    rw [List.foldl_append, List.foldl_append, List.foldl_cons]
    rw [foldl_max_shift y z a, max_comm a (y.foldl max z)]

theorem tokenSortRatio_comm (s1 s2 : String) :
    tokenSortRatio s1 s2 = tokenSortRatio s2 s1 := by
  simp only [tokenSortRatio]
  rw [Bool.and_comm (decide ((tokenize s2).length = 0)) (decide ((tokenize s1).length = 0)),
    Bool.or_comm (decide ((tokenize s2).length = 0)) (decide ((tokenize s1).length = 0))]
  by_cases hb1 : ((tokenize s1).length = 0 && (tokenize s2).length = 0) = true
  · rw [if_pos hb1, if_pos hb1]
  · rw [if_neg hb1, if_neg hb1]
    by_cases hb2 : ((tokenize s1).length = 0 || (tokenize s2).length = 0) = true
    · rw [if_pos hb2, if_pos hb2]
    · rw [if_neg hb2, if_neg hb2]
      exact jaroWinklerSimilarity_comm _ _ _

theorem tokenSetRatio_comm (s1 s2 : String) :
    tokenSetRatio s1 s2 = tokenSetRatio s2 s1 := by
  simp only [tokenSetRatio]
  rw [Bool.and_comm (decide ((tokenize s2).eraseDups.length = 0))
      (decide ((tokenize s1).eraseDups.length = 0)),
    Bool.or_comm (decide ((tokenize s2).eraseDups.length = 0))
      (decide ((tokenize s1).eraseDups.length = 0))]
  by_cases hb1 : ((tokenize s1).eraseDups.length = 0 && (tokenize s2).eraseDups.length = 0) = true
  · rw [if_pos hb1, if_pos hb1]
  · rw [if_neg hb1, if_neg hb1]
    by_cases hb2 : ((tokenize s1).eraseDups.length = 0 || (tokenize s2).eraseDups.length = 0) = true
    · rw [if_pos hb2, if_pos hb2]
    · rw [if_neg hb2, if_neg hb2]
      set T1 := (tokenize s1).eraseDups with hT1
      set T2 := (tokenize s2).eraseDups with hT2
      have hinter_perm : (T2.filter (fun t => T1.contains t)).Perm
          (T1.filter (fun t => T2.contains t)) := by
        refine (List.perm_ext_iff_of_nodup
          ((nodup_eraseDupsG (tokenize s2)).filter _)
          ((nodup_eraseDupsG (tokenize s1)).filter _)).mpr ?_
        intro a
        simp only [List.mem_filter, List.contains, List.elem_eq_mem, decide_eq_true_iff]
        exact ⟨fun h => ⟨h.2, h.1⟩, fun h => ⟨h.2, h.1⟩⟩
      have hIS : sortedTokenString (T2.filter (fun t => T1.contains t))
          = sortedTokenString (T1.filter (fun t => T2.contains t)) :=
        sortedTokenString_congr hinter_perm
      have hC1 : sortedTokenString ((T2.filter (fun t => T1.contains t)) ++
            (T2.filter (fun t => !T1.contains t)))
          = sortedTokenString ((T1.filter (fun t => T2.contains t)) ++
            (T2.filter (fun t => !T1.contains t))) :=
        sortedTokenString_congr (hinter_perm.append_right _)
      have hC2 : sortedTokenString ((T2.filter (fun t => T1.contains t)) ++
            (T1.filter (fun t => !T2.contains t)))
          = sortedTokenString ((T1.filter (fun t => T2.contains t)) ++
            (T1.filter (fun t => !T2.contains t))) :=
        sortedTokenString_congr (hinter_perm.append_right _)
      rw [hIS, hC1, hC2]
      by_cases hi0 : (T1.filter (fun t => T2.contains t)).length = 0
      · rw [if_pos hi0,
          if_pos (show (T2.filter (fun t => T1.contains t)).length = 0 from
            hinter_perm.length_eq.trans hi0)]
        exact tokenSortRatio_comm s1 s2
      · rw [if_neg hi0,
          if_neg (show ¬ ((T2.filter (fun t => T1.contains t)).length = 0) from
            fun h => hi0 (hinter_perm.length_eq.symm.trans h))]
        rw [← scoreBlock_comm
          (sortedTokenString ((T1.filter (fun t => T2.contains t)) ++
            (T1.filter (fun t => !T2.contains t))))
          (sortedTokenString ((T1.filter (fun t => T2.contains t)) ++
            (T2.filter (fun t => !T1.contains t)))) (1/10)]
        set IS := sortedTokenString (T1.filter (fun t => T2.contains t)) with hISs
        set X1 := sortedTokenString ((T1.filter (fun t => T2.contains t)) ++
          (T1.filter (fun t => !T2.contains t))) with hX1
        set X2 := sortedTokenString ((T1.filter (fun t => T2.contains t)) ++
          (T2.filter (fun t => !T1.contains t))) with hX2
        by_cases hmain : IS = X1 ∧ X1 = X2
        · rw [if_pos hmain, if_pos ⟨hmain.1.trans hmain.2, hmain.2.symm⟩]
        · rw [if_neg hmain,
            if_neg (show ¬ (IS = X2 ∧ X2 = X1) from
              fun h => hmain ⟨h.1.trans h.2, h.2.symm⟩)]
          rw [List.foldl_append, List.foldl_append, List.foldl_append, List.foldl_append]
          have hmid : List.foldl max (List.foldl max 0
              (if IS ≠ "" && X1 ≠ "" then [jaroWinklerSimilarity IS X1 (1/10)] else []))
              (if IS ≠ "" && X2 ≠ "" then [jaroWinklerSimilarity IS X2 (1/10)] else [])
            = List.foldl max (List.foldl max 0
              (if IS ≠ "" && X2 ≠ "" then [jaroWinklerSimilarity IS X2 (1/10)] else []))
              (if IS ≠ "" && X1 ≠ "" then [jaroWinklerSimilarity IS X1 (1/10)] else []) := by
            rw [← List.foldl_append, ← List.foldl_append]
            exact foldlMax_append_comm _ _ 0
          rw [hmid]

/-- `combinedFuzzyMatch` (`token-set-ratio.ts`): the Jaro–Winkler score, the
token-set ratio, and their maximum. -/
def combinedFuzzyMatch (s1 s2 : String) : ℚ × ℚ × ℚ :=
  let jw := jaroWinklerSimilarity s1 s2
  let tsr := tokenSetRatio s1 s2
  (jw, tsr, max jw tsr)

theorem combinedFuzzyMatch_comm (s1 s2 : String) :
    combinedFuzzyMatch s1 s2 = combinedFuzzyMatch s2 s1 := by
  simp only [combinedFuzzyMatch]
  rw [jaroWinklerSimilarity_comm s1 s2, tokenSetRatio_comm s1 s2]

/-- C7: For all strings `a` and `b`, the name scoring functions are symmetric —
`jaroWinklerSimilarity(a,b) = jaroWinklerSimilarity(b,a)` (for every scaling
factor, hence in particular for the default) and
`tokenSetRatio(a,b) = tokenSetRatio(b,a)`, so the combined score
`combinedFuzzyMatch` (the `scoreNames` of the spec) is symmetric as well — and
for all coordinate pairs `p` and `q`, `haversineDistance(p,q) =
haversineDistance(q,p)`. -/
theorem scoring_symmetric :
    (∀ (a b : String) (p : ℚ),
      jaroWinklerSimilarity a b p = jaroWinklerSimilarity b a p) ∧
    (∀ a b : String, tokenSetRatio a b = tokenSetRatio b a) ∧
    (∀ a b : String, combinedFuzzyMatch a b = combinedFuzzyMatch b a) ∧
    (∀ lat1 lng1 lat2 lng2 : ℝ,
      haversineDistance lat1 lng1 lat2 lng2 = haversineDistance lat2 lng2 lat1 lng1) :=
  ⟨jaroWinklerSimilarity_comm, tokenSetRatio_comm, combinedFuzzyMatch_comm,
    haversineDistance_comm⟩

end Mapsh
